import Mathlib

/-!
# COOL semantic analyser: inheritance-graph validation

A shallow embedding of `src/semanticanalyzer.cpp` (`install_basic`,
`invalid_parent`, `cyclic_check`, `validate_inheritance`, `type_check`,
`get_inherit_graph`) and of `src/astnodevisitor.cpp` (`AstNodeDisplayer`),
together with the part of the AST data model these functions read, followed by
theorems about them.

Modelling conventions

* A `Symbol` is the interned text of an identifier; two symbols are equal
  exactly when their texts are equal, so `Symbol` is `String`.
* A `ClassPtr` (`std::shared_ptr<Class>`) is an address together with the
  object it points to.  Containers keyed by `ClassPtr` compare addresses.
* `std::cerr` is the list of texts written to it, one entry per output
  statement sequence that ends in a newline.
* `cyclic_check` is recursive without a structural measure, so it takes a fuel
  argument; running out of fuel and dereferencing a null `ClassPtr` are the two
  ways in which the model reports that the C++ call did not return.
-/

namespace Cool

/-! ## Symbols and constants -/

abbrev Symbol := String

namespace constants

/-- Modelled from the spec: `constants.hpp` is not among the sources; the name
of the universal root class. -/
def OBJECT : Symbol := "Object"

/-- Modelled from the spec: `constants.hpp` is not among the sources; the name
of the I/O capability class. -/
def IO_CLASS : Symbol := "IO"

/-- Modelled from the spec: `constants.hpp` is not among the sources; the name
of the string wrapper class. -/
def STRING : Symbol := "String"

/-- Modelled from the spec: `constants.hpp` is not among the sources; the name
of the boolean wrapper class. -/
def BOOLEAN : Symbol := "Bool"

/-- Modelled from the spec: `constants.hpp` is not among the sources; the name
of the integer wrapper class. -/
def INTEGER : Symbol := "Int"

/-- Modelled from the spec: `constants.hpp` is not among the sources; the name
of the program entry class. -/
def MAIN : Symbol := "Main"

/-- Modelled from the spec: `constants.hpp` is not among the sources; the
sentinel that the root class carries in place of a parent. -/
def NOCLASS : Symbol := "_no_class"

end constants

open constants

/-! ## AST data model (the fields the sources read) -/

mutual
/-- Expression nodes, with the sub-expressions the sources traverse. -/
inductive Expression where
  | StringConst (token : Symbol)
  | IntConst (token : Symbol)
  | BoolConst (value : Bool)
  | New
  | IsVoid (expr : Expression)
  | Assign (rhs : Expression)
  | Block (body : List Expression)
  | If (predicate iftrue iffalse : Expression)
  | While (predicate body : Expression)
  | Complement (expr : Expression)
  | LessThan (lhs rhs : Expression)
  | EqualTo (lhs rhs : Expression)
  | LessThanEqualTo (lhs rhs : Expression)
  | Plus (lhs rhs : Expression)
  | Sub (lhs rhs : Expression)
  | Mul (lhs rhs : Expression)
  | Div (lhs rhs : Expression)
  | Not (expr : Expression)
  | StaticDispatch (obj : Expression) (actual : List Expression)
  | DynamicDispatch (obj : Expression) (actual : List Expression)
  | Let (init body : Expression)
  | Case (expr : Expression) (branches : List CaseBranch)
  | Object
  | NoExpr
/-- One branch of a case expression. -/
inductive CaseBranch where
  | mk (expr : Expression)
end

/-- A method parameter: `Formal(name, type_decl)`. -/
structure Formal where
  name : Symbol
  type_decl : Symbol

abbrev Formals := List Formal

/-- A class feature: `Attribute(name, type_decl, init)` or
`Method(name, return_type, params, body)`. -/
inductive Feature where
  | Attribute (name type_decl : Symbol) (init : Expression)
  | Method (name return_type : Symbol) (params : Formals) (body : Expression)

abbrev Features := List Feature

/-- A class declaration: `Class(name, parent, filename, features)`. -/
structure Class where
  name : Symbol
  parent : Symbol
  filename : Symbol
  features : Features

/-- A `std::shared_ptr<Class>`: the address of the object and the object. -/
structure ClassPtr where
  addr : Nat
  obj : Class

/-- The `name` read through the pointer (`node->name`). -/
abbrev ClassPtr.name (p : ClassPtr) : Symbol := p.obj.name

/-- The `parent` read through the pointer (`c->parent`). -/
abbrev ClassPtr.parent (p : ClassPtr) : Symbol := p.obj.parent

abbrev Classes := List ClassPtr

/-! ## Containers keyed by `ClassPtr` -/

/-- A `std::set<ClassPtr>`: the addresses it holds. -/
abbrev ClassPtrSet := List Nat

/-- The member `count` of a set: 1 when the pointer is present, else 0. -/
def ClassPtrSet.count (s : ClassPtrSet) (p : ClassPtr) : Nat :=
  if p.addr ∈ s then 1 else 0

/-- The member `insert` of a set: nothing changes when the pointer is present. -/
def ClassPtrSet.insert (s : ClassPtrSet) (p : ClassPtr) : ClassPtrSet :=
  if p.addr ∈ s then s else p.addr :: s

/-- A `std::map<ClassPtr, ClassPtr>`: its entries in iteration order, which is
increasing key address. -/
abbrev ClassPtrMap := List (ClassPtr × ClassPtr)

/-- The value stored under a key, if the key is present. -/
def ClassPtrMap.lookup : ClassPtrMap → ClassPtr → Option ClassPtr
  | [], _ => none
  | (k, v) :: rest, p => if k.addr = p.addr then some v else ClassPtrMap.lookup rest p

/-- The member `count` of a map: 1 when the key is present, else 0. -/
def ClassPtrMap.count (m : ClassPtrMap) (p : ClassPtr) : Nat :=
  if (ClassPtrMap.lookup m p).isSome then 1 else 0

/-- The statement `m[k] = v`: the value under an existing key is replaced (the
key object stays), a new key is inserted at its place in address order. -/
def ClassPtrMap.assign : ClassPtrMap → ClassPtr → ClassPtr → ClassPtrMap
  | [], k, v => [(k, v)]
  | (k', v') :: rest, k, v =>
    if k.addr < k'.addr then (k, v) :: (k', v') :: rest
    else if k.addr = k'.addr then (k', v) :: rest
    else (k', v') :: ClassPtrMap.assign rest k v

/-! ## The analyser -/

/-- The data members of `SemanticAnalyzer` that validation uses, and the text
written to `std::cerr`. -/
structure SemanticAnalyzer where
  inherit_graph : ClassPtrMap
  visited : ClassPtrSet
  processed : ClassPtrSet
  cerr : List String

/-- A default-constructed analyser: empty containers, nothing written. -/
def SemanticAnalyzer.fresh : SemanticAnalyzer :=
  { inherit_graph := [], visited := [], processed := [], cerr := [] }

/-- Writing one diagnostic to `std::cerr`. -/
def SemanticAnalyzer.emit (s : SemanticAnalyzer) (line : String) : SemanticAnalyzer :=
  { s with cerr := s.cerr ++ [line] }

/-- The ways in which a call fails to return. -/
inductive Fault where
  | outOfFuel
  | nullDeref
  deriving DecidableEq, Repr

/-- Modelled from the spec: `utility::is_basic_class` is declared in
`utility.hpp`, which is not among the sources; the five built-in class names. -/
def is_basic_class (name : Symbol) : Bool :=
  name == OBJECT || name == IO_CLASS || name == INTEGER || name == BOOLEAN || name == STRING

/-- `SemanticAnalyzer::invalid_parent`. -/
def invalid_parent (parent : Symbol) : Bool :=
  parent == STRING || parent == BOOLEAN || parent == INTEGER

/-- The text written by `cyclic_check` on a revisit. -/
def cyclicMsg (name : Symbol) : String :=
  "Cyclic dependency found in class " ++ name ++ "\n"

/-- The text written for a primitive parent. -/
def illegalParentMsg : String :=
  "error:Cannot inherit from any of the basic classes - String, Bool, Int\n"

/-- The text written for a registered class with a built-in name. -/
def basicRedefMsg : String :=
  "error:Redefinition of any basic class - IO, String, Bool, Int not allowed.\n"

/-- The text written for a registered class with a user name. -/
def multipleDefMsg (name : Symbol) : String :=
  "error:Class " ++ name ++ " has multiple definitions.\n"

/-- The text written for a parent name that no class carries. -/
def unresolvedMsg (name : Symbol) : String :=
  "error:" ++ name ++ " inherits from a class that doesn't exist.\n"

/-- The text written when no class is named `Main`. -/
def mainMsg : String := "error:Main class not found.\n"

/-- `SemanticAnalyzer::cyclic_check(graph, node)`.  `graph[node]` on a key that
is absent inserts a null `ClassPtr`, whose `name` the recursive call then
reads: that is `Fault.nullDeref`. -/
def cyclic_check : Nat → ClassPtrMap → ClassPtr → SemanticAnalyzer →
    Except Fault (Bool × SemanticAnalyzer)
  | 0, _, _, _ => .error .outOfFuel
  | fuel + 1, graph, node, s =>
    if node.name = OBJECT ∨ node.name = IO_CLASS then .ok (true, s)
    else if s.visited.count node = 1 ∧ s.processed.count node = 0 then
      .ok (false, s.emit (cyclicMsg node.name))
    else
      let s1 := { s with visited := s.visited.insert node }
      match graph.lookup node with
      | none => .error .nullDeref
      | some p =>
        match cyclic_check fuel graph p s1 with
        | .error e => .error e
        | .ok (false, s2) => .ok (false, s2)
        | .ok (true, s2) => .ok (true, { s2 with processed := s2.processed.insert node })

/-- The `std::find_if` over `classes` for the class named as `c`'s parent. -/
def find_parent (classes : Classes) (c : ClassPtr) : Option ClassPtr :=
  classes.find? (fun p => c.parent == p.name)

/-- Lines 101-105: the primitive-parent check. -/
def check_invalid_parent (c : ClassPtr) (st : Bool × SemanticAnalyzer) :
    Bool × SemanticAnalyzer :=
  if invalid_parent c.parent then (false, st.2.emit illegalParentMsg) else st

/-- Lines 107-115: the check that the class is not yet a key of the relation. -/
def check_duplicate (c : ClassPtr) (st : Bool × SemanticAnalyzer) :
    Bool × SemanticAnalyzer :=
  if st.2.inherit_graph.count c > 0 then
    (false, st.2.emit (if is_basic_class c.name then basicRedefMsg else multipleDefMsg c.name))
  else st

/-- Lines 117-133: parent resolution and recording of the edge. -/
def check_parent (classes : Classes) (c : ClassPtr) (st : Bool × SemanticAnalyzer) :
    Bool × SemanticAnalyzer :=
  match find_parent classes c with
  | none =>
    if c.name ≠ OBJECT then (false, st.2.emit (unresolvedMsg c.name)) else st
  | some p => (st.1, { st.2 with inherit_graph := st.2.inherit_graph.assign c p })

/-- One iteration of the loop over `classes` (lines 98-134). -/
def class_step (classes : Classes) (st : Bool × SemanticAnalyzer) (c : ClassPtr) :
    Bool × SemanticAnalyzer :=
  check_parent classes c (check_duplicate c (check_invalid_parent c st))

/-- The loop over `classes` (lines 98-134), from `status = true`. -/
def class_loop (classes : Classes) (s : SemanticAnalyzer) : Bool × SemanticAnalyzer :=
  classes.foldl (class_step classes) (true, s)

/-- Lines 136-145: the search for a class named `Main`. -/
def main_check (classes : Classes) (st : Bool × SemanticAnalyzer) :
    Bool × SemanticAnalyzer :=
  match classes.find? (fun p => p.name == MAIN) with
  | none => (false, st.2.emit mainMsg)
  | some _ => st

/-- Lines 147-149: one `cyclic_check` per entry of the relation, in iteration
order. -/
def cycle_loop (fuel : Nat) (graph : ClassPtrMap) :
    List (ClassPtr × ClassPtr) → Bool × SemanticAnalyzer →
    Except Fault (Bool × SemanticAnalyzer)
  | [], st => .ok st
  | elem :: rest, st =>
    match cyclic_check fuel graph elem.1 st.2 with
    | .error e => .error e
    | .ok (true, s') => cycle_loop fuel graph rest (st.1, s')
    | .ok (false, s') => cycle_loop fuel graph rest (false, s')

/-- `SemanticAnalyzer::validate_inheritance(classes)`; `fuel` bounds the depth
of each walk. -/
def validate_inheritance (fuel : Nat) (s : SemanticAnalyzer) (classes : Classes) :
    Except Fault (Bool × SemanticAnalyzer) :=
  let st := main_check classes (class_loop classes s)
  cycle_loop fuel st.2.inherit_graph st.2.inherit_graph st

/-- A class object with the given name and parent and no features. -/
def mkClass (addr : Nat) (name parent : Symbol) : ClassPtr :=
  { addr := addr, obj := { name := name, parent := parent, filename := "filename", features := [] } }

/-- The boolean a completed call returned. -/
def returned : Except Fault (Bool × SemanticAnalyzer) → Option Bool
  | .ok (b, _) => some b
  | .error _ => none

/-- The text a completed call left on `std::cerr`. -/
def output : Except Fault (Bool × SemanticAnalyzer) → Option (List String)
  | .ok (_, s) => some s.cerr
  | .error _ => none

/-- The fault of a call that did not return. -/
def fault : Except Fault (Bool × SemanticAnalyzer) → Option Fault
  | .ok _ => none
  | .error e => some e

/-! ## Notions used in the statements -/

/-- A class at which a walk stops with success: named `Object` or `IO`. -/
def isRootName (c : ClassPtr) : Prop := c.name = OBJECT ∨ c.name = IO_CLASS

instance (c : ClassPtr) : Decidable (isRootName c) := by
  unfold isRootName; infer_instance

/-- The class reached from `c` by following `k` recorded parent edges. -/
def ancestor (graph : ClassPtrMap) : Nat → ClassPtr → Option ClassPtr
  | 0, c => some c
  | k + 1, c =>
    match graph.lookup c with
    | none => none
    | some p => ancestor graph k p

/-- The state in which `cyclic_check` makes its recursive call. -/
def markVisited (s : SemanticAnalyzer) (n : ClassPtr) : SemanticAnalyzer :=
  { s with visited := s.visited.insert n }

/-- The state in which `cyclic_check` returns after a successful recursive call. -/
def markProcessed (s : SemanticAnalyzer) (n : ClassPtr) : SemanticAnalyzer :=
  { s with processed := s.processed.insert n }

/-- The chain of `c` reaches a class named `Object` or `IO` after exactly `k`
edges and not earlier. -/
def ReachesRootAt (g : ClassPtrMap) (k : Nat) (c : ClassPtr) : Prop :=
  (∃ r, ancestor g k c = some r ∧ isRootName r) ∧
    ∀ i, i < k → ∀ a, ancestor g i c = some a → ¬ isRootName a

/-- The chain of `c` reaches a class named `Object` or `IO`. -/
def ReachesRoot (g : ClassPtrMap) (c : ClassPtr) : Prop :=
  ∃ k r, ancestor g k c = some r ∧ isRootName r

/-- A chain of processed classes from `c` to a class named `Object` or `IO`. -/
inductive Settled (g : ClassPtrMap) (P : ClassPtrSet) : ClassPtr → Prop where
  | root (c v : ClassPtr) : g.lookup c = some v → isRootName v → Settled g P c
  | step (c v : ClassPtr) : g.lookup c = some v → v.addr ∈ P → Settled g P v → Settled g P c

/-- The condition on the marker sets that every walk started by
`validate_inheritance` finds and leaves: processed classes are visited, and
each has a chain of processed classes to a root name. -/
def WalkInv (g : ClassPtrMap) (s : SemanticAnalyzer) : Prop :=
  (∀ a, a ∈ s.processed → a ∈ s.visited) ∧
    ∀ c : ClassPtr, c.addr ∈ s.processed → Settled g s.processed c

/-- Every recorded parent is named `Object` or `IO` or has a recorded edge. -/
def Closed (g : ClassPtrMap) : Prop :=
  ∀ e, e ∈ g → isRootName e.2 ∨ (g.lookup e.2).isSome = true

instance (g : ClassPtrMap) : Decidable (Closed g) := by
  unfold Closed; infer_instance

/-- The number of key addresses of the relation that are not marked visited. -/
def unvisited (g : ClassPtrMap) (s : SemanticAnalyzer) : Nat :=
  ((g.map fun e => e.1.addr).toFinset \ s.visited.toFinset).card

/-- The effect of one iteration of the loop over `classes` on the relation: an
edge is stored exactly when the parent name is found. -/
def record (classes : Classes) (g : ClassPtrMap) (c : ClassPtr) : ClassPtrMap :=
  match find_parent classes c with
  | none => g
  | some p => g.assign c p

/-- Pointers with the same address point to the same object. -/
def SameObject (classes : Classes) : Prop :=
  ∀ c d, c ∈ classes → d ∈ classes → c.addr = d.addr → c = d

/-- The relation that `validate_inheritance` builds on a default-constructed
analyser. -/
def graph_of (classes : Classes) : ClassPtrMap :=
  (main_check classes (class_loop classes SemanticAnalyzer.fresh)).2.inherit_graph

/-- The chain of `c` in `g` reaches a class with the name `root` after `k`
edges, and no two of the classes visited on the way share an address. -/
def RootedChain (g : ClassPtrMap) (root : Symbol → Prop) (c : ClassPtr) (k : Nat) : Prop :=
  (∃ r, ancestor g k c = some r ∧ root r.name) ∧
    ∀ i j a b, i < j → j ≤ k → ancestor g i c = some a → ancestor g j c = some b →
      a.addr ≠ b.addr

/-- Class sequence on which validation succeeds although `A` and `IO` inherit
from each other. -/
def ioCycleClasses : Classes :=
  [mkClass 1 "Object" NOCLASS, mkClass 2 "IO" "A", mkClass 3 "A" "IO",
    mkClass 4 "Main" "Object"]

/-- A small well-formed program: `Object`, `Main`, and a class below `Main`. -/
def smallProgram : Classes :=
  [mkClass 1 "Object" NOCLASS, mkClass 2 "Main" "Object", mkClass 3 "A" "Main"]

/-- The parents that `find_parent` resolves join `A`, `B` and `C` in a cycle. -/
def ParentCycle (classes : Classes) (A B C : ClassPtr) : Prop :=
  find_parent classes A = some B ∧ find_parent classes B = some C ∧
    find_parent classes C = some A

/-- Class sequence with the cycle `IO → B → C → IO`. -/
def ioThreeCycle : Classes :=
  [mkClass 1 "Object" NOCLASS, mkClass 2 "IO" "B", mkClass 3 "B" "C", mkClass 4 "C" "IO",
    mkClass 5 "Main" "Object"]

/-- Class sequence with the cycle `A → B → C → A`. -/
def threeCycle : Classes :=
  [mkClass 1 "Object" NOCLASS, mkClass 2 "A" "B", mkClass 3 "B" "C", mkClass 4 "C" "A",
    mkClass 5 "Main" "Object"]

/-- The class reached from `c` by resolving `k` declared parents in `classes`. -/
def declaredAncestor (classes : Classes) : Nat → ClassPtr → Option ClassPtr
  | 0, c => some c
  | k + 1, c =>
    match find_parent classes c with
    | none => none
    | some p => declaredAncestor classes k p

/-- The declared inheritance graph is acyclic and rooted at `Object`, with every
parent on the way resolved: the declared parents of every class lead to a class
named `Object`. -/
def RootedAtObject (classes : Classes) : Prop :=
  ∀ c, c ∈ classes → ∃ k r, declaredAncestor classes k c = some r ∧ r.name = OBJECT

/-- A class below `Int`, in a sequence without `Main`: the declared graph is a
tree rooted at `Object`. -/
def belowInt : Classes :=
  [mkClass 1 "Object" NOCLASS, mkClass 2 "Int" "Object", mkClass 3 "A" "Int"]

/-- A program in which `A` inherits from `Int` and `B` from `A`, next to a class
`X` whose parent `Y` names a parent that is not declared. -/
def primitiveParentProgram : Classes :=
  [mkClass 1 "A" "Int", mkClass 2 "B" "A", mkClass 3 "X" "Y", mkClass 4 "Y" "Zzz",
    mkClass 5 "Main" "Object", mkClass 6 "Object" NOCLASS, mkClass 7 "Int" "Object"]

/-- A program without `Main` in which `X` inherits from `Y` and the parent of
`Y` is not declared. -/
def noMainProgram : Classes :=
  [mkClass 1 "X" "Y", mkClass 2 "Y" "Zzz", mkClass 3 "Object" NOCLASS]

/-- A program with `Main` in which `X` inherits from `Y` and the parent of `Y` is
not declared. -/
def danglingParentProgram : Classes :=
  [mkClass 1 "X" "Y", mkClass 2 "Y" "Zzz", mkClass 3 "Main" "Object",
    mkClass 4 "Object" NOCLASS]

/-- The program `class Object inherits Foo; class Main` followed by the
built-in `Object`: two classes are named `Object`. -/
def twoObjectsProgram : Classes :=
  [mkClass 1 "Object" "Foo", mkClass 2 "Main" "Object", mkClass 3 "Object" NOCLASS]

/-- The three per-class checks of one loop iteration all pass for `c`, given
the relation `g` built so far. -/
def passes (classes : Classes) (g : ClassPtrMap) (c : ClassPtr) : Bool :=
  !invalid_parent c.parent && (g.lookup c).isNone &&
    ((find_parent classes c).isSome || c.name == OBJECT)

/-- Per-class check 1 fails: the declared parent is `String`, `Bool` or `Int`. -/
def IllegalParent (c : ClassPtr) : Prop := invalid_parent c.parent = true

/-- The test of line 107 succeeds: the class pointer is already a key of the
relation, that is, the same object occurs among the classes `pre` before it and
got an edge there. -/
def AlreadyRegistered (classes : Classes) (pre : List ClassPtr) (c : ClassPtr) : Prop :=
  ∃ d, d ∈ pre ∧ d.addr = c.addr ∧ (find_parent classes d).isSome = true

/-- Per-class check 3 fails: no class carries the parent name, and the class is
not named `Object`. -/
def UnresolvedParent (classes : Classes) (c : ClassPtr) : Prop :=
  find_parent classes c = none ∧ c.name ≠ OBJECT

/-- No iteration of the loop over the classes sets the status to `false`: none
of the three tests the code makes succeeds. -/
def LoopChecksPass (classes : Classes) : Prop :=
  ∀ pre c post, classes = pre ++ c :: post →
    ¬ IllegalParent c ∧ ¬ AlreadyRegistered classes pre c ∧ ¬ UnresolvedParent classes c

/-- Illegal parent, in the words of the spec: the parent is one of the
non-inheritable primitive classes `String`, `Bool`, `Int`. -/
def DeclaresPrimitiveParent (c : ClassPtr) : Prop :=
  c.parent = STRING ∨ c.parent = BOOLEAN ∨ c.parent = INTEGER

/-- Duplicate definition, in the words of the spec: the class name is already
registered, that is, a class before it in the sequence has the same name. -/
def DuplicateDefinition (pre : List ClassPtr) (c : ClassPtr) : Prop :=
  ∃ d, d ∈ pre ∧ d.name = c.name

/-- Unresolved parent, in the words of the spec: the parent name matches no
declared class name, and the class is not the root class. -/
def ParentNotDeclared (classes : Classes) (c : ClassPtr) : Prop :=
  (∀ d, d ∈ classes → d.name ≠ c.parent) ∧ c.name ≠ OBJECT

/-- No class fails a per-class check, in the words of the spec: no class has an
illegal primitive parent, is a duplicate definition, or has an unresolved
parent. -/
def PerClassChecksPass (classes : Classes) : Prop :=
  ∀ pre c post, classes = pre ++ c :: post →
    ¬ DeclaresPrimitiveParent c ∧ ¬ DuplicateDefinition pre c ∧ ¬ ParentNotDeclared classes c

/-- A program that defines class `A` twice. -/
def twoAProgram : Classes :=
  [mkClass 1 "A" "Object", mkClass 2 "A" "Object", mkClass 3 "Main" "Object",
    mkClass 4 "Object" NOCLASS]

/-- Some class is named `Main`. -/
def HasMain (classes : Classes) : Prop := ∃ c, c ∈ classes ∧ c.name = MAIN

/-- Each call of `cyclic_check` made by the loop over `entries`, started in
state `s`, returns `true`. -/
def AllCycleChecksTrue (fuel : Nat) (g : ClassPtrMap) :
    List (ClassPtr × ClassPtr) → SemanticAnalyzer → Prop
  | [], _ => True
  | e :: rest, s =>
    ∃ s', cyclic_check fuel g e.1 s = .ok (true, s') ∧ AllCycleChecksTrue fuel g rest s'

/-- The analyser state in which the loop of cycle checks starts. -/
def state_before_cycle_checks (classes : Classes) : SemanticAnalyzer :=
  (main_check classes (class_loop classes SemanticAnalyzer.fresh)).2

/-- The text `line` starts with the text `p`. -/
def beginsWith (p line : String) : Prop := p.data <+: line.data

/-- The text `line` contains the text `name`. -/
def mentions (name line : String) : Prop := name.data <:+: line.data

instance (p line : String) : Decidable (beginsWith p line) := by
  unfold beginsWith; infer_instance

instance (name line : String) : Decidable (mentions name line) := by
  unfold mentions; infer_instance

/-- A line that the iteration for class `c` may write when the relation built
so far is `g`: it begins with `error:` and is the fixed illegal-parent text
(`c` declares a primitive parent), the fixed redefinition text (`c` is
registered and has a built-in name), the multiple-definitions line with the
name of `c` (`c` is registered and has another name), or the unresolved-parent
line with the name of `c` (the parent of `c` is not found and `c` is not
`Object`). -/
def StructuralLine (classes : Classes) (g : ClassPtrMap) (c : ClassPtr) (line : String) :
    Prop :=
  beginsWith "error:" line ∧
    ((line = illegalParentMsg ∧ IllegalParent c) ∨
      (line = basicRedefMsg ∧ g.count c > 0 ∧ is_basic_class c.name = true) ∨
      (line = multipleDefMsg c.name ∧ mentions c.name line ∧ g.count c > 0 ∧
        is_basic_class c.name = false) ∨
      (line = unresolvedMsg c.name ∧ mentions c.name line ∧ UnresolvedParent classes c))

/-- The lines one iteration of the loop over the classes writes for `c`, given
the relation `g` built so far (lines 101-129). -/
def step_lines (classes : Classes) (g : ClassPtrMap) (c : ClassPtr) : List String :=
  (if invalid_parent c.parent then [illegalParentMsg] else []) ++
    ((if g.count c > 0 then
        [if is_basic_class c.name then basicRedefMsg else multipleDefMsg c.name]
      else []) ++
      (match find_parent classes c with
      | none => if c.name ≠ OBJECT then [unresolvedMsg c.name] else []
      | some _ => []))

/-- The lines the loop over `l` writes, starting from the relation `g`. -/
def loop_lines (classes : Classes) : ClassPtrMap → List ClassPtr → List String
  | _, [] => []
  | g, c :: l => step_lines classes g c ++ loop_lines classes (record classes g c) l

/-- A line written by `cyclic_check`. -/
def CyclicLine (line : String) : Prop := ∃ name : Symbol, line = cyclicMsg name

/-- A program in which `Foo` inherits from `Int`. -/
def fooBelowInt : Classes :=
  [mkClass 1 "Foo" "Int", mkClass 2 "Main" "Object", mkClass 3 "Object" NOCLASS,
    mkClass 4 "Int" "Object"]

/-! ## Built-in classes: `install_basic` -/

namespace constants

/-- Modelled from the spec: `constants.hpp` is not among the sources; the name
of the method `abort`. -/
def ABORT : Symbol := "abort"

/-- Modelled from the spec: `constants.hpp` is not among the sources; the name
of the method `type_name`. -/
def TYPE_NAME : Symbol := "type_name"

/-- Modelled from the spec: `constants.hpp` is not among the sources; the name
of the method `copy`. -/
def COPY : Symbol := "copy"

/-- Modelled from the spec: `constants.hpp` is not among the sources; the
self-referential type. -/
def SELF_TYPE : Symbol := "SELF_TYPE"

/-- Modelled from the spec: `constants.hpp` is not among the sources; the name
of the first formal of a built-in method. -/
def ARG : Symbol := "arg"

/-- Modelled from the spec: `constants.hpp` is not among the sources; the name
of the second formal of a built-in method. -/
def ARG2 : Symbol := "arg2"

/-- Modelled from the spec: `constants.hpp` is not among the sources; the name
of the method `out_string`. -/
def OUT_STRING : Symbol := "out_string"

/-- Modelled from the spec: `constants.hpp` is not among the sources; the name
of the method `out_int`. -/
def OUT_INT : Symbol := "out_int"

/-- Modelled from the spec: `constants.hpp` is not among the sources; the name
of the method `in_string`. -/
def IN_STRING : Symbol := "in_string"

/-- Modelled from the spec: `constants.hpp` is not among the sources; the name
of the method `in_int`. -/
def IN_INT : Symbol := "in_int"

/-- Modelled from the spec: `constants.hpp` is not among the sources; the name
of the hidden value attribute. -/
def VAL : Symbol := "_val"

/-- Modelled from the spec: `constants.hpp` is not among the sources; the type
of the hidden attributes. -/
def PRIM_SLOT : Symbol := "_prim_slot"

/-- Modelled from the spec: `constants.hpp` is not among the sources; the name
of the hidden second attribute of `String`. -/
def STR_FIELD : Symbol := "_str_field"

/-- Modelled from the spec: `constants.hpp` is not among the sources; the name
of the method `length`. -/
def LENGTH : Symbol := "length"

/-- Modelled from the spec: `constants.hpp` is not among the sources; the name
of the method `concat`. -/
def CONCAT : Symbol := "concat"

/-- Modelled from the spec: `constants.hpp` is not among the sources; the name
of the method `substr`. -/
def SUBSTR : Symbol := "substr"

end constants

/-- A program: its class sequence (`ast_root->classes`). -/
structure Program where
  classes : Classes

/-- Modelled from the spec: the interning tables are declared outside the
sources; a table is the list of texts added so far, and `add` is idempotent. -/
abbrev SymbolTable := List String

/-- Modelled from the spec: `add(text)` returns the existing handle when the
text is interned and creates one otherwise. -/
def SymbolTable.add (t : SymbolTable) (text : String) : SymbolTable :=
  if text ∈ t then t else t ++ [text]

/-- The two process-wide tables that `install_basic` writes to. -/
structure Tables where
  idtable : SymbolTable
  stringtable : SymbolTable

/-- The addresses at which the five `std::make_shared<Class>` calls of
`install_basic` place their objects. -/
structure BasicAddrs where
  object : Nat
  io : Nat
  integer : Nat
  boolean : Nat
  string : Nat

/-- Lines 13-17: the features of `Object`. -/
def object_features : Features :=
  [ Feature.Method ABORT OBJECT [] Expression.NoExpr,
    Feature.Method TYPE_NAME STRING [] Expression.NoExpr,
    Feature.Method COPY SELF_TYPE [] Expression.NoExpr ]

/-- Line 21: the formals of `out_string`. -/
def io_formal1 : Formals := [ { name := ARG, type_decl := STRING } ]

/-- Line 22: the formals of `out_int`. -/
def io_formal2 : Formals := [ { name := ARG, type_decl := INTEGER } ]

/-- Lines 23-28: the features of `IO`. -/
def io_features : Features :=
  [ Feature.Method OUT_STRING SELF_TYPE io_formal1 Expression.NoExpr,
    Feature.Method OUT_INT SELF_TYPE io_formal2 Expression.NoExpr,
    Feature.Method IN_STRING STRING [] Expression.NoExpr,
    Feature.Method IN_INT INTEGER [] Expression.NoExpr ]

/-- Lines 32-34: the features of `Int`. -/
def int_features : Features := [ Feature.Attribute VAL PRIM_SLOT Expression.NoExpr ]

/-- Lines 38-40: the features of `Bool`. -/
def bool_features : Features := [ Feature.Attribute VAL PRIM_SLOT Expression.NoExpr ]

/-- Line 44: the formals of `concat`. -/
def string_formal1 : Formals := [ { name := ARG, type_decl := STRING } ]

/-- Lines 45-48: the formals of `substr`. -/
def string_formal2 : Formals :=
  [ { name := ARG, type_decl := INTEGER }, { name := ARG2, type_decl := INTEGER } ]

/-- Lines 50-56: the features of `String`. -/
def string_features : Features :=
  [ Feature.Attribute VAL PRIM_SLOT Expression.NoExpr,
    Feature.Attribute STR_FIELD PRIM_SLOT Expression.NoExpr,
    Feature.Method LENGTH INTEGER [] Expression.NoExpr,
    Feature.Method CONCAT STRING string_formal1 Expression.NoExpr,
    Feature.Method SUBSTR STRING string_formal2 Expression.NoExpr ]

/-- One `std::make_shared<Class>(name, parent, idtable().add("filename"),
features)` placed at `addr`. -/
def make_class (addr : Nat) (name parent : Symbol) (features : Features) : ClassPtr :=
  { addr := addr,
    obj := { name := name, parent := parent, filename := "filename", features := features } }

/-- The five classes that `install_basic` creates, in the order of its
`push_back` calls. -/
def basic_classes (a : BasicAddrs) : Classes :=
  [ make_class a.object OBJECT NOCLASS object_features,
    make_class a.io IO_CLASS OBJECT io_features,
    make_class a.integer INTEGER OBJECT int_features,
    make_class a.boolean BOOLEAN OBJECT bool_features,
    make_class a.string STRING OBJECT string_features ]

/-- `SemanticAnalyzer::install_basic(ast_root)`: five `push_back` calls on
`ast_root->classes`, five `idtable().add("filename")` and the five additions to
the string table. -/
def install_basic (a : BasicAddrs) (ast_root : Program) (t : Tables) : Program × Tables :=
  let c1 := ast_root.classes.concat (make_class a.object OBJECT NOCLASS object_features)
  let c2 := c1.concat (make_class a.io IO_CLASS OBJECT io_features)
  let c3 := c2.concat (make_class a.integer INTEGER OBJECT int_features)
  let c4 := c3.concat (make_class a.boolean BOOLEAN OBJECT bool_features)
  let c5 := c4.concat (make_class a.string STRING OBJECT string_features)
  let ids := ((((t.idtable.add "filename").add "filename").add "filename").add
    "filename").add "filename"
  let strs := ((((t.stringtable.add "Object").add "Bool").add "IO").add "Int").add "String"
  ({ classes := c5 }, { idtable := ids, stringtable := strs })

/-- The names of the methods among the features, in order. -/
def method_names (fs : Features) : List Symbol :=
  fs.filterMap fun f =>
    match f with
    | Feature.Method name _ _ _ => some name
    | Feature.Attribute _ _ _ => none

/-- The names of the attributes among the features, in order. -/
def attribute_names (fs : Features) : List Symbol :=
  fs.filterMap fun f =>
    match f with
    | Feature.Attribute name _ _ => some name
    | Feature.Method _ _ _ _ => none

/-- The expression is the `NoExpr` sentinel. -/
def is_no_expr : Expression → Bool
  | Expression.NoExpr => true
  | _ => false

/-- The body of a method, the initialiser of an attribute. -/
def Feature.expr : Feature → Expression
  | Feature.Attribute _ _ init => init
  | Feature.Method _ _ _ body => body

/-- The signature of the method called `name`, if the features hold one: the
types of its formals and its return type. -/
def method_signature (fs : Features) (name : Symbol) : Option (List Symbol × Symbol) :=
  fs.findSome? fun f =>
    match f with
    | Feature.Method n ret params _ =>
      if n = name then some (params.map (fun p => p.type_decl), ret) else none
    | Feature.Attribute _ _ _ => none

/-- A program with the single class `Main`. -/
def mainOnlyProgram : Program := { classes := [mkClass 1 "Main" "Object"] }

/-- Addresses for the five built-in classes, used in the examples. -/
def exampleAddrs : BasicAddrs :=
  { object := 101, io := 102, integer := 103, boolean := 104, string := 105 }

/-! ## Type checking and access to the relation -/

/-- `SemanticAnalyzer::type_check(root)`.  `AstNodeTypeChecker` is declared
outside the sources, so its traversal is the parameter `typechecker`: the
diagnostics that `root->accept(typechecker)` writes, given the relation the
checker was constructed with. -/
def type_check (typechecker : ClassPtrMap → Program → List String) (s : SemanticAnalyzer)
    (root : Program) : Bool × SemanticAnalyzer :=
  let s1 := { s with cerr := s.cerr ++ typechecker s.inherit_graph root }
  (true, s1)

/-- `SemanticAnalyzer::get_inherit_graph()`. -/
def get_inherit_graph (s : SemanticAnalyzer) : ClassPtrMap := s.inherit_graph

/-- The relation `get_inherit_graph` returns after a completed call. -/
def relation : Except Fault (Bool × SemanticAnalyzer) → Option ClassPtrMap
  | .ok (_, s) => some (get_inherit_graph s)
  | .error _ => none

/-- A program in which the parent of `Y` is not declared and nothing inherits
from `Y`. -/
def unresolvedLeafProgram : Classes :=
  [mkClass 1 "Y" "Zzz", mkClass 2 "Main" "Object", mkClass 3 "Object" NOCLASS]

/-- An analyser in which class `A` (at address 7) is a key of the relation. -/
def registeredA : SemanticAnalyzer :=
  { inherit_graph := [(mkClass 7 "A" "Object", mkClass 1 "Object" NOCLASS)],
    visited := [], processed := [], cerr := [] }

/-- A traversal that writes one diagnostic, standing for the type checker on a
program with a type error. -/
def oneDiagnostic : ClassPtrMap → Program → List String :=
  fun _ _ => ["error:type error\n"]

/-! ## States reached by walks -/

/-- The states of the marker sets that walks can produce: both sets empty, or
the state a completed call of `cyclic_check` on the same relation leaves when
started in such a state. -/
inductive ReachableByWalks (g : ClassPtrMap) : SemanticAnalyzer → Prop where
  | start (s : SemanticAnalyzer) : s.visited = [] → s.processed = [] → ReachableByWalks g s
  | walk (s : SemanticAnalyzer) (fuel : Nat) (n : ClassPtr) (b : Bool) (s' : SemanticAnalyzer) :
    ReachableByWalks g s → cyclic_check fuel g n s = .ok (b, s') → ReachableByWalks g s'

/-- The state the walk from `Main` leaves on `smallProgram`. -/
def afterMainWalk : SemanticAnalyzer :=
  { inherit_graph := [], visited := [2], processed := [2], cerr := [] }

/-- The class `p` is the first class of the sequence whose name is `name`. -/
def FirstNamed (classes : Classes) (name : Symbol) (p : ClassPtr) : Prop :=
  ∃ pre post, classes = pre ++ p :: post ∧ p.name = name ∧ ∀ d, d ∈ pre → d.name ≠ name

/-- A user class `A` declared before another class of the same name, and a
class `B` below `A`. -/
def shadowProgram : Classes :=
  [mkClass 1 "A" "Object", mkClass 2 "B" "A", mkClass 3 "Main" "Object",
    mkClass 4 "Object" NOCLASS, mkClass 5 "A" "Main"]

/-! ## The AST displayer (`src/astnodevisitor.cpp`) -/

/-- The state of an `AstNodeDisplayer`: the records written to `os`, one per
node line, and the depth counter.  The counter starts at 0 and every decrement
undoes an increment of the same visit, so it is a natural number. -/
structure AstNodeDisplayer where
  os : List String
  depth : Nat

/-- `AstNodeDisplayer::AstNodeDisplayer(stream)`: nothing written, depth 0. -/
def AstNodeDisplayer.new : AstNodeDisplayer := { os := [], depth := 0 }

/-- What `os << std::setw(n) << ""` writes: `n` fill characters (spaces). -/
def setw_empty (n : Nat) : String := String.mk (List.replicate n ' ')

/-- The statements `os << std::setw(depth++) << ""; os << text;`. -/
def AstNodeDisplayer.open_node (v : AstNodeDisplayer) (text : String) : AstNodeDisplayer :=
  { os := v.os ++ [setw_empty v.depth ++ text], depth := v.depth + 1 }

/-- The statements `os << std::setw(depth) << ""; os << text;`. -/
def AstNodeDisplayer.leaf (v : AstNodeDisplayer) (text : String) : AstNodeDisplayer :=
  { os := v.os ++ [setw_empty v.depth ++ text], depth := v.depth }

/-- The statement `--depth;`. -/
def AstNodeDisplayer.close_node (v : AstNodeDisplayer) : AstNodeDisplayer :=
  { os := v.os, depth := v.depth - 1 }

/-- What `os << value` writes for a `bool`: `1` or `0`. -/
def show_bool (value : Bool) : String := if value then "1" else "0"

mutual
/-- The `visit` overloads for the expression nodes. -/
def visitExpr : Expression → AstNodeDisplayer → AstNodeDisplayer
  | .StringConst token, v => v.leaf ("-str_const (" ++ token ++ ")\n")
  | .IntConst token, v => v.leaf ("-int_const (" ++ token ++ ")\n")
  | .BoolConst value, v => v.leaf ("-bool_const (" ++ show_bool value ++ ")\n")
  | .New, v => v.leaf "-new\n"
  | .Object, v => v.leaf "-object\n"
  | .NoExpr, v => v.leaf "-noexpr\n"
  | .IsVoid expr, v => (visitExpr expr (v.open_node "-isvoid\n")).close_node
  | .Assign expr, v => (visitExpr expr (v.open_node "-assign\n")).close_node
  | .Complement expr, v => (visitExpr expr (v.open_node "-comp\n")).close_node
  | .Not expr, v => (visitExpr expr (v.open_node "-not\n")).close_node
  | .Block body, v => (visitExprs body (v.open_node "-block\n")).close_node
  | .If predicate iftrue iffalse, v =>
    (visitExpr iffalse (visitExpr iftrue (visitExpr predicate (v.open_node "-if\n")))).close_node
  | .While lhs rhs, v => (visitExpr rhs (visitExpr lhs (v.open_node "-while\n"))).close_node
  | .LessThan lhs rhs, v => (visitExpr rhs (visitExpr lhs (v.open_node "-lt\n"))).close_node
  | .EqualTo lhs rhs, v => (visitExpr rhs (visitExpr lhs (v.open_node "-eq\n"))).close_node
  | .LessThanEqualTo lhs rhs, v => (visitExpr rhs (visitExpr lhs (v.open_node "-lteq\n"))).close_node
  | .Plus lhs rhs, v => (visitExpr rhs (visitExpr lhs (v.open_node "-plus\n"))).close_node
  | .Sub lhs rhs, v => (visitExpr rhs (visitExpr lhs (v.open_node "-sub\n"))).close_node
  | .Mul lhs rhs, v => (visitExpr rhs (visitExpr lhs (v.open_node "-mul\n"))).close_node
  | .Div lhs rhs, v => (visitExpr rhs (visitExpr lhs (v.open_node "-div\n"))).close_node
  | .Let lhs rhs, v => (visitExpr rhs (visitExpr lhs (v.open_node "-let\n"))).close_node
  | .StaticDispatch obj actual, v =>
    (visitExprs actual (visitExpr obj (v.open_node "-static_dispatch\n"))).close_node
  | .DynamicDispatch obj actual, v =>
    (visitExprs actual (visitExpr obj (v.open_node "-dynamic_dispatch\n"))).close_node
  | .Case expr branches, v =>
    (visitBranches branches (visitExpr expr (v.open_node "-case\n"))).close_node
/-- A loop `for (auto& e : exprs) e->accept(*this);`. -/
def visitExprs : List Expression → AstNodeDisplayer → AstNodeDisplayer
  | [], v => v
  | e :: es, v => visitExprs es (visitExpr e v)
/-- The overload `visit(const CaseBranch&)`. -/
def visitBranch : CaseBranch → AstNodeDisplayer → AstNodeDisplayer
  | .mk expr, v => (visitExpr expr (v.open_node "-casebranch\n")).close_node
/-- The loop `for (auto& br : caze.branches) br->accept(*this);`. -/
def visitBranches : List CaseBranch → AstNodeDisplayer → AstNodeDisplayer
  | [], v => v
  | b :: bs, v => visitBranches bs (visitBranch b v)
end

/-- The overload `visit(const Formal&)`. -/
def visitFormal (formal : Formal) (v : AstNodeDisplayer) : AstNodeDisplayer :=
  v.leaf ("-formal (" ++ formal.name ++ ")\n")

/-- The loop `for (auto& formal : method.params) formal->accept(*this);`. -/
def visitFormals : List Formal → AstNodeDisplayer → AstNodeDisplayer
  | [], v => v
  | f :: fs, v => visitFormals fs (visitFormal f v)

/-- The overloads `visit(const Attribute&)` and `visit(const Method&)`, which
`visit(const Feature&)` dispatches to. -/
def visitFeature : Feature → AstNodeDisplayer → AstNodeDisplayer
  | .Attribute name _ init, v =>
    (visitExpr init (v.open_node ("-attribute (" ++ name ++ ")\n"))).close_node
  | .Method name _ params body, v =>
    (visitExpr body (visitFormals params (v.open_node ("-method (" ++ name ++ ")\n")))).close_node

/-- The loop `for (auto& feature : cs.features) feature->accept(*this);`. -/
def visitFeatures : List Feature → AstNodeDisplayer → AstNodeDisplayer
  | [], v => v
  | f :: fs, v => visitFeatures fs (visitFeature f v)

/-- The overload `visit(const Class&)`. -/
def visitClass (cs : Class) (v : AstNodeDisplayer) : AstNodeDisplayer :=
  (visitFeatures cs.features (v.open_node ("-class (" ++ cs.name ++ ")\n"))).close_node

/-- The loop `for (auto& cs : prog.classes) cs->accept(*this);`. -/
def visitClasses : List ClassPtr → AstNodeDisplayer → AstNodeDisplayer
  | [], v => v
  | c :: cs, v => visitClasses cs (visitClass c.obj v)

/-- The overload `visit(const Program&)`. -/
def visitProgram (prog : Program) (v : AstNodeDisplayer) : AstNodeDisplayer :=
  visitClasses prog.classes v

/-- The nodes that the displayer gives a line of their own. -/
inductive AstNode where
  | cls (c : Class)
  | feature (f : Feature)
  | formal (f : Formal)
  | expr (e : Expression)
  | branch (b : CaseBranch)

/-- The visit of a node (`node.accept(displayer)`). -/
def visit : AstNode → AstNodeDisplayer → AstNodeDisplayer
  | .cls c, v => visitClass c v
  | .feature f, v => visitFeature f v
  | .formal f, v => visitFormal f v
  | .expr e, v => visitExpr e v
  | .branch b, v => visitBranch b v

/-- The text of the line of an expression node, without its indentation. -/
def Expression.label : Expression → String
  | .StringConst token => "-str_const (" ++ token ++ ")\n"
  | .IntConst token => "-int_const (" ++ token ++ ")\n"
  | .BoolConst value => "-bool_const (" ++ show_bool value ++ ")\n"
  | .New => "-new\n"
  | .Object => "-object\n"
  | .NoExpr => "-noexpr\n"
  | .IsVoid _ => "-isvoid\n"
  | .Assign _ => "-assign\n"
  | .Complement _ => "-comp\n"
  | .Not _ => "-not\n"
  | .Block _ => "-block\n"
  | .If _ _ _ => "-if\n"
  | .While _ _ => "-while\n"
  | .LessThan _ _ => "-lt\n"
  | .EqualTo _ _ => "-eq\n"
  | .LessThanEqualTo _ _ => "-lteq\n"
  | .Plus _ _ => "-plus\n"
  | .Sub _ _ => "-sub\n"
  | .Mul _ _ => "-mul\n"
  | .Div _ _ => "-div\n"
  | .Let _ _ => "-let\n"
  | .StaticDispatch _ _ => "-static_dispatch\n"
  | .DynamicDispatch _ _ => "-dynamic_dispatch\n"
  | .Case _ _ => "-case\n"

/-- The sub-expressions of an expression node that the displayer visits, in the
order of the visits. -/
def Expression.children : Expression → List AstNode
  | .StringConst _ => []
  | .IntConst _ => []
  | .BoolConst _ => []
  | .New => []
  | .Object => []
  | .NoExpr => []
  | .IsVoid expr => [.expr expr]
  | .Assign expr => [.expr expr]
  | .Complement expr => [.expr expr]
  | .Not expr => [.expr expr]
  | .Block body => body.map AstNode.expr
  | .If predicate iftrue iffalse => [.expr predicate, .expr iftrue, .expr iffalse]
  | .While lhs rhs => [.expr lhs, .expr rhs]
  | .LessThan lhs rhs => [.expr lhs, .expr rhs]
  | .EqualTo lhs rhs => [.expr lhs, .expr rhs]
  | .LessThanEqualTo lhs rhs => [.expr lhs, .expr rhs]
  | .Plus lhs rhs => [.expr lhs, .expr rhs]
  | .Sub lhs rhs => [.expr lhs, .expr rhs]
  | .Mul lhs rhs => [.expr lhs, .expr rhs]
  | .Div lhs rhs => [.expr lhs, .expr rhs]
  | .Let lhs rhs => [.expr lhs, .expr rhs]
  | .StaticDispatch obj actual => .expr obj :: actual.map AstNode.expr
  | .DynamicDispatch obj actual => .expr obj :: actual.map AstNode.expr
  | .Case expr branches => .expr expr :: branches.map AstNode.branch

/-- The text of the line of a node, without its indentation. -/
def AstNode.label : AstNode → String
  | .cls c => "-class (" ++ c.name ++ ")\n"
  | .feature (.Attribute name _ _) => "-attribute (" ++ name ++ ")\n"
  | .feature (.Method name _ _ _) => "-method (" ++ name ++ ")\n"
  | .formal f => "-formal (" ++ f.name ++ ")\n"
  | .expr e => e.label
  | .branch _ => "-casebranch\n"

/-- The children of a node that the displayer visits, in the order of the
visits. -/
def AstNode.children : AstNode → List AstNode
  | .cls c => c.features.map AstNode.feature
  | .feature (.Attribute _ _ init) => [.expr init]
  | .feature (.Method _ _ params body) => params.map AstNode.formal ++ [.expr body]
  | .formal _ => []
  | .expr e => e.children
  | .branch (.mk e) => [.expr e]

/-- The number of spaces a record starts with. -/
def indentation (line : String) : Nat := (line.data.takeWhile fun ch => ch = ' ').length

mutual
/-- The records of an expression displayed at depth `d`: its own line, then the
records of its displayed children at depth `d + 1`. -/
def renderExpr (d : Nat) : Expression → List String
  | .StringConst token => [setw_empty d ++ ("-str_const (" ++ token ++ ")\n")]
  | .IntConst token => [setw_empty d ++ ("-int_const (" ++ token ++ ")\n")]
  | .BoolConst value => [setw_empty d ++ ("-bool_const (" ++ show_bool value ++ ")\n")]
  | .New => [setw_empty d ++ "-new\n"]
  | .Object => [setw_empty d ++ "-object\n"]
  | .NoExpr => [setw_empty d ++ "-noexpr\n"]
  | .IsVoid expr => (setw_empty d ++ "-isvoid\n") :: renderExpr (d + 1) expr
  | .Assign expr => (setw_empty d ++ "-assign\n") :: renderExpr (d + 1) expr
  | .Complement expr => (setw_empty d ++ "-comp\n") :: renderExpr (d + 1) expr
  | .Not expr => (setw_empty d ++ "-not\n") :: renderExpr (d + 1) expr
  | .Block body => (setw_empty d ++ "-block\n") :: renderExprs (d + 1) body
  | .If predicate iftrue iffalse =>
    (setw_empty d ++ "-if\n") ::
      (renderExpr (d + 1) predicate ++ renderExpr (d + 1) iftrue ++ renderExpr (d + 1) iffalse)
  | .While lhs rhs =>
    (setw_empty d ++ "-while\n") :: (renderExpr (d + 1) lhs ++ renderExpr (d + 1) rhs)
  | .LessThan lhs rhs =>
    (setw_empty d ++ "-lt\n") :: (renderExpr (d + 1) lhs ++ renderExpr (d + 1) rhs)
  | .EqualTo lhs rhs =>
    (setw_empty d ++ "-eq\n") :: (renderExpr (d + 1) lhs ++ renderExpr (d + 1) rhs)
  | .LessThanEqualTo lhs rhs =>
    (setw_empty d ++ "-lteq\n") :: (renderExpr (d + 1) lhs ++ renderExpr (d + 1) rhs)
  | .Plus lhs rhs =>
    (setw_empty d ++ "-plus\n") :: (renderExpr (d + 1) lhs ++ renderExpr (d + 1) rhs)
  | .Sub lhs rhs =>
    (setw_empty d ++ "-sub\n") :: (renderExpr (d + 1) lhs ++ renderExpr (d + 1) rhs)
  | .Mul lhs rhs =>
    (setw_empty d ++ "-mul\n") :: (renderExpr (d + 1) lhs ++ renderExpr (d + 1) rhs)
  | .Div lhs rhs =>
    (setw_empty d ++ "-div\n") :: (renderExpr (d + 1) lhs ++ renderExpr (d + 1) rhs)
  | .Let lhs rhs =>
    (setw_empty d ++ "-let\n") :: (renderExpr (d + 1) lhs ++ renderExpr (d + 1) rhs)
  | .StaticDispatch obj actual =>
    (setw_empty d ++ "-static_dispatch\n") :: (renderExpr (d + 1) obj ++ renderExprs (d + 1) actual)
  | .DynamicDispatch obj actual =>
    (setw_empty d ++ "-dynamic_dispatch\n") :: (renderExpr (d + 1) obj ++ renderExprs (d + 1) actual)
  | .Case expr branches =>
    (setw_empty d ++ "-case\n") :: (renderExpr (d + 1) expr ++ renderBranches (d + 1) branches)
/-- The records of a list of expressions displayed at depth `d`. -/
def renderExprs (d : Nat) : List Expression → List String
  | [] => []
  | e :: es => renderExpr d e ++ renderExprs d es
/-- The records of a case branch displayed at depth `d`. -/
def renderBranch (d : Nat) : CaseBranch → List String
  | .mk expr => (setw_empty d ++ "-casebranch\n") :: renderExpr (d + 1) expr
/-- The records of a list of case branches displayed at depth `d`. -/
def renderBranches (d : Nat) : List CaseBranch → List String
  | [] => []
  | b :: bs => renderBranch d b ++ renderBranches d bs
end

/-- A conditional inside a method of a class, for the examples. -/
def displayExample : AstNode :=
  .cls { name := "Main", parent := "Object", filename := "filename",
         features := [ .Method "run" "Int" [ { name := "x", type_decl := "Int" } ]
           (.If (.BoolConst true) (.IntConst "1") (.Plus (.IntConst "2") .Object)) ] }

/-! ## Basic facts about the containers -/

theorem lookup_addr (m : ClassPtrMap) (p q : ClassPtr) (h : p.addr = q.addr) :
    m.lookup p = m.lookup q := by
  induction m with
  | nil => rfl
  | cons e rest ih =>
    obtain ⟨k, v⟩ := e
    simp only [ClassPtrMap.lookup, h, ih]

theorem lookup_assign (m : ClassPtrMap) (k v p : ClassPtr) :
    (m.assign k v).lookup p = if k.addr = p.addr then some v else m.lookup p := by
  induction m with
  | nil => simp [ClassPtrMap.assign, ClassPtrMap.lookup]
  | cons e rest ih =>
    obtain ⟨k', v'⟩ := e
    simp only [ClassPtrMap.assign]
    by_cases h1 : k.addr < k'.addr
    · simp [h1, ClassPtrMap.lookup]
    · by_cases h2 : k.addr = k'.addr
      · rw [if_neg h1, if_pos h2]
        simp only [ClassPtrMap.lookup, h2]
        by_cases h3 : k'.addr = p.addr <;> simp [h3]
      · simp only [h1, h2, if_false, ClassPtrMap.lookup, ih]
        by_cases h3 : k'.addr = p.addr
        · have : ¬ k.addr = p.addr := fun h => h2 (h.trans h3.symm)
          simp [h3, this]
        · simp [h3]

theorem lookup_some_mem (m : ClassPtrMap) (p v : ClassPtr) (h : m.lookup p = some v) :
    ∃ k, (k, v) ∈ m ∧ k.addr = p.addr := by
  induction m with
  | nil => simp [ClassPtrMap.lookup] at h
  | cons e rest ih =>
    obtain ⟨k', v'⟩ := e
    simp only [ClassPtrMap.lookup] at h
    by_cases h3 : k'.addr = p.addr
    · simp only [h3, if_true, Option.some.injEq] at h
      exact ⟨k', by simp [h], h3⟩
    · simp only [h3, if_false] at h
      obtain ⟨k, hk, hka⟩ := ih h
      exact ⟨k, List.mem_cons_of_mem _ hk, hka⟩

theorem lookup_isSome_of_mem (m : ClassPtrMap) (k v : ClassPtr) (h : (k, v) ∈ m) :
    (m.lookup k).isSome = true := by
  induction m with
  | nil => simp at h
  | cons e rest ih =>
    obtain ⟨k', v'⟩ := e
    simp only [ClassPtrMap.lookup]
    by_cases h3 : k'.addr = k.addr
    · simp [h3]
    · simp only [h3, if_false]
      rcases List.mem_cons.mp h with h | h
      · simp only [Prod.mk.injEq] at h
        exact absurd (by rw [h.1]) h3
      · exact ih h

theorem set_insert_mem (s : ClassPtrSet) (p : ClassPtr) (a : Nat) :
    a ∈ s.insert p ↔ a = p.addr ∨ a ∈ s := by
  unfold ClassPtrSet.insert
  by_cases h : p.addr ∈ s
  · simp only [h, if_true]
    constructor
    · exact Or.inr
    · rintro (rfl | h') <;> assumption
  · simp [h]

theorem set_insert_of_mem (s : ClassPtrSet) (p : ClassPtr) (h : p.addr ∈ s) :
    s.insert p = s := by
  simp [ClassPtrSet.insert, h]

/-! ## Basic facts about `cyclic_check` -/

theorem ancestor_addr (g : ClassPtrMap) (k : Nat) (p q : ClassPtr) (h : p.addr = q.addr) :
    ancestor g (k + 1) p = ancestor g (k + 1) q := by
  simp only [ancestor, lookup_addr g p q h]

theorem ancestor_add (g : ClassPtrMap) (i j : Nat) (c m : ClassPtr)
    (h : ancestor g i c = some m) : ancestor g (i + j) c = ancestor g j m := by
  induction i generalizing c with
  | zero =>
    simp only [ancestor, Option.some.injEq] at h
    simp [h]
  | succ i ih =>
    rw [Nat.add_right_comm]
    simp only [ancestor] at h ⊢
    cases hl : g.lookup c with
    | none => simp [hl] at h
    | some p =>
      simp only [hl] at h ⊢
      exact ih p h

theorem cyclic_check_mono (fuel : Nat) (g : ClassPtrMap) (n : ClassPtr) (s : SemanticAnalyzer)
    (r : Bool × SemanticAnalyzer) (h : cyclic_check fuel g n s = .ok r) :
    cyclic_check (fuel + 1) g n s = .ok r := by
  induction fuel generalizing n s r with
  | zero => simp [cyclic_check] at h
  | succ fuel ih =>
    rw [cyclic_check] at h ⊢
    split
    · simpa [*] using h
    · rename_i hroot
      simp only [hroot, if_false] at h
      split
      · simpa [*] using h
      · rename_i hrev
        simp only [hrev, if_false] at h
        cases hl : g.lookup n with
        | none => simp [hl] at h
        | some p =>
          simp only [hl] at h ⊢
          cases hr : cyclic_check fuel g p { s with visited := s.visited.insert n } with
          | error e => simp [hr] at h
          | ok r' =>
            rw [ih _ _ _ hr]
            simpa [hr] using h

theorem cyclic_check_mono_le (fuel fuel' : Nat) (hle : fuel ≤ fuel') (g : ClassPtrMap)
    (n : ClassPtr) (s : SemanticAnalyzer) (r : Bool × SemanticAnalyzer)
    (h : cyclic_check fuel g n s = .ok r) : cyclic_check fuel' g n s = .ok r := by
  induction hle with
  | refl => exact h
  | step _ ih => exact cyclic_check_mono _ g n s r ih

theorem set_count_eq_one (s : ClassPtrSet) (p : ClassPtr) : s.count p = 1 ↔ p.addr ∈ s := by
  unfold ClassPtrSet.count
  by_cases h : p.addr ∈ s <;> simp [h]

theorem set_count_eq_zero (s : ClassPtrSet) (p : ClassPtr) : s.count p = 0 ↔ p.addr ∉ s := by
  unfold ClassPtrSet.count
  by_cases h : p.addr ∈ s <;> simp [h]

/-- The three ways in which a call of `cyclic_check` returns. -/
theorem cyclic_check_cases (fuel : Nat) (g : ClassPtrMap) (n : ClassPtr)
    (s : SemanticAnalyzer) (b : Bool) (s' : SemanticAnalyzer)
    (h : cyclic_check (fuel + 1) g n s = .ok (b, s')) :
    (isRootName n ∧ b = true ∧ s' = s) ∨
    (¬ isRootName n ∧ n.addr ∈ s.visited ∧ n.addr ∉ s.processed ∧ b = false ∧
      s' = s.emit (cyclicMsg n.name)) ∨
    (¬ isRootName n ∧ ¬ (n.addr ∈ s.visited ∧ n.addr ∉ s.processed) ∧
      ∃ p s2, g.lookup n = some p ∧ cyclic_check fuel g p (markVisited s n) = .ok (b, s2) ∧
        s' = if b = true then markProcessed s2 n else s2) := by
  rw [cyclic_check] at h
  by_cases hroot : n.name = OBJECT ∨ n.name = IO_CLASS
  · left
    simp only [hroot, if_true, Except.ok.injEq, Prod.mk.injEq] at h
    exact ⟨hroot, h.1.symm, h.2.symm⟩
  · right
    simp only [hroot, if_false] at h
    by_cases hrev : s.visited.count n = 1 ∧ s.processed.count n = 0
    · left
      simp only [hrev, and_self, if_true, Except.ok.injEq, Prod.mk.injEq] at h
      rw [set_count_eq_one, set_count_eq_zero] at hrev
      exact ⟨hroot, hrev.1, hrev.2, h.1.symm, h.2.symm⟩
    · right
      rw [if_neg hrev] at h
      rw [set_count_eq_one, set_count_eq_zero] at hrev
      refine ⟨hroot, hrev, ?_⟩
      cases hl : g.lookup n with
      | none => simp [hl] at h
      | some p =>
        simp only [hl] at h
        cases hr : cyclic_check fuel g p { s with visited := s.visited.insert n } with
        | error e => simp [hr] at h
        | ok r' =>
          obtain ⟨b', s2⟩ := r'
          simp only [hr] at h
          cases b' with
          | false =>
            simp only [Except.ok.injEq, Prod.mk.injEq] at h
            refine ⟨p, s2, rfl, ?_, ?_⟩
            · rw [← h.1]; exact hr
            · rw [← h.1, ← h.2]; simp
          | true =>
            simp only [Except.ok.injEq, Prod.mk.injEq] at h
            refine ⟨p, s2, rfl, ?_, ?_⟩
            · rw [← h.1]; exact hr
            · rw [← h.1, ← h.2]; simp [markProcessed]

/-- A call that returns `true` writes nothing and has walked to a class named
`Object` or `IO`, the first such class on the chain. -/
theorem cyclic_check_true (fuel : Nat) (g : ClassPtrMap) (n : ClassPtr)
    (s s' : SemanticAnalyzer) (h : cyclic_check fuel g n s = .ok (true, s')) :
    s'.cerr = s.cerr ∧ ∃ k r, ancestor g k n = some r ∧ isRootName r ∧
      ∀ i, i < k → ∀ a, ancestor g i n = some a → ¬ isRootName a := by
  induction fuel generalizing n s s' with
  | zero => simp [cyclic_check] at h
  | succ fuel ih =>
    rcases cyclic_check_cases fuel g n s true s' h with ⟨hr, _, hs⟩ | ⟨_, _, _, hb, _⟩ |
      ⟨hr, _, p, s2, hl, hrec, hs⟩
    · refine ⟨by rw [hs], 0, n, rfl, hr, ?_⟩
      intro i hi; omega
    · cases hb
    · obtain ⟨hc, k, r, hk, hrr, hmin⟩ := ih p (markVisited s n) s2 hrec
      refine ⟨?_, k + 1, r, ?_, hrr, ?_⟩
      · rw [hs]; simp only [if_true, markProcessed]; rw [hc]; rfl
      · simp only [ancestor, hl]; exact hk
      · intro i hi a ha
        cases i with
        | zero =>
          simp only [ancestor, Option.some.injEq] at ha
          rw [← ha]; exact hr
        | succ i =>
          simp only [ancestor, hl] at ha
          exact hmin i (by omega) a ha

/-- A call that returns `false` has written exactly one line, naming a class on
the chain walked from the start. -/
theorem cyclic_check_false (fuel : Nat) (g : ClassPtrMap) (n : ClassPtr)
    (s s' : SemanticAnalyzer) (h : cyclic_check fuel g n s = .ok (false, s')) :
    ∃ k x, ancestor g k n = some x ∧ s'.cerr = s.cerr ++ [cyclicMsg x.name] := by
  induction fuel generalizing n s s' with
  | zero => simp [cyclic_check] at h
  | succ fuel ih =>
    rcases cyclic_check_cases fuel g n s false s' h with ⟨_, hb, _⟩ | ⟨_, _, _, _, hs⟩ |
      ⟨hr, _, p, s2, hl, hrec, hs⟩
    · cases hb
    · exact ⟨0, n, rfl, by rw [hs]; rfl⟩
    · obtain ⟨k, x, hk, hc⟩ := ih p (markVisited s n) s2 hrec
      refine ⟨k + 1, x, ?_, ?_⟩
      · simp only [ancestor, hl]; exact hk
      · rw [hs]; simp only [Bool.false_eq_true, if_false]; rw [hc]; rfl

/-- A call never changes the relation stored in the analyser, and the two
marker sets only grow. -/
theorem cyclic_check_frame (fuel : Nat) (g : ClassPtrMap) (n : ClassPtr)
    (s : SemanticAnalyzer) (b : Bool) (s' : SemanticAnalyzer)
    (h : cyclic_check fuel g n s = .ok (b, s')) :
    s'.inherit_graph = s.inherit_graph ∧ (∀ a, a ∈ s.visited → a ∈ s'.visited) ∧
      (∀ a, a ∈ s.processed → a ∈ s'.processed) := by
  induction fuel generalizing n s s' with
  | zero => simp [cyclic_check] at h
  | succ fuel ih =>
    rcases cyclic_check_cases fuel g n s b s' h with ⟨_, _, hs⟩ | ⟨_, _, _, _, hs⟩ |
      ⟨hr, _, p, s2, hl, hrec, hs⟩
    · rw [hs]; exact ⟨rfl, fun _ h => h, fun _ h => h⟩
    · rw [hs]; exact ⟨rfl, fun _ h => h, fun _ h => h⟩
    · obtain ⟨hg, hv, hp⟩ := ih p (markVisited s n) s2 hrec
      have hv' : ∀ a, a ∈ s.visited → a ∈ s2.visited := fun a ha =>
        hv a ((set_insert_mem s.visited n a).mpr (Or.inr ha))
      have hp' : ∀ a, a ∈ s.processed → a ∈ s2.processed := fun a ha => hp a ha
      cases b with
      | false =>
        simp only [Bool.false_eq_true, if_false] at hs
        rw [hs]; exact ⟨hg, hv', hp'⟩
      | true =>
        simp only [if_true] at hs
        rw [hs]
        refine ⟨hg, hv', fun a ha => ?_⟩
        exact (set_insert_mem s2.processed n a).mpr (Or.inr (hp' a ha))

/-! ## Evaluating one level of `cyclic_check` -/

theorem cyclic_check_root (fuel : Nat) (g : ClassPtrMap) (n : ClassPtr) (s : SemanticAnalyzer)
    (hr : isRootName n) : cyclic_check (fuel + 1) g n s = .ok (true, s) := by
  rw [cyclic_check]
  exact if_pos hr

theorem cyclic_check_revisit (fuel : Nat) (g : ClassPtrMap) (n : ClassPtr)
    (s : SemanticAnalyzer) (hr : ¬ isRootName n) (hv : n.addr ∈ s.visited)
    (hp : n.addr ∉ s.processed) :
    cyclic_check (fuel + 1) g n s = .ok (false, s.emit (cyclicMsg n.name)) := by
  rw [cyclic_check, if_neg (show ¬ (n.name = OBJECT ∨ n.name = IO_CLASS) from hr), if_pos]
  rw [set_count_eq_one, set_count_eq_zero]
  exact ⟨hv, hp⟩

theorem cyclic_check_null (fuel : Nat) (g : ClassPtrMap) (n : ClassPtr)
    (s : SemanticAnalyzer) (hr : ¬ isRootName n)
    (hv : ¬ (n.addr ∈ s.visited ∧ n.addr ∉ s.processed)) (hl : g.lookup n = none) :
    cyclic_check (fuel + 1) g n s = .error .nullDeref := by
  rw [cyclic_check, if_neg (show ¬ (n.name = OBJECT ∨ n.name = IO_CLASS) from hr), if_neg]
  · simp only [hl]
  · rw [set_count_eq_one, set_count_eq_zero]
    exact hv

theorem cyclic_check_step (fuel : Nat) (g : ClassPtrMap) (n p : ClassPtr)
    (s s2 : SemanticAnalyzer) (b : Bool) (hr : ¬ isRootName n)
    (hv : ¬ (n.addr ∈ s.visited ∧ n.addr ∉ s.processed)) (hl : g.lookup n = some p)
    (hrec : cyclic_check fuel g p (markVisited s n) = .ok (b, s2)) :
    cyclic_check (fuel + 1) g n s =
      .ok (b, if b = true then markProcessed s2 n else s2) := by
  rw [cyclic_check, if_neg (show ¬ (n.name = OBJECT ∨ n.name = IO_CLASS) from hr), if_neg]
  · simp only [hl]
    simp only [markVisited] at hrec
    rw [hrec]
    cases b <;> simp [markProcessed]
  · rw [set_count_eq_one, set_count_eq_zero]
    exact hv

theorem cyclic_check_step_error (fuel : Nat) (g : ClassPtrMap) (n p : ClassPtr)
    (s : SemanticAnalyzer) (e : Fault) (hr : ¬ isRootName n)
    (hv : ¬ (n.addr ∈ s.visited ∧ n.addr ∉ s.processed)) (hl : g.lookup n = some p)
    (hrec : cyclic_check fuel g p (markVisited s n) = .error e) :
    cyclic_check (fuel + 1) g n s = .error e := by
  rw [cyclic_check, if_neg (show ¬ (n.name = OBJECT ∨ n.name = IO_CLASS) from hr), if_neg]
  · simp only [hl]
    simp only [markVisited] at hrec
    rw [hrec]
  · rw [set_count_eq_one, set_count_eq_zero]
    exact hv

/-! ## Walks along a chain that reaches `Object` or `IO` -/

theorem reachesRoot_first (g : ClassPtrMap) (c : ClassPtr) (h : ReachesRoot g c) :
    ∃ k, ReachesRootAt g k c := by
  classical
  have hex : ∃ k, ∃ r, ancestor g k c = some r ∧ isRootName r := h
  refine ⟨Nat.find hex, Nat.find_spec hex, ?_⟩
  intro i hi a ha hroot
  exact Nat.find_min hex hi ⟨a, ha, hroot⟩

theorem reachesRootAt_succ (g : ClassPtrMap) (k : Nat) (n p : ClassPtr)
    (hl : g.lookup n = some p) (h : ReachesRootAt g (k + 1) n) : ReachesRootAt g k p := by
  obtain ⟨⟨r, hr, hroot⟩, hmin⟩ := h
  refine ⟨⟨r, ?_, hroot⟩, ?_⟩
  · simpa only [ancestor, hl] using hr
  · intro i hi a ha
    apply hmin (i + 1) (by omega) a
    simpa only [ancestor, hl] using ha

/-- On a chain that first reaches a root name after `k` edges, no earlier class
of the chain has the address of a later one that is not the end of the chain. -/
theorem reachesRootAt_no_return (g : ClassPtrMap) (k : Nat) (n : ClassPtr)
    (h : ReachesRootAt g k n) (i : Nat) (hi : 0 < i) (hik : i < k) (a : ClassPtr)
    (ha : ancestor g i n = some a) : a.addr ≠ n.addr := by
  intro hEq
  obtain ⟨⟨r, hr, hroot⟩, hmin⟩ := h
  have h1 : ancestor g (i + (k - i)) n = ancestor g (k - i) a := ancestor_add g i (k - i) n a ha
  have h2 : i + (k - i) = k := by omega
  rw [h2, hr] at h1
  obtain ⟨d, hd⟩ : ∃ d, k - i = d + 1 := ⟨k - i - 1, by omega⟩
  rw [hd, ancestor_addr g d a n hEq] at h1
  exact hmin (d + 1) (by omega) r h1.symm hroot

/-- A walk along a chain that reaches a root name succeeds, provided no class
before the end of the chain is marked visited without being processed; and it
leaves no new class in that condition. -/
theorem cyclic_check_of_reaches (g : ClassPtrMap) (k : Nat) (n : ClassPtr)
    (s : SemanticAnalyzer) (h : ReachesRootAt g k n)
    (hfree : ∀ i, i < k → ∀ a, ancestor g i n = some a →
      ¬ (a.addr ∈ s.visited ∧ a.addr ∉ s.processed)) :
    ∃ s', cyclic_check (k + 1) g n s = .ok (true, s') ∧
      ∀ a, a ∈ s'.visited → a ∉ s'.processed → a ∈ s.visited ∧ a ∉ s.processed := by
  induction k generalizing n s with
  | zero =>
    obtain ⟨⟨r, hr, hroot⟩, _⟩ := h
    simp only [ancestor, Option.some.injEq] at hr
    subst hr
    exact ⟨s, cyclic_check_root 0 g n s hroot, fun a hv hp => ⟨hv, hp⟩⟩
  | succ k ih =>
    have hnr : ¬ isRootName n := h.2 0 (by omega) n rfl
    have hnv : ¬ (n.addr ∈ s.visited ∧ n.addr ∉ s.processed) := hfree 0 (by omega) n rfl
    obtain ⟨⟨r, hr, hroot⟩, hmin⟩ := h
    cases hl : g.lookup n with
    | none => simp [ancestor, hl] at hr
    | some p =>
      have hp : ReachesRootAt g k p := reachesRootAt_succ g k n p hl ⟨⟨r, hr, hroot⟩, hmin⟩
      have hfree' : ∀ i, i < k → ∀ a, ancestor g i p = some a →
          ¬ (a.addr ∈ (markVisited s n).visited ∧ a.addr ∉ (markVisited s n).processed) := by
        intro i hi a ha hcon
        have ha' : ancestor g (i + 1) n = some a := by simpa only [ancestor, hl] using ha
        rcases (set_insert_mem s.visited n a.addr).mp hcon.1 with heq | hmem
        · exact reachesRootAt_no_return g (k + 1) n ⟨⟨r, hr, hroot⟩, hmin⟩ (i + 1)
            (by omega) (by omega) a ha' heq
        · exact hfree (i + 1) (by omega) a ha' ⟨hmem, hcon.2⟩
      obtain ⟨s2, hrec, hpost⟩ := ih p (markVisited s n) hp hfree'
      refine ⟨markProcessed s2 n, ?_, ?_⟩
      · have := cyclic_check_step (k + 1) g n p s s2 true hnr hnv hl hrec
        simpa using this
      · intro a hv hnp
        have hnp2 : a ∉ s2.processed := fun hh =>
          hnp ((set_insert_mem s2.processed n a).mpr (Or.inr hh))
        have hne : a ≠ n.addr := fun hh =>
          hnp ((set_insert_mem s2.processed n a).mpr (Or.inl hh))
        obtain ⟨hv1, hp1⟩ := hpost a hv hnp2
        rcases (set_insert_mem s.visited n a).mp hv1 with heq | hmem
        · exact absurd heq hne
        · exact ⟨hmem, hp1⟩

/-! ## Termination of the walks -/

theorem settled_mono (g : ClassPtrMap) (P Q : ClassPtrSet) (hPQ : ∀ a, a ∈ P → a ∈ Q)
    (c : ClassPtr) (h : Settled g P c) : Settled g Q c := by
  induction h with
  | root c v hl hr => exact Settled.root c v hl hr
  | step c v hl hv _ ih => exact Settled.step c v hl (hPQ _ hv) ih

theorem markVisited_of_mem (s : SemanticAnalyzer) (n : ClassPtr) (h : n.addr ∈ s.visited) :
    markVisited s n = s := by
  simp [markVisited, set_insert_of_mem s.visited n h]

theorem markProcessed_of_mem (s : SemanticAnalyzer) (n : ClassPtr) (h : n.addr ∈ s.processed) :
    markProcessed s n = s := by
  simp [markProcessed, set_insert_of_mem s.processed n h]

/-- A walk started on a processed class returns `true` and changes nothing. -/
theorem cyclic_check_settled (g : ClassPtrMap) (s : SemanticAnalyzer)
    (hsub : ∀ a, a ∈ s.processed → a ∈ s.visited) (c : ClassPtr)
    (hc : c.addr ∈ s.processed) (h : Settled g s.processed c) :
    ∃ fuel, cyclic_check fuel g c s = .ok (true, s) := by
  induction h with
  | root c v hl hr =>
    by_cases hroot : isRootName c
    · exact ⟨1, cyclic_check_root 0 g c s hroot⟩
    · refine ⟨2, ?_⟩
      have hrec : cyclic_check 1 g v (markVisited s c) = .ok (true, s) := by
        rw [markVisited_of_mem s c (hsub _ hc)]
        exact cyclic_check_root 0 g v s hr
      have := cyclic_check_step 1 g c v s s true hroot (fun hh => hh.2 hc) hl hrec
      simpa [markProcessed_of_mem s c hc] using this
  | step c v hl hv _ ih =>
    by_cases hroot : isRootName c
    · exact ⟨1, cyclic_check_root 0 g c s hroot⟩
    · obtain ⟨fuel, hf⟩ := ih hv
      refine ⟨fuel + 1, ?_⟩
      have hrec : cyclic_check fuel g v (markVisited s c) = .ok (true, s) := by
        rw [markVisited_of_mem s c (hsub _ hc)]
        exact hf
      have := cyclic_check_step fuel g c v s s true hroot (fun hh => hh.2 hc) hl hrec
      simpa [markProcessed_of_mem s c hc] using this

theorem unvisited_markVisited_lt (g : ClassPtrMap) (s : SemanticAnalyzer) (n v : ClassPtr)
    (hl : g.lookup n = some v) (hn : n.addr ∉ s.visited) :
    unvisited g (markVisited s n) < unvisited g s := by
  unfold unvisited
  apply Finset.card_lt_card
  obtain ⟨k, hk, hka⟩ := lookup_some_mem g n v hl
  have hkey : n.addr ∈ (g.map fun e => e.1.addr).toFinset := by
    rw [List.mem_toFinset, List.mem_map]
    exact ⟨(k, v), hk, hka⟩
  rw [Finset.ssubset_iff_of_subset]
  · refine ⟨n.addr, ?_, ?_⟩
    · rw [Finset.mem_sdiff]
      exact ⟨hkey, by simpa using hn⟩
    · rw [Finset.mem_sdiff]
      rintro ⟨_, h2⟩
      apply h2
      rw [List.mem_toFinset]
      exact (set_insert_mem s.visited n n.addr).mpr (Or.inl rfl)
  · intro a ha
    rw [Finset.mem_sdiff] at ha ⊢
    refine ⟨ha.1, fun hh => ha.2 ?_⟩
    rw [List.mem_toFinset] at hh ⊢
    exact (set_insert_mem s.visited n a).mpr (Or.inr hh)

/-- On a closed relation, from a state that satisfies the walk invariant, every
call on a class that is a root name or a key returns, and re-establishes the
invariant. -/
theorem cyclic_check_terminates (g : ClassPtrMap) (hclosed : Closed g) (m : Nat) :
    ∀ (s : SemanticAnalyzer) (n : ClassPtr), WalkInv g s → unvisited g s ≤ m →
      (isRootName n ∨ (g.lookup n).isSome = true) →
      ∃ fuel b s', cyclic_check fuel g n s = .ok (b, s') ∧ WalkInv g s' ∧
        (b = true → isRootName n ∨ n.addr ∈ s'.processed) := by
  induction m with
  | zero =>
    intro s n hinv hm hn
    by_cases hroot : isRootName n
    · exact ⟨1, true, s, cyclic_check_root 0 g n s hroot, hinv, fun _ => Or.inl hroot⟩
    · by_cases hp : n.addr ∈ s.processed
      · obtain ⟨fuel, hf⟩ := cyclic_check_settled g s hinv.1 n hp (hinv.2 n hp)
        exact ⟨fuel, true, s, hf, hinv, fun _ => Or.inr hp⟩
      · by_cases hv : n.addr ∈ s.visited
        · exact ⟨1, false, _, cyclic_check_revisit 0 g n s hroot hv hp, hinv, by simp⟩
        · rcases hn with hn | hn
          · exact absurd hn hroot
          · obtain ⟨v, hl⟩ := Option.isSome_iff_exists.mp hn
            have := unvisited_markVisited_lt g s n v hl hv
            omega
  | succ m ih =>
    intro s n hinv hm hn
    by_cases hroot : isRootName n
    · exact ⟨1, true, s, cyclic_check_root 0 g n s hroot, hinv, fun _ => Or.inl hroot⟩
    · by_cases hp : n.addr ∈ s.processed
      · obtain ⟨fuel, hf⟩ := cyclic_check_settled g s hinv.1 n hp (hinv.2 n hp)
        exact ⟨fuel, true, s, hf, hinv, fun _ => Or.inr hp⟩
      · by_cases hv : n.addr ∈ s.visited
        · exact ⟨1, false, _, cyclic_check_revisit 0 g n s hroot hv hp, hinv, by simp⟩
        · rcases hn with hn | hn
          · exact absurd hn hroot
          · obtain ⟨v, hl⟩ := Option.isSome_iff_exists.mp hn
            have hlt := unvisited_markVisited_lt g s n v hl hv
            have hinv1 : WalkInv g (markVisited s n) :=
              ⟨fun a ha => (set_insert_mem s.visited n a).mpr (Or.inr (hinv.1 a ha)), hinv.2⟩
            obtain ⟨k, hk, _⟩ := lookup_some_mem g n v hl
            obtain ⟨fuel, b, s2, hrec, hinv2, hb⟩ :=
              ih (markVisited s n) v hinv1 (by omega) (hclosed (k, v) hk)
            have hstep := cyclic_check_step fuel g n v s s2 b hroot (fun hh => hv hh.1) hl hrec
            refine ⟨fuel + 1, b, _, hstep, ?_, ?_⟩
            · cases b with
              | false => simpa using hinv2
              | true =>
                simp only [if_true]
                have hnv2 : n.addr ∈ s2.visited :=
                  (cyclic_check_frame fuel g v _ true s2 hrec).2.1 _
                    ((set_insert_mem s.visited n n.addr).mpr (Or.inl rfl))
                have hsubP : ∀ a, a ∈ s2.processed → a ∈ (markProcessed s2 n).processed :=
                  fun a ha => (set_insert_mem s2.processed n a).mpr (Or.inr ha)
                refine ⟨?_, ?_⟩
                · intro a ha
                  rcases (set_insert_mem s2.processed n a).mp ha with heq | hmem
                  · rw [heq]; exact hnv2
                  · exact hinv2.1 a hmem
                · intro c hc
                  rcases (set_insert_mem s2.processed n c.addr).mp hc with heq | hmem
                  · have hlc : g.lookup c = some v := by rw [lookup_addr g c n heq]; exact hl
                    rcases hb rfl with hvr | hvp
                    · exact Settled.root c v hlc hvr
                    · exact Settled.step c v hlc (hsubP _ hvp)
                        (settled_mono g _ _ hsubP v (hinv2.2 v hvp))
                  · exact settled_mono g _ _ hsubP c (hinv2.2 c hmem)
            · intro hbt
              subst hbt
              right
              exact (set_insert_mem s2.processed n n.addr).mpr (Or.inl rfl)

/-! ## The loop of cycle checks -/

theorem cycle_loop_cons_ok (fuel : Nat) (g : ClassPtrMap) (e : ClassPtr × ClassPtr)
    (rest : List (ClassPtr × ClassPtr)) (st : Bool × SemanticAnalyzer) (b : Bool)
    (s' : SemanticAnalyzer) (h : cyclic_check fuel g e.1 st.2 = .ok (b, s')) :
    cycle_loop fuel g (e :: rest) st = cycle_loop fuel g rest (st.1 && b, s') := by
  rw [cycle_loop]
  rw [h]
  cases b <;> simp

theorem cycle_loop_cons_error (fuel : Nat) (g : ClassPtrMap) (e : ClassPtr × ClassPtr)
    (rest : List (ClassPtr × ClassPtr)) (st : Bool × SemanticAnalyzer) (f : Fault)
    (h : cyclic_check fuel g e.1 st.2 = .error f) :
    cycle_loop fuel g (e :: rest) st = .error f := by
  rw [cycle_loop]
  rw [h]

theorem cycle_loop_cons_inv (fuel : Nat) (g : ClassPtrMap) (e : ClassPtr × ClassPtr)
    (rest : List (ClassPtr × ClassPtr)) (st r : Bool × SemanticAnalyzer)
    (h : cycle_loop fuel g (e :: rest) st = .ok r) :
    ∃ b s', cyclic_check fuel g e.1 st.2 = .ok (b, s') ∧
      cycle_loop fuel g rest (st.1 && b, s') = .ok r := by
  cases hc : cyclic_check fuel g e.1 st.2 with
  | error f => rw [cycle_loop_cons_error fuel g e rest st f hc] at h; cases h
  | ok r' =>
    obtain ⟨b, s'⟩ := r'
    rw [cycle_loop_cons_ok fuel g e rest st b s' hc] at h
    exact ⟨b, s', rfl, h⟩

theorem cycle_loop_mono_le (fuel fuel' : Nat) (hle : fuel ≤ fuel') (g : ClassPtrMap)
    (rest : List (ClassPtr × ClassPtr)) (st r : Bool × SemanticAnalyzer)
    (h : cycle_loop fuel g rest st = .ok r) : cycle_loop fuel' g rest st = .ok r := by
  induction rest generalizing st with
  | nil => simpa [cycle_loop] using h
  | cons e rest ih =>
    obtain ⟨b, s', hc, hrest⟩ := cycle_loop_cons_inv fuel g e rest st r h
    rw [cycle_loop_cons_ok fuel' g e rest st b s'
      (cyclic_check_mono_le fuel fuel' hle g e.1 st.2 (b, s') hc)]
    exact ih _ hrest

/-- What a completed loop of cycle checks has done: the relation is untouched,
the status can only fall, the status is `true` only if every walk returned
`true`, and every line written is a cyclic-dependency line. -/
theorem cycle_loop_post (fuel : Nat) (g : ClassPtrMap) (rest : List (ClassPtr × ClassPtr))
    (st r : Bool × SemanticAnalyzer) (h : cycle_loop fuel g rest st = .ok r) :
    r.2.inherit_graph = st.2.inherit_graph ∧
      (r.1 = true → st.1 = true ∧ r.2.cerr = st.2.cerr ∧
        ∀ e, e ∈ rest → ∃ k, ReachesRootAt g k e.1) ∧
      (∃ extra, r.2.cerr = st.2.cerr ++ extra ∧
        (∀ line, line ∈ extra → ∃ e k x, e ∈ rest ∧ ancestor g k e.1 = some x ∧
          line = cyclicMsg x.name) ∧
        (extra ≠ [] → r.1 = false) ∧ (r.1 = false → st.1 = false ∨ extra ≠ [])) := by
  induction rest generalizing st with
  | nil =>
    simp only [cycle_loop, Except.ok.injEq] at h
    subst h
    exact ⟨rfl, fun hs => ⟨hs, rfl, by simp⟩, [], by simp, by simp, by simp, fun hs => Or.inl hs⟩
  | cons e rest ih =>
    obtain ⟨b, s', hc, hrest⟩ := cycle_loop_cons_inv fuel g e rest st r h
    obtain ⟨hg, htrue, extra, hcerr, hlines, hne, hfalse⟩ := ih _ hrest
    have hframe := cyclic_check_frame fuel g e.1 st.2 b s' hc
    refine ⟨by rw [hg]; exact hframe.1, ?_, ?_⟩
    · intro hr
      obtain ⟨hst, hce, hall⟩ := htrue hr
      simp only [Bool.and_eq_true] at hst
      obtain ⟨hst1, hb⟩ := hst
      subst hb
      obtain ⟨hc1, k, x, hk, hx, hmin⟩ := cyclic_check_true fuel g e.1 st.2 s' hc
      refine ⟨hst1, by rw [hce]; exact hc1, ?_⟩
      intro e' he'
      rcases List.mem_cons.mp he' with heq | hmem
      · subst heq
        exact ⟨k, ⟨x, hk, hx⟩, hmin⟩
      · exact hall e' hmem
    · cases b with
      | true =>
        obtain ⟨hc1, _⟩ := cyclic_check_true fuel g e.1 st.2 s' hc
        refine ⟨extra, by rw [hcerr]; simp only at hc1 ⊢; rw [hc1], ?_, hne, ?_⟩
        · intro line hl
          obtain ⟨e', k, x, he', hk, hx⟩ := hlines line hl
          exact ⟨e', k, x, List.mem_cons_of_mem _ he', hk, hx⟩
        · intro hr
          rcases hfalse hr with h1 | h1
          · left; simpa using h1
          · right; exact h1
      | false =>
        obtain ⟨k, x, hk, hc1⟩ := cyclic_check_false fuel g e.1 st.2 s' hc
        refine ⟨cyclicMsg x.name :: extra, ?_, ?_, ?_, ?_⟩
        · rw [hcerr]; simp only at hc1 ⊢; rw [hc1]; simp
        · intro line hl
          rcases List.mem_cons.mp hl with heq | hmem
          · exact ⟨e, k, x, List.mem_cons_self _ _, hk, heq⟩
          · obtain ⟨e', k', x', he', hk', hx'⟩ := hlines line hmem
            exact ⟨e', k', x', List.mem_cons_of_mem _ he', hk', hx'⟩
        · intro _
          by_contra hr
          have hr' : r.1 = true := by simpa using hr
          have := (htrue hr').1
          simp at this
        · intro _
          right; simp

/-- When every walked class reaches a root name and no class is marked visited
without being processed, every walk of the loop returns `true`: the status and
the output are left as they were. -/
theorem cycle_loop_of_reaches (g : ClassPtrMap) (rest : List (ClassPtr × ClassPtr))
    (st : Bool × SemanticAnalyzer) (hall : ∀ e, e ∈ rest → ReachesRoot g e.1)
    (hfree : ∀ a, a ∈ st.2.visited → a ∈ st.2.processed) :
    ∃ fuel s', cycle_loop fuel g rest st = .ok (st.1, s') ∧ s'.cerr = st.2.cerr := by
  induction rest generalizing st with
  | nil => exact ⟨0, st.2, by simp [cycle_loop], rfl⟩
  | cons e rest ih =>
    obtain ⟨k, hk⟩ := reachesRoot_first g e.1 (hall e (List.mem_cons_self _ _))
    obtain ⟨s1, hc, hpend⟩ := cyclic_check_of_reaches g k e.1 st.2 hk
      (fun i _ a _ hcon => hcon.2 (hfree _ hcon.1))
    have hfree1 : ∀ a, a ∈ s1.visited → a ∈ s1.processed := by
      intro a ha
      by_contra hnp
      obtain ⟨h1, h2⟩ := hpend a ha hnp
      exact h2 (hfree a h1)
    obtain ⟨fuel, s', hloop, hcerr⟩ := ih (st.1 && true, s1)
      (fun e' he' => hall e' (List.mem_cons_of_mem _ he')) hfree1
    refine ⟨max (k + 1) fuel, s', ?_, ?_⟩
    · rw [cycle_loop_cons_ok (max (k + 1) fuel) g e rest st true s1
        (cyclic_check_mono_le (k + 1) _ (le_max_left _ _) g e.1 st.2 _ hc)]
      have := cycle_loop_mono_le fuel (max (k + 1) fuel) (le_max_right _ _) g rest _ _ hloop
      simpa using this
    · rw [hcerr]
      exact (cyclic_check_true (k + 1) g e.1 st.2 s1 hc).1

/-- On a closed relation, from a state that satisfies the walk invariant, the
loop of cycle checks over keys of the relation runs to completion. -/
theorem cycle_loop_terminates (g : ClassPtrMap) (hclosed : Closed g)
    (rest : List (ClassPtr × ClassPtr)) (st : Bool × SemanticAnalyzer)
    (hsub : ∀ e, e ∈ rest → e ∈ g) (hinv : WalkInv g st.2) :
    ∃ fuel r, cycle_loop fuel g rest st = .ok r := by
  induction rest generalizing st with
  | nil => exact ⟨0, st, by simp [cycle_loop]⟩
  | cons e rest ih =>
    have hkey : (g.lookup e.1).isSome = true :=
      lookup_isSome_of_mem g e.1 e.2 (hsub e (List.mem_cons_self _ _))
    obtain ⟨f1, b, s1, hc, hinv1, _⟩ :=
      cyclic_check_terminates g hclosed (unvisited g st.2) st.2 e.1 hinv le_rfl (Or.inr hkey)
    obtain ⟨f2, r, hloop⟩ := ih (st.1 && b, s1)
      (fun e' he' => hsub e' (List.mem_cons_of_mem _ he')) hinv1
    refine ⟨max f1 f2, r, ?_⟩
    rw [cycle_loop_cons_ok (max f1 f2) g e rest st b s1
      (cyclic_check_mono_le f1 _ (le_max_left _ _) g e.1 st.2 _ hc)]
    exact cycle_loop_mono_le f2 _ (le_max_right _ _) g rest _ _ hloop

/-- A completed loop has written, for every walked class whose chain does not
reach a root name, a cyclic-dependency line naming a class on that chain. -/
theorem cycle_loop_reports (fuel : Nat) (g : ClassPtrMap) (rest : List (ClassPtr × ClassPtr))
    (st r : Bool × SemanticAnalyzer) (h : cycle_loop fuel g rest st = .ok r)
    (e : ClassPtr × ClassPtr) (he : e ∈ rest) (hno : ¬ ReachesRoot g e.1) :
    ∃ k x, ancestor g k e.1 = some x ∧ cyclicMsg x.name ∈ r.2.cerr := by
  induction rest generalizing st with
  | nil => simp at he
  | cons e' rest ih =>
    obtain ⟨b, s', hc, hrest⟩ := cycle_loop_cons_inv fuel g e' rest st r h
    rcases List.mem_cons.mp he with heq | hmem
    · subst heq
      cases b with
      | true =>
        obtain ⟨_, k, x, hk, hx, _⟩ := cyclic_check_true fuel g e.1 st.2 s' hc
        exact absurd ⟨k, x, hk, hx⟩ hno
      | false =>
        obtain ⟨k, x, hk, hc1⟩ := cyclic_check_false fuel g e.1 st.2 s' hc
        obtain ⟨_, _, extra, hcerr, _⟩ := cycle_loop_post fuel g rest _ r hrest
        refine ⟨k, x, hk, ?_⟩
        rw [hcerr]
        simp only at hc1 ⊢
        rw [hc1]
        simp
    · exact ih _ hrest hmem

/-! ## The loop over the classes -/

theorem find_parent_some (classes : Classes) (c p : ClassPtr)
    (h : find_parent classes c = some p) : p ∈ classes ∧ c.parent = p.name := by
  unfold find_parent at h
  refine ⟨List.mem_of_find?_eq_some h, ?_⟩
  have := List.find?_some h
  simpa using this

theorem find_parent_none (classes : Classes) (c : ClassPtr)
    (h : find_parent classes c = none) : ∀ p, p ∈ classes → c.parent ≠ p.name := by
  unfold find_parent at h
  intro p hp
  have := List.find?_eq_none.mp h p hp
  simpa using this

theorem class_step_graph (classes : Classes) (st : Bool × SemanticAnalyzer) (c : ClassPtr) :
    (class_step classes st c).2.inherit_graph = record classes st.2.inherit_graph c ∧
      (class_step classes st c).2.visited = st.2.visited ∧
      (class_step classes st c).2.processed = st.2.processed := by
  unfold class_step check_parent check_duplicate check_invalid_parent record
  cases find_parent classes c <;> simp only [SemanticAnalyzer.emit] <;>
    split_ifs <;> simp

theorem class_loop_graph_aux (classes : Classes) (l : List ClassPtr)
    (st : Bool × SemanticAnalyzer) :
    (l.foldl (class_step classes) st).2.inherit_graph =
        l.foldl (record classes) st.2.inherit_graph ∧
      (l.foldl (class_step classes) st).2.visited = st.2.visited ∧
      (l.foldl (class_step classes) st).2.processed = st.2.processed := by
  induction l generalizing st with
  | nil => simp
  | cons c l ih =>
    simp only [List.foldl_cons]
    obtain ⟨h1, h2, h3⟩ := ih (class_step classes st c)
    obtain ⟨g1, g2, g3⟩ := class_step_graph classes st c
    rw [h1, h2, h3, g1, g2, g3]
    exact ⟨rfl, rfl, rfl⟩

theorem main_check_frame (classes : Classes) (st : Bool × SemanticAnalyzer) :
    (main_check classes st).2.inherit_graph = st.2.inherit_graph ∧
      (main_check classes st).2.visited = st.2.visited ∧
      (main_check classes st).2.processed = st.2.processed := by
  unfold main_check
  cases classes.find? (fun p => p.name == MAIN) <;> simp [SemanticAnalyzer.emit]

theorem graph_of_eq (classes : Classes) :
    graph_of classes = classes.foldl (record classes) [] := by
  unfold graph_of class_loop
  rw [(main_check_frame classes _).1, (class_loop_graph_aux classes classes _).1]
  rfl

theorem validate_inheritance_eq (fuel : Nat) (classes : Classes) :
    validate_inheritance fuel SemanticAnalyzer.fresh classes =
      cycle_loop fuel (graph_of classes) (graph_of classes)
        (main_check classes (class_loop classes SemanticAnalyzer.fresh)) := rfl

theorem phase1_markers (classes : Classes) :
    (main_check classes (class_loop classes SemanticAnalyzer.fresh)).2.visited = [] ∧
      (main_check classes (class_loop classes SemanticAnalyzer.fresh)).2.processed = [] := by
  unfold class_loop
  rw [(main_check_frame classes _).2.1, (main_check_frame classes _).2.2,
    (class_loop_graph_aux classes classes _).2.1, (class_loop_graph_aux classes classes _).2.2]
  exact ⟨rfl, rfl⟩

theorem mem_assign (m : ClassPtrMap) (k v a b : ClassPtr) (h : (a, b) ∈ m.assign k v) :
    (a = k ∧ b = v) ∨ (a, b) ∈ m ∨ (b = v ∧ a.addr = k.addr ∧ ∃ v', (a, v') ∈ m) := by
  induction m with
  | nil =>
    simp only [ClassPtrMap.assign, List.mem_singleton, Prod.mk.injEq] at h
    exact Or.inl h
  | cons e rest ih =>
    obtain ⟨k', v'⟩ := e
    simp only [ClassPtrMap.assign] at h
    by_cases h1 : k.addr < k'.addr
    · rw [if_pos h1] at h
      rcases List.mem_cons.mp h with h | h
      · simp only [Prod.mk.injEq] at h; exact Or.inl h
      · exact Or.inr (Or.inl h)
    · rw [if_neg h1] at h
      by_cases h2 : k.addr = k'.addr
      · rw [if_pos h2] at h
        rcases List.mem_cons.mp h with h | h
        · simp only [Prod.mk.injEq] at h
          refine Or.inr (Or.inr ⟨h.2, by rw [h.1, h2], v', ?_⟩)
          rw [h.1]; exact List.mem_cons_self _ _
        · exact Or.inr (Or.inl (List.mem_cons_of_mem _ h))
      · rw [if_neg h2] at h
        rcases List.mem_cons.mp h with h | h
        · exact Or.inr (Or.inl (by rw [h]; exact List.mem_cons_self _ _))
        · rcases ih h with h | h | ⟨hb, ha, w2, hw2⟩
          · exact Or.inl h
          · exact Or.inr (Or.inl (List.mem_cons_of_mem _ h))
          · exact Or.inr (Or.inr ⟨hb, ha, w2, List.mem_cons_of_mem _ hw2⟩)

/-- Every entry of the relation built from `l` joins a class of `l` (or an
earlier key) to a class that `find_parent` returned. -/
theorem foldl_record_mem (classes : Classes) (l : List ClassPtr) (g0 : ClassPtrMap)
    (a b : ClassPtr) (h : (a, b) ∈ l.foldl (record classes) g0) :
    (a ∈ l ∨ ∃ v, (a, v) ∈ g0) ∧
      ((a, b) ∈ g0 ∨ ∃ d, d ∈ l ∧ d.addr = a.addr ∧ find_parent classes d = some b) := by
  induction l generalizing g0 with
  | nil => exact ⟨Or.inr ⟨b, h⟩, Or.inl h⟩
  | cons c l ih =>
    simp only [List.foldl_cons] at h
    obtain ⟨h1, h2⟩ := ih (record classes g0 c) h
    have key : ∀ v, (a, v) ∈ record classes g0 c →
        (a = c ∨ ∃ v', (a, v') ∈ g0) ∧
          ((a, v) ∈ g0 ∨ (c.addr = a.addr ∧ find_parent classes c = some v)) := by
      intro v hv
      unfold record at hv
      cases hfp : find_parent classes c with
      | none =>
        simp only [hfp] at hv
        exact ⟨Or.inr ⟨v, hv⟩, Or.inl hv⟩
      | some p =>
        simp only [hfp] at hv
        rcases mem_assign g0 c p a v hv with ⟨ha, hb⟩ | hm | ⟨hb, ha, v', hv'⟩
        · exact ⟨Or.inl ha, Or.inr ⟨by rw [ha], by rw [hb]⟩⟩
        · exact ⟨Or.inr ⟨v, hm⟩, Or.inl hm⟩
        · exact ⟨Or.inr ⟨v', hv'⟩, Or.inr ⟨ha.symm, by rw [hb]⟩⟩
    constructor
    · rcases h1 with h1 | ⟨v, hv⟩
      · exact Or.inl (List.mem_cons_of_mem _ h1)
      · rcases (key v hv).1 with h | h
        · exact Or.inl (by rw [h]; exact List.mem_cons_self _ _)
        · exact Or.inr h
    · rcases h2 with h2 | ⟨d, hd, hda, hfd⟩
      · rcases (key b h2).2 with h | ⟨h, h'⟩
        · exact Or.inl h
        · exact Or.inr ⟨c, List.mem_cons_self _ _, h, h'⟩
      · exact Or.inr ⟨d, List.mem_cons_of_mem _ hd, hda, hfd⟩

theorem lookup_record (classes : Classes) (g : ClassPtrMap) (c p : ClassPtr) :
    (record classes g c).lookup p =
      if c.addr = p.addr then (find_parent classes c).orElse (fun _ => g.lookup p)
      else g.lookup p := by
  unfold record
  cases hfp : find_parent classes c with
  | none => by_cases h : c.addr = p.addr <;> simp [h]
  | some v =>
    simp only [lookup_assign]
    by_cases h : c.addr = p.addr <;> simp [h]

theorem foldl_record_lookup_some (classes : Classes) (l : List ClassPtr) (g0 : ClassPtrMap)
    (p v : ClassPtr) (h : (l.foldl (record classes) g0).lookup p = some v) :
    g0.lookup p = some v ∨ ∃ d, d ∈ l ∧ d.addr = p.addr ∧ find_parent classes d = some v := by
  induction l generalizing g0 with
  | nil => exact Or.inl h
  | cons c l ih =>
    simp only [List.foldl_cons] at h
    rcases ih (record classes g0 c) h with h1 | ⟨d, hd, hda, hfd⟩
    · rw [lookup_record] at h1
      by_cases hc : c.addr = p.addr
      · rw [if_pos hc] at h1
        cases hfp : find_parent classes c with
        | none =>
          rw [hfp] at h1
          exact Or.inl (by simpa using h1)
        | some w =>
          rw [hfp] at h1
          have hw : w = v := by simpa using h1
          exact Or.inr ⟨c, List.mem_cons_self _ _, hc, by rw [hfp, hw]⟩
      · rw [if_neg hc] at h1
        exact Or.inl h1
    · exact Or.inr ⟨d, List.mem_cons_of_mem _ hd, hda, hfd⟩

theorem foldl_record_lookup_other (classes : Classes) (l : List ClassPtr) (g0 : ClassPtrMap)
    (p : ClassPtr) (h : ∀ d, d ∈ l → d.addr ≠ p.addr) :
    (l.foldl (record classes) g0).lookup p = g0.lookup p := by
  induction l generalizing g0 with
  | nil => rfl
  | cons c l ih =>
    simp only [List.foldl_cons]
    rw [ih (record classes g0 c) (fun d hd => h d (List.mem_cons_of_mem _ hd)), lookup_record,
      if_neg (h c (List.mem_cons_self _ _))]

theorem foldl_record_lookup_self (classes : Classes) (hso : SameObject classes)
    (l : List ClassPtr) (hl : ∀ d, d ∈ l → d ∈ classes) (g0 : ClassPtrMap) (p v : ClassPtr)
    (hp : p ∈ classes) (hin : ∃ d, d ∈ l ∧ d.addr = p.addr)
    (hfp : find_parent classes p = some v) :
    (l.foldl (record classes) g0).lookup p = some v := by
  induction l generalizing g0 with
  | nil => obtain ⟨d, hd, _⟩ := hin; simp at hd
  | cons c l ih =>
    simp only [List.foldl_cons]
    by_cases hlater : ∃ d, d ∈ l ∧ d.addr = p.addr
    · exact ih (fun d hd => hl d (List.mem_cons_of_mem _ hd)) _ hlater
    · have hno : ∀ d, d ∈ l → d.addr ≠ p.addr := fun d hd hda => hlater ⟨d, hd, hda⟩
      rw [foldl_record_lookup_other classes l _ p hno]
      obtain ⟨d, hd, hda⟩ := hin
      rcases List.mem_cons.mp hd with hdc | hdl
      · subst hdc
        have : d = p := hso d p (hl d (List.mem_cons_self _ _)) hp hda
        subst this
        rw [lookup_record, if_pos rfl, hfp]
        rfl
      · exact absurd hda (hno d hdl)

/-- With one object per address, the recorded edge of a class of the sequence is
what `find_parent` returns for it. -/
theorem graph_of_lookup (classes : Classes) (hso : SameObject classes) (c : ClassPtr)
    (hc : c ∈ classes) : (graph_of classes).lookup c = find_parent classes c := by
  rw [graph_of_eq]
  cases hfp : find_parent classes c with
  | some v =>
    exact foldl_record_lookup_self classes hso classes (fun _ h => h) [] c v hc ⟨c, hc, rfl⟩ hfp
  | none =>
    cases hl : (classes.foldl (record classes) []).lookup c with
    | none => rfl
    | some v =>
      rcases foldl_record_lookup_some classes classes [] c v hl with h | ⟨d, hd, hda, hfd⟩
      · simp [ClassPtrMap.lookup] at h
      · have : d = c := hso d c hd hc hda
        subst this
        rw [hfp] at hfd
        cases hfd

/-- With one object per address, every entry of the relation joins a class of
the sequence to the class `find_parent` returns for it. -/
theorem graph_of_mem (classes : Classes) (hso : SameObject classes) (k v : ClassPtr)
    (h : (k, v) ∈ graph_of classes) :
    k ∈ classes ∧ v ∈ classes ∧ find_parent classes k = some v := by
  rw [graph_of_eq] at h
  obtain ⟨h1, h2⟩ := foldl_record_mem classes classes [] k v h
  have hk : k ∈ classes := by
    rcases h1 with h1 | ⟨_, h1⟩
    · exact h1
    · simp at h1
  rcases h2 with h2 | ⟨d, hd, hda, hfd⟩
  · simp at h2
  · have : d = k := hso d k hd hk hda
    subst this
    exact ⟨hk, (find_parent_some classes d v hfd).1, hfd⟩

theorem graph_of_ancestor_mem (classes : Classes) (hso : SameObject classes) (c : ClassPtr)
    (hc : c ∈ classes) (k : Nat) (a : ClassPtr)
    (h : ancestor (graph_of classes) k c = some a) : a ∈ classes := by
  induction k generalizing c with
  | zero =>
    simp only [ancestor, Option.some.injEq] at h
    rw [← h]; exact hc
  | succ k ih =>
    simp only [ancestor] at h
    cases hl : (graph_of classes).lookup c with
    | none => simp [hl] at h
    | some p =>
      simp only [hl] at h
      rw [graph_of_lookup classes hso c hc] at hl
      exact ih p (find_parent_some classes c p hl).1 h

/-! ## Null dereferences persist under more fuel -/

theorem cyclic_check_null_mono (fuel : Nat) (g : ClassPtrMap) (n : ClassPtr)
    (s : SemanticAnalyzer) (h : cyclic_check fuel g n s = .error .nullDeref) :
    cyclic_check (fuel + 1) g n s = .error .nullDeref := by
  induction fuel generalizing n s with
  | zero => simp [cyclic_check] at h
  | succ fuel ih =>
    by_cases hroot : isRootName n
    · rw [cyclic_check_root fuel g n s hroot] at h; cases h
    · by_cases hrev : n.addr ∈ s.visited ∧ n.addr ∉ s.processed
      · rw [cyclic_check_revisit fuel g n s hroot hrev.1 hrev.2] at h; cases h
      · cases hl : g.lookup n with
        | none => exact cyclic_check_null _ g n s hroot hrev hl
        | some p =>
          cases hr : cyclic_check fuel g p (markVisited s n) with
          | ok r =>
            obtain ⟨b, s2⟩ := r
            rw [cyclic_check_step fuel g n p s s2 b hroot hrev hl hr] at h; cases h
          | error e =>
            rw [cyclic_check_step_error fuel g n p s e hroot hrev hl hr] at h
            simp only [Except.error.injEq] at h
            subst h
            exact cyclic_check_step_error _ g n p s _ hroot hrev hl (ih p _ hr)

theorem cycle_loop_null_mono (fuel : Nat) (g : ClassPtrMap) (rest : List (ClassPtr × ClassPtr))
    (st : Bool × SemanticAnalyzer) (h : cycle_loop fuel g rest st = .error .nullDeref) :
    cycle_loop (fuel + 1) g rest st = .error .nullDeref := by
  induction rest generalizing st with
  | nil => simp [cycle_loop] at h
  | cons e rest ih =>
    cases hc : cyclic_check fuel g e.1 st.2 with
    | ok r =>
      obtain ⟨b, s'⟩ := r
      rw [cycle_loop_cons_ok fuel g e rest st b s' hc] at h
      rw [cycle_loop_cons_ok (fuel + 1) g e rest st b s' (cyclic_check_mono fuel g e.1 st.2 _ hc)]
      exact ih _ h
    | error f =>
      rw [cycle_loop_cons_error fuel g e rest st f hc] at h
      simp only [Except.error.injEq] at h
      subst h
      exact cycle_loop_cons_error _ g e rest st _ (cyclic_check_null_mono fuel g e.1 st.2 hc)

/-- A run that dereferences a null pointer with some fuel does so with any
larger fuel. -/
theorem validate_null_mono_le (fuel fuel' : Nat) (hle : fuel ≤ fuel') (s : SemanticAnalyzer)
    (classes : Classes) (h : validate_inheritance fuel s classes = .error .nullDeref) :
    validate_inheritance fuel' s classes = .error .nullDeref := by
  induction hle with
  | refl => exact h
  | step _ ih => exact cycle_loop_null_mono _ _ _ _ ih

/-! ## Shared facts about whole runs -/

theorem sameObject_of_nodup (classes : Classes)
    (h : (classes.map fun c => c.addr).Nodup) : SameObject classes := by
  intro c d hc hd hcd
  exact List.inj_on_of_nodup_map h hc hd hcd

theorem returned_eq_some (r : Except Fault (Bool × SemanticAnalyzer)) (b : Bool)
    (h : returned r = some b) : ∃ s', r = .ok (b, s') := by
  cases r with
  | error e => simp [returned] at h
  | ok p =>
    obtain ⟨b', s'⟩ := p
    simp only [returned, Option.some.injEq] at h
    exact ⟨s', by rw [h]⟩

/-- The relation a completed run leaves in the analyser is `graph_of classes`. -/
theorem validate_inheritance_graph (fuel : Nat) (classes : Classes) (b : Bool)
    (s' : SemanticAnalyzer)
    (h : validate_inheritance fuel SemanticAnalyzer.fresh classes = .ok (b, s')) :
    s'.inherit_graph = graph_of classes := by
  rw [validate_inheritance_eq] at h
  exact (cycle_loop_post fuel _ _ _ _ h).1

theorem chain_distinct (g : ClassPtrMap) (k : Nat) (c : ClassPtr) (h : ReachesRootAt g k c)
    (hname : ∀ i j a b, ancestor g i c = some a → ancestor g j c = some b →
      a.addr = b.addr → a.name = b.name) :
    ∀ i j a b, i < j → j ≤ k → ancestor g i c = some a → ancestor g j c = some b →
      a.addr ≠ b.addr := by
  intro i j a b hij hjk ha hb hEq
  obtain ⟨⟨r, hr, hroot⟩, hmin⟩ := h
  have hna : ¬ isRootName a := hmin i (by omega) a ha
  by_cases hj : j = k
  · subst hj
    rw [hr] at hb
    simp only [Option.some.injEq] at hb
    subst hb
    have hn := hname i j a r ha hr hEq
    apply hna
    unfold isRootName at hroot ⊢
    rw [hn]; exact hroot
  · obtain ⟨d, hd⟩ : ∃ d, k - j = d + 1 := ⟨k - j - 1, by omega⟩
    have h1 : ancestor g (j + (d + 1)) c = ancestor g (d + 1) b := ancestor_add g j (d + 1) c b hb
    have hk : j + (d + 1) = k := by omega
    rw [hk, hr, ancestor_addr g d b a hEq.symm, ← ancestor_add g i (d + 1) c a ha] at h1
    exact hmin (i + (d + 1)) (by omega) r h1.symm hroot

theorem ioCycle_ancestor (k : Nat) :
    (∀ r, ancestor (graph_of ioCycleClasses) k (mkClass 3 "A" "IO") = some r →
        r.name = "A" ∨ r.name = "IO") ∧
      (∀ r, ancestor (graph_of ioCycleClasses) k (mkClass 2 "IO" "A") = some r →
        r.name = "A" ∨ r.name = "IO") := by
  induction k with
  | zero =>
    constructor <;> intro r hr <;> simp only [ancestor, Option.some.injEq] at hr <;>
      rw [← hr] <;> simp [mkClass]
  | succ k ih =>
    have hA : (graph_of ioCycleClasses).lookup (mkClass 3 "A" "IO") =
        some (mkClass 2 "IO" "A") := by rfl
    have hI : (graph_of ioCycleClasses).lookup (mkClass 2 "IO" "A") =
        some (mkClass 3 "A" "IO") := by rfl
    constructor
    · intro r hr
      simp only [ancestor, hA] at hr
      exact ih.2 r hr
    · intro r hr
      simp only [ancestor, hI] at hr
      exact ih.1 r hr

/-! ## C1 -/

/-- C1 (as stated, refuted): on `ioCycleClasses`, `validate_inheritance` returns
`true`, class `A` has a recorded edge, and yet no number of parent steps from
`A` reaches a class named `Object`. -/
theorem C1_counterexample :
    returned (validate_inheritance 10 SemanticAnalyzer.fresh ioCycleClasses) = some true ∧
      ((graph_of ioCycleClasses).lookup (mkClass 3 "A" "IO")).isSome = true ∧
      ¬ ∃ k, RootedChain (graph_of ioCycleClasses) (fun n => n = OBJECT)
        (mkClass 3 "A" "IO") k := by
  refine ⟨by decide, by decide, ?_⟩
  rintro ⟨k, ⟨r, hr, hroot⟩, _⟩
  rcases (ioCycle_ancestor k).1 r hr with h | h <;> rw [h] at hroot <;>
    exact absurd hroot (by decide)

/-- C1 (amended): when `validate_inheritance` returns `true`, the chain of every
class with a recorded edge reaches a class named `Object` or `IO` after
finitely many parent steps, without visiting any class twice. -/
theorem C1_validated_chains_rooted (fuel : Nat) (classes : Classes)
    (hso : SameObject classes)
    (h : returned (validate_inheritance fuel SemanticAnalyzer.fresh classes) = some true) :
    ∀ c v, (c, v) ∈ graph_of classes →
      ∃ k, RootedChain (graph_of classes) (fun n => n = OBJECT ∨ n = IO_CLASS) c k := by
  intro c v hcv
  obtain ⟨s', hs'⟩ := returned_eq_some _ _ h
  rw [validate_inheritance_eq] at hs'
  obtain ⟨_, htrue, _⟩ := cycle_loop_post fuel _ _ _ _ hs'
  obtain ⟨_, _, hall⟩ := htrue rfl
  obtain ⟨k, hk⟩ := hall (c, v) hcv
  have hc : c ∈ classes := (graph_of_mem classes hso c v hcv).1
  refine ⟨k, hk.1, chain_distinct _ k c hk ?_⟩
  intro i j a b ha hb hab
  have ha' := graph_of_ancestor_mem classes hso c hc i a ha
  have hb' := graph_of_ancestor_mem classes hso c hc j b hb
  rw [hso a b ha' hb' hab]

/-- C1 (amended), at `smallProgram`: the run returns `true`, so the chains of
its classes reach `Object` or `IO` without repeats. -/
theorem C1_witness :
    SameObject smallProgram ∧
      returned (validate_inheritance 5 SemanticAnalyzer.fresh smallProgram) = some true ∧
      ∀ c v, (c, v) ∈ graph_of smallProgram →
        ∃ k, RootedChain (graph_of smallProgram) (fun n => n = OBJECT ∨ n = IO_CLASS) c k :=
  ⟨sameObject_of_nodup smallProgram (by decide), by decide,
    C1_validated_chains_rooted 5 smallProgram
      (sameObject_of_nodup smallProgram (by decide)) (by decide)⟩

/-! ## C2 -/

theorem parentCycle_ancestor (classes : Classes) (hso : SameObject classes)
    (A B C : ClassPtr) (hcyc : ParentCycle classes A B C) (k : Nat) :
    (∀ r, ancestor (graph_of classes) k A = some r → r = A ∨ r = B ∨ r = C) ∧
      (∀ r, ancestor (graph_of classes) k B = some r → r = A ∨ r = B ∨ r = C) ∧
      (∀ r, ancestor (graph_of classes) k C = some r → r = A ∨ r = B ∨ r = C) := by
  obtain ⟨hAB, hBC, hCA⟩ := hcyc
  have hB : B ∈ classes := (find_parent_some classes A B hAB).1
  have hC : C ∈ classes := (find_parent_some classes B C hBC).1
  have hA : A ∈ classes := (find_parent_some classes C A hCA).1
  induction k with
  | zero =>
    refine ⟨?_, ?_, ?_⟩ <;> intro r hr <;> simp only [ancestor, Option.some.injEq] at hr <;>
      simp [← hr]
  | succ k ih =>
    refine ⟨?_, ?_, ?_⟩ <;> intro r hr <;> simp only [ancestor] at hr
    · rw [graph_of_lookup classes hso A hA, hAB] at hr
      exact ih.2.1 r hr
    · rw [graph_of_lookup classes hso B hB, hBC] at hr
      exact ih.2.2 r hr
    · rw [graph_of_lookup classes hso C hC, hCA] at hr
      exact ih.1 r hr

/-- C2 (as stated, refuted): in `ioThreeCycle` the classes `IO`, `B`, `C`, none of
them named `Object`, inherit from each other in a cycle, and
`validate_inheritance` returns `true` without writing anything. -/
theorem C2_counterexample :
    ParentCycle ioThreeCycle (mkClass 2 "IO" "B") (mkClass 3 "B" "C") (mkClass 4 "C" "IO") ∧
      (mkClass 2 "IO" "B").name ≠ OBJECT ∧ (mkClass 3 "B" "C").name ≠ OBJECT ∧
      (mkClass 4 "C" "IO").name ≠ OBJECT ∧
      returned (validate_inheritance 10 SemanticAnalyzer.fresh ioThreeCycle) = some true ∧
      output (validate_inheritance 10 SemanticAnalyzer.fresh ioThreeCycle) = some [] :=
  ⟨⟨rfl, rfl, rfl⟩, by decide, by decide, by decide, by decide, by decide⟩

/-- C2 (amended): when the parents of `A`, `B`, `C` resolve to `B`, `C`, `A`, none
of the three is named `Object` or `IO`, and every recorded parent is named
`Object` or `IO` or has a recorded edge itself, then with enough fuel
`validate_inheritance` returns `false` and has written a cyclic-dependency line
naming `A`, `B` or `C`. -/
theorem C2_three_cycle_rejected (classes : Classes) (A B C : ClassPtr)
    (hso : SameObject classes) (hcyc : ParentCycle classes A B C)
    (hA : ¬ isRootName A) (hB : ¬ isRootName B) (hC : ¬ isRootName C)
    (hclosed : Closed (graph_of classes)) :
    ∃ N, ∀ fuel, N ≤ fuel → ∃ s',
      validate_inheritance fuel SemanticAnalyzer.fresh classes = .ok (false, s') ∧
      ∃ X, (X = A ∨ X = B ∨ X = C) ∧ cyclicMsg X.name ∈ s'.cerr := by
  have hAmem : A ∈ classes := (find_parent_some classes C A hcyc.2.2).1
  have hinv : WalkInv (graph_of classes)
      (main_check classes (class_loop classes SemanticAnalyzer.fresh)).2 := by
    obtain ⟨h1, h2⟩ := phase1_markers classes
    constructor
    · intro a ha; rw [h2] at ha; simp at ha
    · intro c hc; rw [h2] at hc; simp at hc
  obtain ⟨N, r, hloop⟩ := cycle_loop_terminates (graph_of classes) hclosed (graph_of classes)
    _ (fun _ h => h) hinv
  have hno : ¬ ReachesRoot (graph_of classes) A := by
    rintro ⟨k, x, hk, hx⟩
    rcases (parentCycle_ancestor classes hso A B C hcyc k).1 x hk with h | h | h <;>
      subst h
    · exact hA hx
    · exact hB hx
    · exact hC hx
  have hAB : (A, B) ∈ graph_of classes := by
    have hl : (graph_of classes).lookup A = some B := by
      rw [graph_of_lookup classes hso A hAmem]; exact hcyc.1
    obtain ⟨k, hk, hka⟩ := lookup_some_mem _ A B hl
    have : k = A := hso k A (graph_of_mem classes hso k B hk).1 hAmem hka
    rw [← this]; exact hk
  obtain ⟨k, x, hk, hx⟩ := cycle_loop_reports N _ _ _ r hloop (A, B) hAB hno
  have hfalse : r.1 = false := by
    cases hr : r.1 with
    | false => rfl
    | true =>
      obtain ⟨j, hj⟩ := (cycle_loop_post N _ _ _ r hloop).2.1 hr |>.2.2 (A, B) hAB
      exact absurd ⟨j, hj.1⟩ hno
  refine ⟨N, fun fuel hfuel => ⟨r.2, ?_, x, (parentCycle_ancestor classes hso A B C hcyc k).1 x hk,
    hx⟩⟩
  rw [validate_inheritance_eq, cycle_loop_mono_le N fuel hfuel _ _ _ r hloop, ← hfalse]

/-- C2 (amended), at `threeCycle`: the cycle `A → B → C → A` is rejected with a
cyclic-dependency line naming one of the three. -/
theorem C2_witness :
    ParentCycle threeCycle (mkClass 2 "A" "B") (mkClass 3 "B" "C") (mkClass 4 "C" "A") ∧
      Closed (graph_of threeCycle) ∧
      ∃ N, ∀ fuel, N ≤ fuel → ∃ s',
        validate_inheritance fuel SemanticAnalyzer.fresh threeCycle = .ok (false, s') ∧
        ∃ X, (X = mkClass 2 "A" "B" ∨ X = mkClass 3 "B" "C" ∨ X = mkClass 4 "C" "A") ∧
          cyclicMsg X.name ∈ s'.cerr :=
  ⟨⟨rfl, rfl, rfl⟩, by decide,
    C2_three_cycle_rejected threeCycle (mkClass 2 "A" "B") (mkClass 3 "B" "C")
      (mkClass 4 "C" "A") (sameObject_of_nodup threeCycle (by decide)) ⟨rfl, rfl, rfl⟩
      (by decide) (by decide) (by decide) (by decide)⟩

/-! ## C3 -/

theorem class_step_quiet (classes : Classes) (st : Bool × SemanticAnalyzer) (c : ClassPtr)
    (hprim : invalid_parent c.parent = false) (hnew : st.2.inherit_graph.lookup c = none)
    (hres : (find_parent classes c).isSome = true ∨ c.name = OBJECT) :
    (class_step classes st c).1 = st.1 ∧ (class_step classes st c).2.cerr = st.2.cerr := by
  unfold class_step check_parent check_duplicate check_invalid_parent ClassPtrMap.count
  simp only [hprim, hnew]
  cases hfp : find_parent classes c with
  | some p => simp [hnew]
  | none =>
    rcases hres with h | h
    · simp [hfp] at h
    · simp [h, hnew]

theorem class_loop_quiet (classes : Classes) (hnd : (classes.map fun c => c.addr).Nodup)
    (hprim : ∀ c, c ∈ classes → invalid_parent c.parent = false)
    (hres : ∀ c, c ∈ classes → (find_parent classes c).isSome = true ∨ c.name = OBJECT)
    (pre l : List ClassPtr) (hsplit : classes = pre ++ l) (st : Bool × SemanticAnalyzer)
    (hg : st.2.inherit_graph = pre.foldl (record classes) []) :
    (l.foldl (class_step classes) st).1 = st.1 ∧
      (l.foldl (class_step classes) st).2.cerr = st.2.cerr := by
  induction l generalizing pre st with
  | nil => exact ⟨rfl, rfl⟩
  | cons c l ih =>
    have hc : c ∈ classes := by rw [hsplit]; simp
    have hnew : st.2.inherit_graph.lookup c = none := by
      cases hl : st.2.inherit_graph.lookup c with
      | none => rfl
      | some v =>
        rw [hg] at hl
        rcases foldl_record_lookup_some classes pre [] c v hl with h | ⟨d, hd, hda, _⟩
        · simp [ClassPtrMap.lookup] at h
        · exfalso
          rw [hsplit, List.map_append, List.nodup_append] at hnd
          have h1 : d.addr ∈ pre.map fun c => c.addr := List.mem_map.mpr ⟨d, hd, rfl⟩
          have h2 : d.addr ∈ (c :: l).map fun c => c.addr :=
            List.mem_map.mpr ⟨c, List.mem_cons_self _ _, hda.symm⟩
          exact hnd.2.2 h1 h2
    obtain ⟨q1, q2⟩ := class_step_quiet classes st c (hprim c hc) hnew (hres c hc)
    simp only [List.foldl_cons]
    obtain ⟨i1, i2⟩ := ih (pre ++ [c]) (by rw [hsplit]; simp) (class_step classes st c)
      (by rw [(class_step_graph classes st c).1, hg]; simp)
    rw [i1, i2, q1, q2]
    exact ⟨rfl, rfl⟩

theorem declaredAncestor_eq (classes : Classes) (hso : SameObject classes) (k : Nat)
    (c : ClassPtr) (hc : c ∈ classes) :
    ancestor (graph_of classes) k c = declaredAncestor classes k c := by
  induction k generalizing c with
  | zero => rfl
  | succ k ih =>
    simp only [ancestor, declaredAncestor, graph_of_lookup classes hso c hc]
    cases hfp : find_parent classes c with
    | none => rfl
    | some p => exact ih p (find_parent_some classes c p hfp).1

theorem rootedAtObject_resolves (classes : Classes) (h : RootedAtObject classes) (c : ClassPtr)
    (hc : c ∈ classes) : (find_parent classes c).isSome = true ∨ c.name = OBJECT := by
  obtain ⟨k, r, hk, hr⟩ := h c hc
  cases k with
  | zero =>
    simp only [declaredAncestor, Option.some.injEq] at hk
    right; rw [hk]; exact hr
  | succ k =>
    simp only [declaredAncestor] at hk
    cases hfp : find_parent classes c with
    | none => simp [hfp] at hk
    | some p => left; rfl

/-- C4 (code evaluated at a failing input): in `primitiveParentProgram` class `A`
declares `Int` as its parent, and `validate_inheritance` returns nothing,
whatever the fuel: the walk from `X` dereferences the null parent of `Y`. -/
theorem C4_primitive_parent_no_return :
    (∃ c, c ∈ primitiveParentProgram ∧ invalid_parent c.parent = true) ∧
      fault (validate_inheritance 5 SemanticAnalyzer.fresh primitiveParentProgram) =
        some Fault.nullDeref ∧
      ∀ fuel, returned
        (validate_inheritance fuel SemanticAnalyzer.fresh primitiveParentProgram) = none := by
  refine ⟨⟨mkClass 1 "A" "Int", by simp [primitiveParentProgram], by decide⟩, by decide, ?_⟩
  intro fuel
  by_cases hf : 5 ≤ fuel
  · rw [validate_null_mono_le 5 fuel hf SemanticAnalyzer.fresh primitiveParentProgram rfl]; rfl
  · have : fuel = 0 ∨ fuel = 1 ∨ fuel = 2 ∨ fuel = 3 ∨ fuel = 4 := by omega
    rcases this with h | h | h | h | h <;> subst h <;> rfl

/-! ## C5 -/

/-- C5 (code evaluated at a failing input): `noMainProgram` has no class named
`Main`, and `validate_inheritance` returns nothing, whatever the fuel: the walk
from `X` dereferences the null parent of `Y`. -/
theorem C5_no_main_no_return :
    (noMainProgram.filter fun c => c.name == MAIN).length = 0 ∧
      fault (validate_inheritance 3 SemanticAnalyzer.fresh noMainProgram) =
        some Fault.nullDeref ∧
      ∀ fuel, returned
        (validate_inheritance fuel SemanticAnalyzer.fresh noMainProgram) = none := by
  refine ⟨by decide, by decide, ?_⟩
  intro fuel
  by_cases hf : 3 ≤ fuel
  · rw [validate_null_mono_le 3 fuel hf SemanticAnalyzer.fresh noMainProgram rfl]; rfl
  · have : fuel = 0 ∨ fuel = 1 ∨ fuel = 2 := by omega
    rcases this with h | h | h <;> subst h <;> rfl

/-! ## C6 -/

/-- C6 (code evaluated at a failing input): the third class of
`twoObjectsProgram` has the name of the first, and `validate_inheritance`
returns `true` without writing any diagnostic. -/
theorem C6_duplicate_name_accepted :
    (twoObjectsProgram.map fun c => c.name) = ["Object", "Main", "Object"] ∧
      returned (validate_inheritance 10 SemanticAnalyzer.fresh twoObjectsProgram) = some true ∧
      output (validate_inheritance 10 SemanticAnalyzer.fresh twoObjectsProgram) = some [] :=
  ⟨by decide, by decide, by decide⟩

/-! ## C8 -/

/-- C8 (code evaluated at a failing input): on `danglingParentProgram` class `Y`
has no recorded edge, the walk from `X` looks up `graph[Y]`, and
`validate_inheritance` dereferences the null pointer it gets: no fuel makes it
return. -/
theorem C8_dangling_parent_null_deref :
    (graph_of danglingParentProgram).lookup (mkClass 1 "X" "Y") = some (mkClass 2 "Y" "Zzz") ∧
      ((graph_of danglingParentProgram).lookup (mkClass 2 "Y" "Zzz")).isNone = true ∧
      fault (validate_inheritance 3 SemanticAnalyzer.fresh danglingParentProgram) =
        some Fault.nullDeref ∧
      ∀ fuel, returned
        (validate_inheritance fuel SemanticAnalyzer.fresh danglingParentProgram) = none := by
  refine ⟨rfl, by decide, by decide, ?_⟩
  intro fuel
  by_cases hf : 3 ≤ fuel
  · rw [validate_null_mono_le 3 fuel hf SemanticAnalyzer.fresh danglingParentProgram rfl]; rfl
  · have : fuel = 0 ∨ fuel = 1 ∨ fuel = 2 := by omega
    rcases this with h | h | h <;> subst h <;> rfl

/-! ## The status after the two loops -/

theorem class_step_status (classes : Classes) (st : Bool × SemanticAnalyzer) (c : ClassPtr) :
    (class_step classes st c).1 = (st.1 && passes classes st.2.inherit_graph c) := by
  unfold class_step check_parent check_duplicate check_invalid_parent passes
    ClassPtrMap.count
  cases hfp : find_parent classes c <;> cases hip : invalid_parent c.parent <;>
    cases hl : st.2.inherit_graph.lookup c <;> cases hs : st.1 <;>
    by_cases hn : c.name = OBJECT <;> simp [hn, SemanticAnalyzer.emit, hl, hs]

theorem class_loop_status (classes : Classes) (l : List ClassPtr)
    (st : Bool × SemanticAnalyzer) :
    (l.foldl (class_step classes) st).1 = true ↔
      st.1 = true ∧ ∀ pre c post, l = pre ++ c :: post →
        passes classes (pre.foldl (record classes) st.2.inherit_graph) c = true := by
  induction l generalizing st with
  | nil =>
    simp only [List.foldl_nil]
    constructor
    · intro h
      refine ⟨h, ?_⟩
      intro pre c post hsplit
      simp at hsplit
    · exact fun h => h.1
  | cons c l ih =>
    simp only [List.foldl_cons]
    rw [ih, class_step_status, (class_step_graph classes st c).1]
    constructor
    · rintro ⟨h1, h2⟩
      simp only [Bool.and_eq_true] at h1
      refine ⟨h1.1, ?_⟩
      intro pre c' post hsplit
      cases pre with
      | nil =>
        simp only [List.nil_append, List.cons.injEq] at hsplit
        rw [← hsplit.1]
        exact h1.2
      | cons d pre =>
        simp only [List.cons_append, List.cons.injEq] at hsplit
        rw [← hsplit.1]
        exact h2 pre c' post hsplit.2
    · rintro ⟨h1, h2⟩
      refine ⟨?_, ?_⟩
      · simp only [Bool.and_eq_true]
        exact ⟨h1, h2 [] c l rfl⟩
      · intro pre c' post hsplit
        exact h2 (c :: pre) c' post (by rw [hsplit]; rfl)

theorem foldl_record_lookup_isSome (classes : Classes) (l : List ClassPtr) (g0 : ClassPtrMap)
    (p : ClassPtr)
    (h : (g0.lookup p).isSome = true ∨
      ∃ d, d ∈ l ∧ d.addr = p.addr ∧ (find_parent classes d).isSome = true) :
    ((l.foldl (record classes) g0).lookup p).isSome = true := by
  induction l generalizing g0 with
  | nil =>
    rcases h with h | ⟨d, hd, _⟩
    · exact h
    · simp at hd
  | cons c l ih =>
    simp only [List.foldl_cons]
    apply ih
    rcases h with h | ⟨d, hd, hda, hfd⟩
    · left
      rw [lookup_record]
      by_cases hc : c.addr = p.addr
      · rw [if_pos hc]
        cases find_parent classes c with
        | none => simpa using h
        | some v => rfl
      · rw [if_neg hc]; exact h
    · rcases List.mem_cons.mp hd with hdc | hdl
      · left
        subst hdc
        rw [lookup_record, if_pos hda]
        obtain ⟨v, hv⟩ := Option.isSome_iff_exists.mp hfd
        rw [hv]; rfl
      · exact Or.inr ⟨d, hdl, hda, hfd⟩

theorem passes_iff (classes : Classes) (pre : List ClassPtr) (c : ClassPtr) :
    passes classes (pre.foldl (record classes) []) c = true ↔
      ¬ IllegalParent c ∧ ¬ AlreadyRegistered classes pre c ∧
        ¬ UnresolvedParent classes c := by
  have hdup : ((pre.foldl (record classes) []).lookup c).isSome = true ↔
      AlreadyRegistered classes pre c := by
    constructor
    · intro h
      obtain ⟨v, hv⟩ := Option.isSome_iff_exists.mp h
      rcases foldl_record_lookup_some classes pre [] c v hv with h0 | ⟨d, hd, hda, hfd⟩
      · simp [ClassPtrMap.lookup] at h0
      · exact ⟨d, hd, hda, by rw [hfd]; rfl⟩
    · intro h
      exact foldl_record_lookup_isSome classes pre [] c (Or.inr h)
  unfold passes IllegalParent UnresolvedParent
  rw [← hdup]
  cases hfp : find_parent classes c <;> cases hip : invalid_parent c.parent <;>
    cases hl : (pre.foldl (record classes) []).lookup c <;>
    by_cases hn : c.name = OBJECT <;> simp [hn]

theorem main_check_status (classes : Classes) (st : Bool × SemanticAnalyzer) :
    (main_check classes st).1 = true ↔ st.1 = true ∧ HasMain classes := by
  unfold main_check HasMain
  cases hf : classes.find? (fun p => p.name == MAIN) with
  | none =>
    simp only [Bool.false_eq_true, false_iff, not_and, not_exists]
    intro _ c hc
    have := List.find?_eq_none.mp hf c hc
    simpa using this
  | some m =>
    simp only [iff_self_and]
    intro _
    refine ⟨m, List.mem_of_find?_eq_some hf, ?_⟩
    have := List.find?_some hf
    simpa using this

theorem allCycleChecksTrue_of_loop (fuel : Nat) (g : ClassPtrMap)
    (rest : List (ClassPtr × ClassPtr)) (st : Bool × SemanticAnalyzer) (s' : SemanticAnalyzer)
    (h : cycle_loop fuel g rest st = .ok (true, s')) :
    st.1 = true ∧ AllCycleChecksTrue fuel g rest st.2 := by
  induction rest generalizing st with
  | nil =>
    simp only [cycle_loop, Except.ok.injEq] at h
    rw [h]
    exact ⟨rfl, trivial⟩
  | cons e rest ih =>
    obtain ⟨b, s1, hc, hrest⟩ := cycle_loop_cons_inv fuel g e rest st _ h
    obtain ⟨h1, h2⟩ := ih _ hrest
    simp only [Bool.and_eq_true] at h1
    obtain ⟨hst, hb⟩ := h1
    subst hb
    exact ⟨hst, s1, hc, h2⟩

theorem loop_of_allCycleChecksTrue (fuel : Nat) (g : ClassPtrMap)
    (rest : List (ClassPtr × ClassPtr)) (st : Bool × SemanticAnalyzer)
    (h : AllCycleChecksTrue fuel g rest st.2) :
    ∃ s', cycle_loop fuel g rest st = .ok (st.1, s') := by
  induction rest generalizing st with
  | nil => exact ⟨st.2, by simp [cycle_loop]⟩
  | cons e rest ih =>
    obtain ⟨s1, hc, hrest⟩ := h
    obtain ⟨s', hs'⟩ := ih (st.1 && true, s1) hrest
    refine ⟨s', ?_⟩
    rw [cycle_loop_cons_ok fuel g e rest st true s1 hc, hs']
    simp

theorem class_loop_status_iff (classes : Classes) :
    (class_loop classes SemanticAnalyzer.fresh).1 = true ↔ LoopChecksPass classes := by
  unfold class_loop LoopChecksPass
  rw [class_loop_status]
  simp only [true_and]
  constructor
  · intro h pre c post hsplit
    exact (passes_iff classes pre c).mp (h pre c post hsplit)
  · intro h pre c post hsplit
    exact (passes_iff classes pre c).mpr (h pre c post hsplit)

/-! ## Runs on relations without a missing edge -/

/-- When every recorded parent is named `Object` or `IO` or has a recorded edge,
`validate_inheritance` runs to completion: from some fuel on it returns one and
the same result. -/
theorem validate_completes_of_closed (classes : Classes) (hclosed : Closed (graph_of classes)) :
    ∃ N r, ∀ fuel, N ≤ fuel →
      validate_inheritance fuel SemanticAnalyzer.fresh classes = .ok r := by
  have hinv : WalkInv (graph_of classes)
      (main_check classes (class_loop classes SemanticAnalyzer.fresh)).2 := by
    obtain ⟨_, h2⟩ := phase1_markers classes
    constructor
    · intro a ha; rw [h2] at ha; simp at ha
    · intro c hc; rw [h2] at hc; simp at hc
  obtain ⟨N, r, hloop⟩ := cycle_loop_terminates (graph_of classes) hclosed (graph_of classes)
    _ (fun _ h => h) hinv
  exact ⟨N, r, fun fuel hfuel => by
    rw [validate_inheritance_eq]; exact cycle_loop_mono_le N fuel hfuel _ _ _ r hloop⟩

/-- A run that returns `true` has passed every per-class check and found
`Main`. -/
theorem validate_true_checks (fuel : Nat) (classes : Classes)
    (h : returned (validate_inheritance fuel SemanticAnalyzer.fresh classes) = some true) :
    LoopChecksPass classes ∧ HasMain classes := by
  obtain ⟨s', hs'⟩ := returned_eq_some _ _ h
  rw [validate_inheritance_eq] at hs'
  obtain ⟨hst, _⟩ := allCycleChecksTrue_of_loop fuel _ _ _ s' hs'
  obtain ⟨h1, h2⟩ := (main_check_status classes _).mp hst
  exact ⟨(class_loop_status_iff classes).mp h1, h2⟩

/-- A sequence with a class that declares `String`, `Bool` or `Int` as parent is
never accepted; and when no recorded parent lacks an edge, the run returns
`false`. -/
theorem primitive_parent_rejected (classes : Classes) (c : ClassPtr) (hc : c ∈ classes)
    (hprim : invalid_parent c.parent = true) :
    (∀ fuel, returned (validate_inheritance fuel SemanticAnalyzer.fresh classes) ≠ some true) ∧
      (Closed (graph_of classes) → ∃ N s', ∀ fuel, N ≤ fuel →
        validate_inheritance fuel SemanticAnalyzer.fresh classes = .ok (false, s')) := by
  have hnever : ∀ fuel,
      returned (validate_inheritance fuel SemanticAnalyzer.fresh classes) ≠ some true := by
    intro fuel h
    obtain ⟨pre, post, hsplit⟩ := List.append_of_mem hc
    exact ((validate_true_checks fuel classes h).1 pre c post hsplit).1 hprim
  refine ⟨hnever, fun hclosed => ?_⟩
  obtain ⟨N, r, hr⟩ := validate_completes_of_closed classes hclosed
  obtain ⟨b, s'⟩ := r
  cases b with
  | false => exact ⟨N, s', hr⟩
  | true => exact absurd (by rw [hr N le_rfl]; rfl) (hnever N)

/-- A sequence without a class named `Main` is never accepted; and when no
recorded parent lacks an edge, the run returns `false`. -/
theorem missing_main_rejected (classes : Classes) (hno : ¬ HasMain classes) :
    (∀ fuel, returned (validate_inheritance fuel SemanticAnalyzer.fresh classes) ≠ some true) ∧
      (Closed (graph_of classes) → ∃ N s', ∀ fuel, N ≤ fuel →
        validate_inheritance fuel SemanticAnalyzer.fresh classes = .ok (false, s')) := by
  have hnever : ∀ fuel,
      returned (validate_inheritance fuel SemanticAnalyzer.fresh classes) ≠ some true :=
    fun fuel h => hno (validate_true_checks fuel classes h).2
  refine ⟨hnever, fun hclosed => ?_⟩
  obtain ⟨N, r, hr⟩ := validate_completes_of_closed classes hclosed
  obtain ⟨b, s'⟩ := r
  cases b with
  | false => exact ⟨N, s', hr⟩
  | true => exact absurd (by rw [hr N le_rfl]; rfl) (hnever N)

/-! ## Success as a conjunction of the tests the code makes -/

/-- `validate_inheritance` returns `true` exactly when no iteration of the loop
over the classes finds one of its three tests to succeed, some class is named
`Main`, and every call of `cyclic_check` made for the classes with a recorded
edge returns `true`. -/
theorem validate_true_iff_loop_checks (classes : Classes) :
    (∃ fuel, returned (validate_inheritance fuel SemanticAnalyzer.fresh classes) = some true) ↔
      LoopChecksPass classes ∧ HasMain classes ∧
        ∃ fuel, AllCycleChecksTrue fuel (graph_of classes) (graph_of classes)
          (state_before_cycle_checks classes) := by
  constructor
  · rintro ⟨fuel, h⟩
    obtain ⟨s', hs'⟩ := returned_eq_some _ _ h
    rw [validate_inheritance_eq] at hs'
    obtain ⟨hst, hall⟩ := allCycleChecksTrue_of_loop fuel _ _ _ s' hs'
    obtain ⟨h1, h2⟩ := (main_check_status classes _).mp hst
    exact ⟨(class_loop_status_iff classes).mp h1, h2, fuel, hall⟩
  · rintro ⟨h1, h2, fuel, hall⟩
    have hst : (main_check classes (class_loop classes SemanticAnalyzer.fresh)).1 = true :=
      (main_check_status classes _).mpr ⟨(class_loop_status_iff classes).mpr h1, h2⟩
    obtain ⟨s', hs'⟩ := loop_of_allCycleChecksTrue fuel (graph_of classes) (graph_of classes)
      (main_check classes (class_loop classes SemanticAnalyzer.fresh)) hall
    refine ⟨fuel, ?_⟩
    rw [validate_inheritance_eq, hs', hst]
    rfl

theorem illegalParent_iff (c : ClassPtr) : IllegalParent c ↔ DeclaresPrimitiveParent c := by
  unfold IllegalParent DeclaresPrimitiveParent invalid_parent
  simp [Bool.or_eq_true, or_assoc]

theorem unresolvedParent_iff (classes : Classes) (c : ClassPtr) :
    UnresolvedParent classes c ↔ ParentNotDeclared classes c := by
  unfold UnresolvedParent ParentNotDeclared
  constructor
  · rintro ⟨h1, h2⟩
    exact ⟨fun d hd hn => find_parent_none classes c h1 d hd hn.symm, h2⟩
  · rintro ⟨h1, h2⟩
    refine ⟨?_, h2⟩
    cases hfp : find_parent classes c with
    | none => rfl
    | some p =>
      obtain ⟨hp, hn⟩ := find_parent_some classes c p hfp
      exact absurd hn.symm (h1 p hp)

/-- With one object per address, a class that the code finds registered has the
name of a class before it. -/
theorem duplicateDefinition_of_alreadyRegistered (classes : Classes) (hso : SameObject classes)
    (pre : List ClassPtr) (c : ClassPtr) (post : List ClassPtr)
    (hsplit : classes = pre ++ c :: post) (h : AlreadyRegistered classes pre c) :
    DuplicateDefinition pre c := by
  obtain ⟨d, hd, hda, _⟩ := h
  have hdc : d = c := hso d c (by rw [hsplit]; simp [hd]) (by rw [hsplit]; simp) hda
  exact ⟨d, hd, by rw [hdc]⟩

/-- The direction of the conjunction that the code does satisfy: with one
object per address, when no class fails a per-class check in the words of the
spec, some class is named `Main` and every cycle check returns `true`, then
`validate_inheritance` returns `true`. -/
theorem validate_true_of_spec_checks (classes : Classes) (hso : SameObject classes)
    (hchecks : PerClassChecksPass classes) (hmain : HasMain classes)
    (hcyc : ∃ fuel, AllCycleChecksTrue fuel (graph_of classes) (graph_of classes)
      (state_before_cycle_checks classes)) :
    ∃ fuel, returned (validate_inheritance fuel SemanticAnalyzer.fresh classes) = some true := by
  apply (validate_true_iff_loop_checks classes).mpr
  refine ⟨?_, hmain, hcyc⟩
  intro pre c post hsplit
  obtain ⟨h1, h2, h3⟩ := hchecks pre c post hsplit
  exact ⟨fun h => h1 ((illegalParent_iff c).mp h),
    fun h => h2 (duplicateDefinition_of_alreadyRegistered classes hso pre c post hsplit h),
    fun h => h3 ((unresolvedParent_iff classes c).mp h)⟩

/-- What a run that returns `true` has established, in the words of the spec:
no class has an illegal primitive parent or an unresolved parent, and some
class is named `Main`.  Nothing is established about repeated names. -/
theorem validate_true_spec_checks (fuel : Nat) (classes : Classes)
    (h : returned (validate_inheritance fuel SemanticAnalyzer.fresh classes) = some true) :
    (∀ c, c ∈ classes → ¬ DeclaresPrimitiveParent c ∧ ¬ ParentNotDeclared classes c) ∧
      HasMain classes := by
  obtain ⟨h1, h2⟩ := validate_true_checks fuel classes h
  refine ⟨fun c hc => ?_, h2⟩
  obtain ⟨pre, post, hsplit⟩ := List.append_of_mem hc
  obtain ⟨a, _, b⟩ := h1 pre c post hsplit
  exact ⟨fun h => a ((illegalParent_iff c).mpr h),
    fun h => b ((unresolvedParent_iff classes c).mpr h)⟩

/-! ## C7 -/

/-- C7 (code evaluated at a failing input): in `twoAProgram` the second class
named `A` is a duplicate definition, so not every per-class check passes; yet
`validate_inheritance` returns `true` and writes nothing. -/
theorem C7_duplicate_name_returns_true :
    DuplicateDefinition [mkClass 1 "A" "Object"] (mkClass 2 "A" "Object") ∧
      ¬ PerClassChecksPass twoAProgram ∧
      (twoAProgram.map fun c => (c.addr, c.name)) =
        [(1, "A"), (2, "A"), (3, "Main"), (4, "Object")] ∧
      returned (validate_inheritance 10 SemanticAnalyzer.fresh twoAProgram) = some true ∧
      output (validate_inheritance 10 SemanticAnalyzer.fresh twoAProgram) = some [] := by
  have hdup : DuplicateDefinition [mkClass 1 "A" "Object"] (mkClass 2 "A" "Object") :=
    ⟨mkClass 1 "A" "Object", by simp, rfl⟩
  refine ⟨hdup, ?_, by decide, by decide, by decide⟩
  intro h
  exact (h [mkClass 1 "A" "Object"] (mkClass 2 "A" "Object")
    [mkClass 3 "Main" "Object", mkClass 4 "Object" NOCLASS] rfl).2.1 hdup

/-! ## C9 -/

theorem output_eq_some (r : Except Fault (Bool × SemanticAnalyzer)) (out : List String)
    (h : output r = some out) : ∃ b s', r = .ok (b, s') ∧ s'.cerr = out := by
  cases r with
  | error e => simp [output] at h
  | ok p =>
    obtain ⟨b, s'⟩ := p
    simp only [output, Option.some.injEq] at h
    exact ⟨b, s', rfl, h⟩

theorem class_step_status_output (classes : Classes) (st : Bool × SemanticAnalyzer)
    (c : ClassPtr) (h : st.1 = false ↔ st.2.cerr ≠ []) :
    (class_step classes st c).1 = false ↔ (class_step classes st c).2.cerr ≠ [] := by
  unfold class_step check_parent check_duplicate check_invalid_parent
  cases hfp : find_parent classes c <;> simp only [SemanticAnalyzer.emit] <;>
    split_ifs <;> simp [h]

theorem class_loop_status_output (classes : Classes) (l : List ClassPtr)
    (st : Bool × SemanticAnalyzer) (h : st.1 = false ↔ st.2.cerr ≠ []) :
    (l.foldl (class_step classes) st).1 = false ↔
      (l.foldl (class_step classes) st).2.cerr ≠ [] := by
  induction l generalizing st with
  | nil => exact h
  | cons c l ih => exact ih _ (class_step_status_output classes st c h)

theorem main_check_status_output (classes : Classes) (st : Bool × SemanticAnalyzer)
    (h : st.1 = false ↔ st.2.cerr ≠ []) :
    (main_check classes st).1 = false ↔ (main_check classes st).2.cerr ≠ [] := by
  unfold main_check
  cases classes.find? (fun p => p.name == MAIN) <;> simp [SemanticAnalyzer.emit, h]

/-- C9: on every class sequence on which `validate_inheritance` completes, it
returns `false` exactly when it has written at least one diagnostic line. -/
theorem C9_false_iff_diagnostic (fuel : Nat) (classes : Classes) (b : Bool)
    (out : List String)
    (hb : returned (validate_inheritance fuel SemanticAnalyzer.fresh classes) = some b)
    (ho : output (validate_inheritance fuel SemanticAnalyzer.fresh classes) = some out) :
    b = false ↔ out ≠ [] := by
  obtain ⟨s', hs'⟩ := returned_eq_some _ _ hb
  rw [hs'] at ho
  simp only [output, Option.some.injEq] at ho
  subst ho
  rw [validate_inheritance_eq] at hs'
  have hJ : (main_check classes (class_loop classes SemanticAnalyzer.fresh)).1 = false ↔
      (main_check classes (class_loop classes SemanticAnalyzer.fresh)).2.cerr ≠ [] :=
    main_check_status_output classes _
      (class_loop_status_output classes classes (true, SemanticAnalyzer.fresh)
        (by simp [SemanticAnalyzer.fresh]))
  obtain ⟨_, htrue, extra, hcerr, _, hne, hfalse⟩ := cycle_loop_post fuel _ _ _ _ hs'
  simp only at htrue hcerr hne hfalse
  constructor
  · intro hbf
    rw [hcerr]
    rcases hfalse hbf with h | h
    · have := hJ.mp h
      simp [this]
    · simp [h]
  · intro hout
    cases b with
    | false => rfl
    | true =>
      obtain ⟨h1, h2, _⟩ := htrue rfl
      rw [h2] at hout
      have := hJ.mpr hout
      rw [h1] at this
      cases this

/-- C9, at `belowInt`: the run returns `false` and has written two lines. -/
theorem C9_witness :
    returned (validate_inheritance 10 SemanticAnalyzer.fresh belowInt) = some false ∧
      output (validate_inheritance 10 SemanticAnalyzer.fresh belowInt) =
        some [illegalParentMsg, mainMsg] ∧
      (false = false ↔ [illegalParentMsg, mainMsg] ≠ []) :=
  ⟨by decide, by decide,
    C9_false_iff_diagnostic 10 belowInt false [illegalParentMsg, mainMsg] (by decide)
      (by decide)⟩

/-! ## C10 -/

theorem beginsWith_error_append (rest : String) : beginsWith "error:" ("error:" ++ rest) :=
  ⟨rest.data, by simp [String.data_append]⟩

theorem multipleDefMsg_shape (name : Symbol) :
    beginsWith "error:" (multipleDefMsg name) ∧ mentions name (multipleDefMsg name) := by
  constructor
  · exact ⟨"Class ".data ++ name.data ++ " has multiple definitions.\n".data, by
      simp [multipleDefMsg, String.data_append]⟩
  · exact ⟨"error:Class ".data, " has multiple definitions.\n".data, by
      simp [multipleDefMsg, String.data_append]⟩

theorem unresolvedMsg_shape (name : Symbol) :
    beginsWith "error:" (unresolvedMsg name) ∧ mentions name (unresolvedMsg name) := by
  constructor
  · exact ⟨name.data ++ " inherits from a class that doesn't exist.\n".data, by
      simp [unresolvedMsg, String.data_append]⟩
  · exact ⟨"error:".data, " inherits from a class that doesn't exist.\n".data, by
      simp [unresolvedMsg, String.data_append]⟩

theorem class_step_cerr (classes : Classes) (st : Bool × SemanticAnalyzer) (c : ClassPtr) :
    (class_step classes st c).2.cerr =
      st.2.cerr ++ step_lines classes st.2.inherit_graph c := by
  unfold class_step check_parent check_duplicate check_invalid_parent step_lines
  cases find_parent classes c <;> simp only [SemanticAnalyzer.emit] <;>
    split_ifs <;> simp_all

theorem step_lines_structural (classes : Classes) (g : ClassPtrMap) (c : ClassPtr)
    (line : String) (h : line ∈ step_lines classes g c) : StructuralLine classes g c line := by
  unfold step_lines at h
  simp only [List.mem_append] at h
  rcases h with h | h | h
  · by_cases hip : invalid_parent c.parent = true
    · rw [if_pos hip, List.mem_singleton] at h
      rw [h]
      exact ⟨by decide, Or.inl ⟨rfl, hip⟩⟩
    · rw [if_neg hip] at h; simp at h
  · by_cases hreg : g.count c > 0
    · rw [if_pos hreg, List.mem_singleton] at h
      by_cases hb : is_basic_class c.name = true
      · rw [if_pos hb] at h
        rw [h]
        exact ⟨by decide, Or.inr (Or.inl ⟨rfl, hreg, hb⟩)⟩
      · rw [if_neg hb] at h
        rw [h]
        exact ⟨(multipleDefMsg_shape c.name).1,
          Or.inr (Or.inr (Or.inl ⟨rfl, (multipleDefMsg_shape c.name).2, hreg, by simpa using hb⟩))⟩
    · rw [if_neg hreg] at h; simp at h
  · cases hfp : find_parent classes c with
    | some p => rw [hfp] at h; simp at h
    | none =>
      rw [hfp] at h
      by_cases hn : c.name ≠ OBJECT
      · rw [if_pos hn, List.mem_singleton] at h
        rw [h]
        exact ⟨(unresolvedMsg_shape c.name).1,
          Or.inr (Or.inr (Or.inr ⟨rfl, (unresolvedMsg_shape c.name).2, hfp, hn⟩))⟩
      · simp [hn] at h

theorem step_lines_complete (classes : Classes) (g : ClassPtrMap) (c : ClassPtr) :
    (IllegalParent c → illegalParentMsg ∈ step_lines classes g c) ∧
      (g.count c > 0 →
        (if is_basic_class c.name = true then basicRedefMsg else multipleDefMsg c.name) ∈
          step_lines classes g c) ∧
      (UnresolvedParent classes c → unresolvedMsg c.name ∈ step_lines classes g c) := by
  unfold step_lines
  refine ⟨fun h => ?_, fun h => ?_, fun h => ?_⟩
  · unfold IllegalParent at h
    simp [h]
  · simp [h]
  · obtain ⟨h1, h2⟩ := h
    simp [h1, h2]

theorem class_loop_cerr (classes : Classes) (l : List ClassPtr) (st : Bool × SemanticAnalyzer) :
    (l.foldl (class_step classes) st).2.cerr =
      st.2.cerr ++ loop_lines classes st.2.inherit_graph l := by
  induction l generalizing st with
  | nil => simp [loop_lines]
  | cons c l ih =>
    simp only [List.foldl_cons, loop_lines]
    rw [ih, class_step_cerr, (class_step_graph classes st c).1, List.append_assoc]

theorem mem_loop_lines (classes : Classes) (l : List ClassPtr) (g : ClassPtrMap)
    (line : String) (h : line ∈ loop_lines classes g l) :
    ∃ pre c post, l = pre ++ c :: post ∧
      line ∈ step_lines classes (pre.foldl (record classes) g) c := by
  induction l generalizing g with
  | nil => simp [loop_lines] at h
  | cons c l ih =>
    simp only [loop_lines, List.mem_append] at h
    rcases h with h | h
    · exact ⟨[], c, l, rfl, h⟩
    · obtain ⟨pre, d, post, hsplit, hd⟩ := ih _ h
      exact ⟨c :: pre, d, post, by rw [hsplit]; rfl, hd⟩

theorem main_check_cerr (classes : Classes) (st : Bool × SemanticAnalyzer) :
    ∃ lines, (main_check classes st).2.cerr = st.2.cerr ++ lines ∧
      (∀ line, line ∈ lines → line = mainMsg ∧ beginsWith "error:" line ∧ ¬ HasMain classes) ∧
      (¬ HasMain classes → mainMsg ∈ lines) := by
  unfold main_check
  cases hf : classes.find? (fun p => p.name == MAIN) with
  | none =>
    have hno : ¬ HasMain classes := by
      rintro ⟨c, hc, hn⟩
      have := List.find?_eq_none.mp hf c hc
      simp [hn] at this
    refine ⟨[mainMsg], rfl, ?_, fun _ => by simp⟩
    intro line hl
    rw [List.mem_singleton] at hl
    rw [hl]
    exact ⟨rfl, by decide, hno⟩
  | some m =>
    have hyes : HasMain classes := by
      refine ⟨m, List.mem_of_find?_eq_some hf, ?_⟩
      have := List.find?_some hf
      simpa using this
    exact ⟨[], by simp, by simp, fun h => absurd hyes h⟩

/-- The output of a completed run is what the two loops of
`validate_inheritance` wrote, followed by lines of `cyclic_check`. -/
theorem completed_run_output (fuel : Nat) (classes : Classes) (out : List String)
    (ho : output (validate_inheritance fuel SemanticAnalyzer.fresh classes) = some out) :
    ∃ extra, out = (state_before_cycle_checks classes).cerr ++ extra ∧
      ∀ line, line ∈ extra → CyclicLine line := by
  obtain ⟨b, s', hs', hout⟩ := output_eq_some _ _ ho
  subst hout
  rw [validate_inheritance_eq] at hs'
  obtain ⟨_, _, extra, hcerr, hlines, _⟩ := cycle_loop_post fuel _ _ _ _ hs'
  refine ⟨extra, hcerr, fun line hl => ?_⟩
  obtain ⟨_, _, x, _, _, hx⟩ := hlines line hl
  exact ⟨x.name, hx⟩

theorem install_basic_classes (a : BasicAddrs) (p : Program) (t : Tables) :
    (install_basic a p t).1.classes = p.classes ++ basic_classes a := by
  simp [install_basic, basic_classes, List.concat_eq_append]

/-- C11 (as stated, refuted): after `install_basic` on the program with the
single class `Main`, the class sequence is `Main` followed by the five
built-ins, not the five built-ins followed by `Main`. -/
theorem C11_counterexample :
    ((install_basic exampleAddrs mainOnlyProgram ⟨[], []⟩).1.classes.map fun c => c.name) =
        ["Main", "Object", "IO", "Int", "Bool", "String"] ∧
      ((install_basic exampleAddrs mainOnlyProgram ⟨[], []⟩).1.classes.map fun c => c.name) ≠
        ((basic_classes exampleAddrs ++ mainOnlyProgram.classes).map fun c => c.name) :=
  ⟨by decide, by decide⟩

/-- C11 (amended): for every program, after `install_basic` the class sequence
consists of the program's original classes, unchanged and in their original
order, followed by the five synthesized built-ins `Object`, `IO`, `Int`,
`Bool`, `String`. -/
theorem C11_install_basic_appends (a : BasicAddrs) (p : Program) (t : Tables) :
    ∃ o io i b s, (install_basic a p t).1.classes = p.classes ++ [o, io, i, b, s] ∧
      o.name = OBJECT ∧ io.name = IO_CLASS ∧ i.name = INTEGER ∧ b.name = BOOLEAN ∧
      s.name = STRING ∧
      o.addr = a.object ∧ io.addr = a.io ∧ i.addr = a.integer ∧ b.addr = a.boolean ∧
      s.addr = a.string :=
  ⟨_, _, _, _, _, install_basic_classes a p t, rfl, rfl, rfl, rfl, rfl, rfl, rfl, rfl, rfl, rfl⟩

/-! ## C12 -/

/-- C12: the five classes that `install_basic` adds have the stated shape:
`Object` has the sentinel parent and the methods `abort`, `type_name`, `copy`;
the other four have parent `Object`; `IO` has `out_string` and `out_int` (one
`String` resp. `Int` formal, returning `SELF_TYPE`) and `in_string`, `in_int`
(no formals, returning `String` resp. `Int`); `Int` and `Bool` have one
attribute and no method; `String` has two attributes and the methods `length`,
`concat`, `substr`; every body and initialiser is `NoExpr`. -/
theorem C12_basic_class_shapes (a : BasicAddrs) (p : Program) (t : Tables) :
    ∃ o io i b s, (install_basic a p t).1.classes = p.classes ++ [o, io, i, b, s] ∧
      (o.name = OBJECT ∧ o.parent = NOCLASS ∧
        method_names o.obj.features = [ABORT, TYPE_NAME, COPY] ∧
        attribute_names o.obj.features = []) ∧
      (io.name = IO_CLASS ∧ io.parent = OBJECT ∧
        method_names io.obj.features = [OUT_STRING, OUT_INT, IN_STRING, IN_INT] ∧
        attribute_names io.obj.features = [] ∧
        method_signature io.obj.features OUT_STRING = some ([STRING], SELF_TYPE) ∧
        method_signature io.obj.features OUT_INT = some ([INTEGER], SELF_TYPE) ∧
        method_signature io.obj.features IN_STRING = some ([], STRING) ∧
        method_signature io.obj.features IN_INT = some ([], INTEGER)) ∧
      (i.name = INTEGER ∧ i.parent = OBJECT ∧ method_names i.obj.features = [] ∧
        (attribute_names i.obj.features).length = 1) ∧
      (b.name = BOOLEAN ∧ b.parent = OBJECT ∧ method_names b.obj.features = [] ∧
        (attribute_names b.obj.features).length = 1) ∧
      (s.name = STRING ∧ s.parent = OBJECT ∧
        method_names s.obj.features = [LENGTH, CONCAT, SUBSTR] ∧
        (attribute_names s.obj.features).length = 2) ∧
      ∀ c, c ∈ [o, io, i, b, s] → ∀ f, f ∈ c.obj.features → is_no_expr f.expr = true := by
  have s1 : method_signature io_features OUT_STRING = some ([STRING], SELF_TYPE) := by decide
  have s2 : method_signature io_features OUT_INT = some ([INTEGER], SELF_TYPE) := by decide
  have s3 : method_signature io_features IN_STRING = some ([], STRING) := by decide
  have s4 : method_signature io_features IN_INT = some ([], INTEGER) := by decide
  have n1 : ∀ f, f ∈ object_features → is_no_expr f.expr = true := by decide
  have n2 : ∀ f, f ∈ io_features → is_no_expr f.expr = true := by decide
  have n3 : ∀ f, f ∈ int_features → is_no_expr f.expr = true := by decide
  have n4 : ∀ f, f ∈ bool_features → is_no_expr f.expr = true := by decide
  have n5 : ∀ f, f ∈ string_features → is_no_expr f.expr = true := by decide
  refine ⟨_, _, _, _, _, install_basic_classes a p t, ⟨rfl, rfl, rfl, rfl⟩,
    ⟨rfl, rfl, rfl, rfl, s1, s2, s3, s4⟩, ⟨rfl, rfl, rfl, rfl⟩,
    ⟨rfl, rfl, rfl, rfl⟩, ⟨rfl, rfl, rfl, rfl⟩, ?_⟩
  intro c hc f hf
  simp only [List.mem_cons, List.mem_singleton, List.not_mem_nil, or_false] at hc
  rcases hc with h | h | h | h | h <;> subst h
  · exact n1 f hf
  · exact n2 f hf
  · exact n3 f hf
  · exact n4 f hf
  · exact n5 f hf

/-! ## C13 -/

theorem basicRedefMsg_ne_multipleDefMsg (name : Symbol) : basicRedefMsg ≠ multipleDefMsg name := by
  intro h
  have h1 : basicRedefMsg.data = (multipleDefMsg name).data := by rw [h]
  have h2 : (multipleDefMsg name).data =
      "error:".data ++ ('C' :: ("lass ".data ++ name.data ++
        " has multiple definitions.\n".data)) := by
    simp [multipleDefMsg, String.data_append]
  have h3 : basicRedefMsg.data = "error:".data ++ ('R' ::
      "edefinition of any basic class - IO, String, Bool, Int not allowed.\n".data) := by
    decide
  rw [h2, h3] at h1
  have h4 := List.append_cancel_left h1
  simp at h4

theorem class_step_duplicate_line (classes : Classes) (c : ClassPtr)
    (st : Bool × SemanticAnalyzer) (hdup : st.2.inherit_graph.count c > 0) :
    (if is_basic_class c.name = true then basicRedefMsg else multipleDefMsg c.name) ∈
      (class_step classes st c).2.cerr := by
  unfold class_step check_parent check_duplicate check_invalid_parent
  cases find_parent classes c <;> simp only [SemanticAnalyzer.emit] <;>
    split_ifs <;> simp_all

/-- C13: when the duplicate-definition check fires, the line written for a
class with a built-in name is the fixed redefinition text and the line written
for any other class is the multiple-definitions text naming the class; the two
texts differ for every class name. -/
theorem C13_duplicate_messages_differ (c : ClassPtr) (st : Bool × SemanticAnalyzer)
    (hdup : st.2.inherit_graph.count c > 0) :
    (check_duplicate c st).1 = false ∧
      (is_basic_class c.name = true →
        (check_duplicate c st).2.cerr = st.2.cerr ++ [basicRedefMsg]) ∧
      (is_basic_class c.name = false →
        (check_duplicate c st).2.cerr = st.2.cerr ++ [multipleDefMsg c.name]) ∧
      (∀ classes : Classes,
        (if is_basic_class c.name = true then basicRedefMsg else multipleDefMsg c.name) ∈
          (class_step classes st c).2.cerr) ∧
      ∀ name : Symbol, basicRedefMsg ≠ multipleDefMsg name := by
  refine ⟨?_, ?_, ?_, fun classes => class_step_duplicate_line classes c st hdup,
    basicRedefMsg_ne_multipleDefMsg⟩
  · simp [check_duplicate, hdup]
  · intro hb
    simp [check_duplicate, hdup, hb, SemanticAnalyzer.emit]
  · intro hb
    simp [check_duplicate, hdup, hb, SemanticAnalyzer.emit]

/-- C13, at a state in which class `A` is registered: the check writes the
multiple-definitions line for `A`. -/
theorem C13_witness :
    registeredA.inherit_graph.count (mkClass 7 "A" "Object") > 0 ∧
      (check_duplicate (mkClass 7 "A" "Object") (true, registeredA)).2.cerr =
        [multipleDefMsg "A"] ∧
      (check_duplicate (mkClass 7 "A" "Object") (true, registeredA)).1 = false ∧
      (is_basic_class (mkClass 7 "A" "Object").name = true →
        (check_duplicate (mkClass 7 "A" "Object") (true, registeredA)).2.cerr =
          registeredA.cerr ++ [basicRedefMsg]) ∧
      (is_basic_class (mkClass 7 "A" "Object").name = false →
        (check_duplicate (mkClass 7 "A" "Object") (true, registeredA)).2.cerr =
          registeredA.cerr ++ [multipleDefMsg (mkClass 7 "A" "Object").name]) ∧
      (∀ classes : Classes,
        (if is_basic_class (mkClass 7 "A" "Object").name = true then basicRedefMsg
          else multipleDefMsg (mkClass 7 "A" "Object").name) ∈
          (class_step classes (true, registeredA) (mkClass 7 "A" "Object")).2.cerr) ∧
      ∀ name : Symbol, basicRedefMsg ≠ multipleDefMsg name :=
  ⟨by decide, by decide, C13_duplicate_messages_differ (mkClass 7 "A" "Object")
    (true, registeredA) (by decide)⟩

/-! ## C14 -/

/-- C14 (code evaluated): whatever the type-checking traversal writes for a
program, `type_check` passes it on to `std::cerr` and returns `true`; so it
returns `true` on every program for which the traversal writes a diagnostic. -/
theorem C14_type_check_returns_true :
    (∀ (typechecker : ClassPtrMap → Program → List String) (s : SemanticAnalyzer)
        (root : Program),
        (type_check typechecker s root).1 = true ∧
          (type_check typechecker s root).2.cerr =
            s.cerr ++ typechecker s.inherit_graph root) ∧
      (type_check oneDiagnostic SemanticAnalyzer.fresh mainOnlyProgram).1 = true ∧
      (type_check oneDiagnostic SemanticAnalyzer.fresh mainOnlyProgram).2.cerr ≠ [] :=
  ⟨fun _ _ _ => ⟨rfl, rfl⟩, rfl, by decide⟩

/-! ## C15 -/

theorem relation_eq_some (r : Except Fault (Bool × SemanticAnalyzer)) (g : ClassPtrMap)
    (h : relation r = some g) : ∃ b s', r = .ok (b, s') ∧ s'.inherit_graph = g := by
  cases r with
  | error e => simp [relation] at h
  | ok p =>
    obtain ⟨b, s'⟩ := p
    simp only [relation, get_inherit_graph, Option.some.injEq] at h
    exact ⟨b, s', rfl, h⟩

/-- C15 (as stated, refuted): on `fooBelowInt` class `Foo` is reported for its
primitive parent `Int`, the run completes, and the relation holds the edge
from `Foo` to `Int`. -/
theorem C15_counterexample :
    invalid_parent (mkClass 1 "Foo" "Int").parent = true ∧
      output (validate_inheritance 10 SemanticAnalyzer.fresh fooBelowInt) =
        some [illegalParentMsg] ∧
      (relation (validate_inheritance 10 SemanticAnalyzer.fresh fooBelowInt)).map
          (fun g => (g.lookup (mkClass 1 "Foo" "Int")).map fun p => p.name) =
        some (some "Int") :=
  ⟨by decide, by decide, by decide⟩

/-- C15 (amended): after a completed run the relation holds, for a class of the
sequence, exactly the edge to the class its parent name resolves to, whatever
the illegal-parent and duplicate checks reported; so a class reported for an
unresolved parent has no edge. -/
theorem C15_edges_follow_resolution (fuel : Nat) (classes : Classes)
    (hso : SameObject classes) (g : ClassPtrMap)
    (hg : relation (validate_inheritance fuel SemanticAnalyzer.fresh classes) = some g)
    (c : ClassPtr) (hc : c ∈ classes) :
    g.lookup c = find_parent classes c ∧
      (UnresolvedParent classes c → g.lookup c = none ∧ ∀ v, (c, v) ∉ g) := by
  obtain ⟨b, s', hs', hgs⟩ := relation_eq_some _ _ hg
  have hgraph : g = graph_of classes := by
    rw [← hgs]; exact validate_inheritance_graph fuel classes b s' hs'
  have hl : g.lookup c = find_parent classes c := by
    rw [hgraph]; exact graph_of_lookup classes hso c hc
  refine ⟨hl, fun hun => ?_⟩
  have hnone : g.lookup c = none := by rw [hl]; exact hun.1
  refine ⟨hnone, fun v hv => ?_⟩
  have := lookup_isSome_of_mem g c v hv
  rw [hnone] at this
  cases this

/-- C15 (amended), at `unresolvedLeafProgram`: `Y` has an unresolved parent and
no edge. -/
theorem C15_witness :
    relation (validate_inheritance 10 SemanticAnalyzer.fresh unresolvedLeafProgram) =
        some [(mkClass 2 "Main" "Object", mkClass 3 "Object" NOCLASS)] ∧
      UnresolvedParent unresolvedLeafProgram (mkClass 1 "Y" "Zzz") ∧
      ClassPtrMap.lookup [(mkClass 2 "Main" "Object", mkClass 3 "Object" NOCLASS)]
          (mkClass 1 "Y" "Zzz") = find_parent unresolvedLeafProgram (mkClass 1 "Y" "Zzz") ∧
      (UnresolvedParent unresolvedLeafProgram (mkClass 1 "Y" "Zzz") →
        ClassPtrMap.lookup [(mkClass 2 "Main" "Object", mkClass 3 "Object" NOCLASS)]
            (mkClass 1 "Y" "Zzz") = none ∧
          ∀ v, (mkClass 1 "Y" "Zzz", v) ∉
            [(mkClass 2 "Main" "Object", mkClass 3 "Object" NOCLASS)]) :=
  ⟨rfl, ⟨rfl, by decide⟩,
    C15_edges_follow_resolution 10 unresolvedLeafProgram
      (sameObject_of_nodup unresolvedLeafProgram (by decide)) _ rfl (mkClass 1 "Y" "Zzz")
      (by simp [unresolvedLeafProgram])⟩

/-! ## C16 -/

/-- A completed call re-establishes the walk invariant, and after a call that
returned `true` the start is a root name or marked processed. -/
theorem walkInv_preserved (fuel : Nat) (g : ClassPtrMap) (n : ClassPtr) (s : SemanticAnalyzer)
    (b : Bool) (s' : SemanticAnalyzer) (h : cyclic_check fuel g n s = .ok (b, s'))
    (hinv : WalkInv g s) :
    WalkInv g s' ∧ (b = true → isRootName n ∨ n.addr ∈ s'.processed) := by
  induction fuel generalizing n s b s' with
  | zero => simp [cyclic_check] at h
  | succ fuel ih =>
    rcases cyclic_check_cases fuel g n s b s' h with ⟨hr, _, hs⟩ | ⟨_, _, _, hb, hs⟩ |
      ⟨hr, _, p, s2, hl, hrec, hs⟩
    · rw [hs]; exact ⟨hinv, fun _ => Or.inl hr⟩
    · rw [hs, hb]; exact ⟨hinv, by simp⟩
    · have hinv1 : WalkInv g (markVisited s n) :=
        ⟨fun a ha => (set_insert_mem s.visited n a).mpr (Or.inr (hinv.1 a ha)), hinv.2⟩
      obtain ⟨hinv2, hb⟩ := ih p (markVisited s n) b s2 hrec hinv1
      cases b with
      | false =>
        simp only [Bool.false_eq_true, if_false] at hs
        rw [hs]; exact ⟨hinv2, by simp⟩
      | true =>
        simp only [if_true] at hs
        rw [hs]
        have hnv2 : n.addr ∈ s2.visited :=
          (cyclic_check_frame fuel g p _ true s2 hrec).2.1 _
            ((set_insert_mem s.visited n n.addr).mpr (Or.inl rfl))
        have hsubP : ∀ a, a ∈ s2.processed → a ∈ (markProcessed s2 n).processed :=
          fun a ha => (set_insert_mem s2.processed n a).mpr (Or.inr ha)
        refine ⟨⟨?_, ?_⟩, fun _ => Or.inr ((set_insert_mem s2.processed n n.addr).mpr (Or.inl rfl))⟩
        · intro a ha
          rcases (set_insert_mem s2.processed n a).mp ha with heq | hmem
          · rw [heq]; exact hnv2
          · exact hinv2.1 a hmem
        · intro c hc
          rcases (set_insert_mem s2.processed n c.addr).mp hc with heq | hmem
          · have hlc : g.lookup c = some p := by rw [lookup_addr g c n heq]; exact hl
            rcases hb rfl with hvr | hvp
            · exact Settled.root c p hlc hvr
            · exact Settled.step c p hlc (hsubP _ hvp)
                (settled_mono g _ _ hsubP p (hinv2.2 p hvp))
          · exact settled_mono g _ _ hsubP c (hinv2.2 c hmem)

theorem reachable_walkInv (g : ClassPtrMap) (s : SemanticAnalyzer)
    (h : ReachableByWalks g s) : WalkInv g s := by
  induction h with
  | start s hv hp =>
    constructor
    · intro a ha; rw [hp] at ha; simp at ha
    · intro c hc; rw [hp] at hc; simp at hc
  | walk s fuel n b s' _ hc ih => exact (walkInv_preserved fuel g n s b s' hc ih).1

/-- C16: on a relation in which every recorded parent is named `Object` or `IO`
or has a recorded edge, in every state of the marker sets that earlier walks
can have left, a call of `cyclic_check` on a class that is named `Object` or
`IO` or has a recorded edge returns once the fuel suffices, with one and the
same result for all larger fuel. -/
theorem C16_cyclic_check_terminates (g : ClassPtrMap) (hclosed : Closed g)
    (s : SemanticAnalyzer) (hs : ReachableByWalks g s) (n : ClassPtr)
    (hn : isRootName n ∨ (g.lookup n).isSome = true) :
    ∃ N b s', ∀ fuel, N ≤ fuel → cyclic_check fuel g n s = .ok (b, s') := by
  obtain ⟨N, b, s', hc, _⟩ :=
    cyclic_check_terminates g hclosed (unvisited g s) s n (reachable_walkInv g s hs) le_rfl hn
  exact ⟨N, b, s', fun fuel hfuel => cyclic_check_mono_le N fuel hfuel g n s _ hc⟩

/-- C16, on the relation of `threeCycle`, which contains a cycle: the walk from
`A` returns. -/
theorem C16_witness :
    Closed (graph_of threeCycle) ∧
      ∃ N b s', ∀ fuel, N ≤ fuel →
        cyclic_check fuel (graph_of threeCycle) (mkClass 2 "A" "B") SemanticAnalyzer.fresh =
          .ok (b, s') :=
  ⟨by decide, C16_cyclic_check_terminates (graph_of threeCycle) (by decide)
    SemanticAnalyzer.fresh (ReachableByWalks.start _ rfl rfl) (mkClass 2 "A" "B") (by decide)⟩

/-! ## C17 -/

/-- C17: in every state that earlier walks can have left, a call of
`cyclic_check` on a class marked processed returns `true` and leaves the whole
analyser state as it was: nothing is written, and the visited and processed
sets are unchanged. -/
theorem C17_processed_walk_idempotent (g : ClassPtrMap) (s : SemanticAnalyzer)
    (hs : ReachableByWalks g s) (c : ClassPtr) (hc : c.addr ∈ s.processed) :
    ∃ N, ∀ fuel, N ≤ fuel → cyclic_check fuel g c s = .ok (true, s) := by
  have hinv := reachable_walkInv g s hs
  obtain ⟨N, hN⟩ := cyclic_check_settled g s hinv.1 c hc (hinv.2 c hc)
  exact ⟨N, fun fuel hfuel => cyclic_check_mono_le N fuel hfuel g c s _ hN⟩

/-- C17, on `smallProgram` after the walk from `Main`: walking `Main` again
returns `true` and changes nothing. -/
theorem C17_witness :
    cyclic_check 5 (graph_of smallProgram) (mkClass 2 "Main" "Object") SemanticAnalyzer.fresh =
        .ok (true, afterMainWalk) ∧
      ∃ N, ∀ fuel, N ≤ fuel →
        cyclic_check fuel (graph_of smallProgram) (mkClass 2 "Main" "Object") afterMainWalk =
          .ok (true, afterMainWalk) :=
  ⟨rfl, C17_processed_walk_idempotent (graph_of smallProgram) afterMainWalk
    (ReachableByWalks.walk SemanticAnalyzer.fresh 5 (mkClass 2 "Main" "Object") true
      afterMainWalk (ReachableByWalks.start _ rfl rfl) rfl)
    (mkClass 2 "Main" "Object") (by decide)⟩

/-! ## C18 -/

theorem cycle_loop_from_empty (g : ClassPtrMap) (hclosed : Closed g) (s0 : SemanticAnalyzer)
    (hv : s0.visited = []) (hp : s0.processed = []) (order : List (ClassPtr × ClassPtr))
    (horder : ∀ e, e ∈ order ↔ e ∈ g) :
    ∃ N b s', (∀ fuel, N ≤ fuel → cycle_loop fuel g order (true, s0) = .ok (b, s')) ∧
      (b = true ↔ ∀ e, e ∈ g → ReachesRoot g e.1) := by
  have hinv : WalkInv g s0 := by
    constructor
    · intro a ha; rw [hp] at ha; simp at ha
    · intro c hc; rw [hp] at hc; simp at hc
  obtain ⟨N, r, hloop⟩ := cycle_loop_terminates g hclosed order (true, s0)
    (fun e he => (horder e).mp he) hinv
  obtain ⟨b, s'⟩ := r
  refine ⟨N, b, s', fun fuel hfuel => cycle_loop_mono_le N fuel hfuel g order _ _ hloop, ?_⟩
  constructor
  · intro hb e he
    obtain ⟨k, hk⟩ := ((cycle_loop_post N g order _ _ hloop).2.1 hb).2.2 e ((horder e).mpr he)
    exact ⟨k, hk.1⟩
  · intro hall
    obtain ⟨M, s2, hloop2, _⟩ := cycle_loop_of_reaches g order (true, s0)
      (fun e he => hall e ((horder e).mp he)) (by intro a ha; rw [hv] at ha; simp at ha)
    have h1 := cycle_loop_mono_le N (max N M) (le_max_left _ _) g order _ _ hloop
    have h2 := cycle_loop_mono_le M (max N M) (le_max_right _ _) g order _ _ hloop2
    rw [h1] at h2
    simp only [Except.ok.injEq, Prod.mk.injEq] at h2
    exact h2.1

/-- C18: on a relation in which every recorded parent is named `Object` or `IO`
or has a recorded edge, the loop of cycle checks, started with empty marker
sets and walking the entries in any order, runs to completion, and all its
walks succeed exactly when the chain of every class with a recorded edge
reaches a class named `Object` or `IO`; so two orders give the same boolean. -/
theorem C18_loop_result_order_independent (g : ClassPtrMap) (hclosed : Closed g)
    (s0 : SemanticAnalyzer) (hv : s0.visited = []) (hp : s0.processed = []) :
    (∀ order : List (ClassPtr × ClassPtr), (∀ e, e ∈ order ↔ e ∈ g) →
      ∃ N b s', (∀ fuel, N ≤ fuel → cycle_loop fuel g order (true, s0) = .ok (b, s')) ∧
        (b = true ↔ ∀ e, e ∈ g → ReachesRoot g e.1)) ∧
      ∀ (order1 order2 : List (ClassPtr × ClassPtr)) (fuel1 fuel2 : Nat) (b1 b2 : Bool)
        (s1 s2 : SemanticAnalyzer),
        (∀ e, e ∈ order1 ↔ e ∈ g) → (∀ e, e ∈ order2 ↔ e ∈ g) →
        cycle_loop fuel1 g order1 (true, s0) = .ok (b1, s1) →
        cycle_loop fuel2 g order2 (true, s0) = .ok (b2, s2) → b1 = b2 := by
  refine ⟨cycle_loop_from_empty g hclosed s0 hv hp, ?_⟩
  intro order1 order2 fuel1 fuel2 b1 b2 s1 s2 h1 h2 hl1 hl2
  obtain ⟨N1, c1, t1, hN1, hiff1⟩ := cycle_loop_from_empty g hclosed s0 hv hp order1 h1
  obtain ⟨N2, c2, t2, hN2, hiff2⟩ := cycle_loop_from_empty g hclosed s0 hv hp order2 h2
  have e1 : b1 = c1 := by
    have ha := cycle_loop_mono_le fuel1 (max fuel1 N1) (le_max_left _ _) g order1 _ _ hl1
    rw [hN1 _ (le_max_right _ _)] at ha
    simp only [Except.ok.injEq, Prod.mk.injEq] at ha
    exact ha.1.symm
  have e2 : b2 = c2 := by
    have ha := cycle_loop_mono_le fuel2 (max fuel2 N2) (le_max_left _ _) g order2 _ _ hl2
    rw [hN2 _ (le_max_right _ _)] at ha
    simp only [Except.ok.injEq, Prod.mk.injEq] at ha
    exact ha.1.symm
  rw [e1, e2]
  have : c1 = true ↔ c2 = true := hiff1.trans hiff2.symm
  cases c1 <;> cases c2 <;> simp_all

/-- C18, on the relation of `smallProgram`: every order of its entries gives
the same boolean. -/
theorem C18_witness :
    Closed (graph_of smallProgram) ∧
      (∀ order : List (ClassPtr × ClassPtr), (∀ e, e ∈ order ↔ e ∈ graph_of smallProgram) →
        ∃ N b s', (∀ fuel, N ≤ fuel →
            cycle_loop fuel (graph_of smallProgram) order (true, SemanticAnalyzer.fresh) =
              .ok (b, s')) ∧
          (b = true ↔ ∀ e, e ∈ graph_of smallProgram →
            ReachesRoot (graph_of smallProgram) e.1)) ∧
      ∀ (order1 order2 : List (ClassPtr × ClassPtr)) (fuel1 fuel2 : Nat) (b1 b2 : Bool)
        (s1 s2 : SemanticAnalyzer),
        (∀ e, e ∈ order1 ↔ e ∈ graph_of smallProgram) →
        (∀ e, e ∈ order2 ↔ e ∈ graph_of smallProgram) →
        cycle_loop fuel1 (graph_of smallProgram) order1 (true, SemanticAnalyzer.fresh) =
          .ok (b1, s1) →
        cycle_loop fuel2 (graph_of smallProgram) order2 (true, SemanticAnalyzer.fresh) =
          .ok (b2, s2) → b1 = b2 :=
  ⟨by decide, C18_loop_result_order_independent (graph_of smallProgram) (by decide)
    SemanticAnalyzer.fresh rfl rfl⟩

/-! ## C19 -/

theorem find_parent_firstNamed (classes : Classes) (c p : ClassPtr)
    (h : FirstNamed classes c.parent p) : find_parent classes c = some p := by
  obtain ⟨pre, post, hsplit, hname, hpre⟩ := h
  unfold find_parent
  rw [hsplit, List.find?_append]
  have hnone : pre.find? (fun q => c.parent == q.name) = none := by
    rw [List.find?_eq_none]
    intro d hd
    have := hpre d hd
    simpa using fun h => this h.symm
  rw [hnone]
  simp [hname]

theorem firstNamed_of_named (classes : Classes) (c : ClassPtr)
    (h : ∃ d, d ∈ classes ∧ d.name = c.parent) :
    ∃ p, FirstNamed classes c.parent p ∧ find_parent classes c = some p := by
  cases hfp : find_parent classes c with
  | none =>
    obtain ⟨d, hd, hn⟩ := h
    exact absurd hn.symm (find_parent_none classes c hfp d hd)
  | some p =>
    refine ⟨p, ?_, rfl⟩
    unfold find_parent at hfp
    obtain ⟨hp, pre, post, hsplit, hpre⟩ := List.find?_eq_some.mp hfp
    refine ⟨pre, post, hsplit, ?_, ?_⟩
    · have : c.parent = p.name := by simpa using hp
      exact this.symm
    · intro d hd hdn
      have := hpre d hd
      simp [hdn] at this

/-- C19: for a class `c` of the sequence whose parent name some class of the
sequence carries, the edge recorded for `c` points to the first class in
sequence order with that name; and a class whose parent name no class carries
gets no edge. -/
theorem C19_edge_points_to_first_match (classes : Classes) (hso : SameObject classes)
    (c : ClassPtr) (hc : c ∈ classes) :
    ((∃ d, d ∈ classes ∧ d.name = c.parent) →
        ∃ p, FirstNamed classes c.parent p ∧ (graph_of classes).lookup c = some p) ∧
      (∀ p, FirstNamed classes c.parent p → (graph_of classes).lookup c = some p) ∧
      ((∀ d, d ∈ classes → d.name ≠ c.parent) → (graph_of classes).lookup c = none) := by
  rw [graph_of_lookup classes hso c hc]
  refine ⟨firstNamed_of_named classes c, fun p hp => find_parent_firstNamed classes c p hp,
    fun hno => ?_⟩
  unfold find_parent
  rw [List.find?_eq_none]
  intro d hd
  have := hno d hd
  simpa using fun h => this h.symm

/-- C19, at `shadowProgram`: the parent name `A` of `B` is carried by two
classes, and the edge of `B` points to the first of them. -/
theorem C19_witness :
    FirstNamed shadowProgram (mkClass 2 "B" "A").parent (mkClass 1 "A" "Object") ∧
      (graph_of shadowProgram).lookup (mkClass 2 "B" "A") = some (mkClass 1 "A" "Object") := by
  have hfirst : FirstNamed shadowProgram (mkClass 2 "B" "A").parent (mkClass 1 "A" "Object") :=
    ⟨[], [mkClass 2 "B" "A", mkClass 3 "Main" "Object", mkClass 4 "Object" NOCLASS,
      mkClass 5 "A" "Main"], rfl, rfl, by simp⟩
  exact ⟨hfirst, (C19_edge_points_to_first_match shadowProgram
    (sameObject_of_nodup shadowProgram (by decide)) (mkClass 2 "B" "A")
    (by simp [shadowProgram])).2.1 _ hfirst⟩

/-! ## C20 -/

mutual
theorem visitExpr_eq : ∀ (e : Expression) (v : AstNodeDisplayer),
    visitExpr e v = { os := v.os ++ renderExpr v.depth e, depth := v.depth }
  | .StringConst _, v => by
    simp [visitExpr, renderExpr, AstNodeDisplayer.open_node, AstNodeDisplayer.close_node,
      AstNodeDisplayer.leaf]
  | .IntConst _, v => by
    simp [visitExpr, renderExpr, AstNodeDisplayer.open_node, AstNodeDisplayer.close_node,
      AstNodeDisplayer.leaf]
  | .BoolConst _, v => by
    simp [visitExpr, renderExpr, AstNodeDisplayer.open_node, AstNodeDisplayer.close_node,
      AstNodeDisplayer.leaf]
  | .New, v => by
    simp [visitExpr, renderExpr, AstNodeDisplayer.open_node, AstNodeDisplayer.close_node,
      AstNodeDisplayer.leaf]
  | .Object, v => by
    simp [visitExpr, renderExpr, AstNodeDisplayer.open_node, AstNodeDisplayer.close_node,
      AstNodeDisplayer.leaf]
  | .NoExpr, v => by
    simp [visitExpr, renderExpr, AstNodeDisplayer.open_node, AstNodeDisplayer.close_node,
      AstNodeDisplayer.leaf]
  | .IsVoid expr, v => by
    simp [visitExpr, renderExpr, AstNodeDisplayer.open_node, AstNodeDisplayer.close_node,
      AstNodeDisplayer.leaf, visitExpr_eq expr]
  | .Assign expr, v => by
    simp [visitExpr, renderExpr, AstNodeDisplayer.open_node, AstNodeDisplayer.close_node,
      AstNodeDisplayer.leaf, visitExpr_eq expr]
  | .Complement expr, v => by
    simp [visitExpr, renderExpr, AstNodeDisplayer.open_node, AstNodeDisplayer.close_node,
      AstNodeDisplayer.leaf, visitExpr_eq expr]
  | .Not expr, v => by
    simp [visitExpr, renderExpr, AstNodeDisplayer.open_node, AstNodeDisplayer.close_node,
      AstNodeDisplayer.leaf, visitExpr_eq expr]
  | .Block body, v => by
    simp [visitExpr, renderExpr, AstNodeDisplayer.open_node, AstNodeDisplayer.close_node,
      AstNodeDisplayer.leaf, visitExprs_eq body]
  | .If predicate iftrue iffalse, v => by
    simp [visitExpr, renderExpr, AstNodeDisplayer.open_node, AstNodeDisplayer.close_node,
      AstNodeDisplayer.leaf, visitExpr_eq predicate, visitExpr_eq iftrue,
      visitExpr_eq iffalse]
  | .While lhs rhs, v => by
    simp [visitExpr, renderExpr, AstNodeDisplayer.open_node, AstNodeDisplayer.close_node,
      AstNodeDisplayer.leaf, visitExpr_eq lhs, visitExpr_eq rhs]
  | .LessThan lhs rhs, v => by
    simp [visitExpr, renderExpr, AstNodeDisplayer.open_node, AstNodeDisplayer.close_node,
      AstNodeDisplayer.leaf, visitExpr_eq lhs, visitExpr_eq rhs]
  | .EqualTo lhs rhs, v => by
    simp [visitExpr, renderExpr, AstNodeDisplayer.open_node, AstNodeDisplayer.close_node,
      AstNodeDisplayer.leaf, visitExpr_eq lhs, visitExpr_eq rhs]
  | .LessThanEqualTo lhs rhs, v => by
    simp [visitExpr, renderExpr, AstNodeDisplayer.open_node, AstNodeDisplayer.close_node,
      AstNodeDisplayer.leaf, visitExpr_eq lhs, visitExpr_eq rhs]
  | .Plus lhs rhs, v => by
    simp [visitExpr, renderExpr, AstNodeDisplayer.open_node, AstNodeDisplayer.close_node,
      AstNodeDisplayer.leaf, visitExpr_eq lhs, visitExpr_eq rhs]
  | .Sub lhs rhs, v => by
    simp [visitExpr, renderExpr, AstNodeDisplayer.open_node, AstNodeDisplayer.close_node,
      AstNodeDisplayer.leaf, visitExpr_eq lhs, visitExpr_eq rhs]
  | .Mul lhs rhs, v => by
    simp [visitExpr, renderExpr, AstNodeDisplayer.open_node, AstNodeDisplayer.close_node,
      AstNodeDisplayer.leaf, visitExpr_eq lhs, visitExpr_eq rhs]
  | .Div lhs rhs, v => by
    simp [visitExpr, renderExpr, AstNodeDisplayer.open_node, AstNodeDisplayer.close_node,
      AstNodeDisplayer.leaf, visitExpr_eq lhs, visitExpr_eq rhs]
  | .Let lhs rhs, v => by
    simp [visitExpr, renderExpr, AstNodeDisplayer.open_node, AstNodeDisplayer.close_node,
      AstNodeDisplayer.leaf, visitExpr_eq lhs, visitExpr_eq rhs]
  | .StaticDispatch obj actual, v => by
    simp [visitExpr, renderExpr, AstNodeDisplayer.open_node, AstNodeDisplayer.close_node,
      AstNodeDisplayer.leaf, visitExpr_eq obj, visitExprs_eq actual]
  | .DynamicDispatch obj actual, v => by
    simp [visitExpr, renderExpr, AstNodeDisplayer.open_node, AstNodeDisplayer.close_node,
      AstNodeDisplayer.leaf, visitExpr_eq obj, visitExprs_eq actual]
  | .Case expr branches, v => by
    simp [visitExpr, renderExpr, AstNodeDisplayer.open_node, AstNodeDisplayer.close_node,
      AstNodeDisplayer.leaf, visitExpr_eq expr, visitBranches_eq branches]
theorem visitExprs_eq : ∀ (es : List Expression) (v : AstNodeDisplayer),
    visitExprs es v = { os := v.os ++ renderExprs v.depth es, depth := v.depth }
  | [], v => by simp [visitExprs, renderExprs]
  | e :: es, v => by simp [visitExprs, renderExprs, visitExpr_eq e, visitExprs_eq es]
theorem visitBranch_eq : ∀ (b : CaseBranch) (v : AstNodeDisplayer),
    visitBranch b v = { os := v.os ++ renderBranch v.depth b, depth := v.depth }
  | .mk expr, v => by
    simp [visitBranch, renderBranch, AstNodeDisplayer.open_node, AstNodeDisplayer.close_node,
      visitExpr_eq expr]
theorem visitBranches_eq : ∀ (bs : List CaseBranch) (v : AstNodeDisplayer),
    visitBranches bs v = { os := v.os ++ renderBranches v.depth bs, depth := v.depth }
  | [], v => by simp [visitBranches, renderBranches]
  | b :: bs, v => by simp [visitBranches, renderBranches, visitBranch_eq b, visitBranches_eq bs]
end

theorem renderExprs_flatMap (d : Nat) (es : List Expression) :
    renderExprs d es = es.flatMap fun e => (visitExpr e { os := [], depth := d }).os := by
  induction es with
  | nil => simp [renderExprs]
  | cons e es ih => simp [renderExprs, ih, visitExpr_eq e]

theorem renderBranches_flatMap (d : Nat) (bs : List CaseBranch) :
    renderBranches d bs = bs.flatMap fun b => (visitBranch b { os := [], depth := d }).os := by
  induction bs with
  | nil => simp [renderBranches]
  | cons b bs ih => simp [renderBranches, ih, visitBranch_eq b]

theorem visitFormals_eq (fs : List Formal) (v : AstNodeDisplayer) :
    visitFormals fs v =
      { os := v.os ++ fs.flatMap (fun f => (visitFormal f { os := [], depth := v.depth }).os),
        depth := v.depth } := by
  induction fs generalizing v with
  | nil => simp [visitFormals]
  | cons f fs ih => simp [visitFormals, ih, visitFormal, AstNodeDisplayer.leaf]

theorem visitFeature_eq (f : Feature) (v : AstNodeDisplayer) :
    visitFeature f v =
      { os := v.os ++ (setw_empty v.depth ++ (AstNode.feature f).label) ::
          (AstNode.feature f).children.flatMap
            (fun c => (visit c { os := [], depth := v.depth + 1 }).os),
        depth := v.depth } := by
  cases f with
  | Attribute name type_decl init =>
    simp [visitFeature, AstNode.label, AstNode.children, visit, visitExpr_eq init,
      AstNodeDisplayer.open_node, AstNodeDisplayer.close_node]
  | Method name return_type params body =>
    simp [visitFeature, AstNode.label, AstNode.children, visit, visitExpr_eq body,
      visitFormals_eq params, AstNodeDisplayer.open_node, AstNodeDisplayer.close_node,
      List.flatMap_map]

theorem visitFeatures_eq (fs : List Feature) (v : AstNodeDisplayer) :
    visitFeatures fs v =
      { os := v.os ++ fs.flatMap (fun f => (visitFeature f { os := [], depth := v.depth }).os),
        depth := v.depth } := by
  induction fs generalizing v with
  | nil => simp [visitFeatures]
  | cons f fs ih => simp [visitFeatures, ih, visitFeature_eq f]

theorem visitClasses_eq (cs : List ClassPtr) (v : AstNodeDisplayer) :
    visitClasses cs v =
      { os := v.os ++ cs.flatMap (fun c => (visitClass c.obj { os := [], depth := v.depth }).os),
        depth := v.depth } := by
  induction cs generalizing v with
  | nil => simp [visitClasses]
  | cons c cs ih =>
    simp [visitClasses, ih, visitClass, visitFeatures_eq c.obj.features,
      AstNodeDisplayer.open_node, AstNodeDisplayer.close_node]

theorem renderExpr_children (d : Nat) (e : Expression) :
    renderExpr d e = (setw_empty d ++ e.label) ::
      e.children.flatMap (fun c => (visit c { os := [], depth := d + 1 }).os) := by
  cases e <;>
    simp [renderExpr, Expression.label, Expression.children, visit, visitExpr_eq,
      visitBranch_eq, renderExprs_flatMap, renderBranches_flatMap, List.flatMap_map]

/-- The visit of a node appends its own line, indented by the depth, then what
the visits of its displayed children write at one more depth, and leaves the
depth as it was. -/
theorem visit_eq (n : AstNode) (v : AstNodeDisplayer) :
    visit n v =
      { os := v.os ++ (setw_empty v.depth ++ n.label) ::
          n.children.flatMap (fun c => (visit c { os := [], depth := v.depth + 1 }).os),
        depth := v.depth } := by
  cases n with
  | cls c =>
    simp [visit, visitClass, visitFeatures_eq c.features, AstNode.label, AstNode.children,
      AstNodeDisplayer.open_node, AstNodeDisplayer.close_node, List.flatMap_map]
  | feature f => exact visitFeature_eq f v
  | formal f => simp [visit, visitFormal, AstNode.label, AstNode.children, AstNodeDisplayer.leaf]
  | expr e =>
    simp only [visit, visitExpr_eq e v, renderExpr_children v.depth e, AstNode.label,
      AstNode.children]
  | branch b =>
    cases b with
    | mk e =>
      simp [visit, visitBranch, visitExpr_eq e, AstNode.label, AstNode.children,
        AstNodeDisplayer.open_node, AstNodeDisplayer.close_node]

theorem label_starts_with_dash (n : AstNode) : ∃ rest, n.label.data = '-' :: rest := by
  cases n with
  | cls c => exact ⟨"class (".data ++ c.name.data ++ ")\n".data, by
      simp [AstNode.label, String.data_append]⟩
  | feature f =>
    cases f with
    | Attribute name _ _ => exact ⟨"attribute (".data ++ name.data ++ ")\n".data, by
        simp [AstNode.label, String.data_append]⟩
    | Method name _ _ _ => exact ⟨"method (".data ++ name.data ++ ")\n".data, by
        simp [AstNode.label, String.data_append]⟩
  | formal f => exact ⟨"formal (".data ++ f.name.data ++ ")\n".data, by
      simp [AstNode.label, String.data_append]⟩
  | branch b => exact ⟨"casebranch\n".data, rfl⟩
  | expr e =>
    cases e with
    | StringConst token => exact ⟨"str_const (".data ++ token.data ++ ")\n".data, by
        simp [AstNode.label, Expression.label, String.data_append]⟩
    | IntConst token => exact ⟨"int_const (".data ++ token.data ++ ")\n".data, by
        simp [AstNode.label, Expression.label, String.data_append]⟩
    | BoolConst value => exact ⟨"bool_const (".data ++ (show_bool value).data ++ ")\n".data, by
        simp [AstNode.label, Expression.label, String.data_append]⟩
    | _ => exact ⟨_, rfl⟩

theorem indentation_line (d : Nat) (n : AstNode) :
    indentation (setw_empty d ++ n.label) = d := by
  obtain ⟨rest, hrest⟩ := label_starts_with_dash n
  unfold indentation setw_empty
  rw [String.data_append, hrest]
  induction d with
  | zero => simp [List.takeWhile]
  | succ d ih => simp [List.replicate_succ, List.takeWhile]

/-- C20: for every node that the displayer gives a line and every starting
depth `d`, the visit leaves the depth counter at `d`, writes the line of the
node indented by exactly `d` spaces, followed by what the visits of its
displayed children write at depth `d + 1`, so that the line of every displayed
child is indented by exactly `d + 1` spaces; and the visit of a program, which
has no line of its own, visits its classes at depth `d` and leaves the depth
at `d`. -/
theorem C20_display_depth_and_indentation :
    (∀ (n : AstNode) (os : List String) (d : Nat),
      (visit n { os := os, depth := d }).depth = d ∧
        (visit n { os := os, depth := d }).os =
          os ++ (setw_empty d ++ n.label) ::
            n.children.flatMap (fun c => (visit c { os := [], depth := d + 1 }).os) ∧
        indentation (setw_empty d ++ n.label) = d ∧
        ∀ c, c ∈ n.children →
          (setw_empty (d + 1) ++ c.label) ∈ (visit n { os := os, depth := d }).os ∧
            indentation (setw_empty (d + 1) ++ c.label) = d + 1) ∧
      ∀ (p : Program) (os : List String) (d : Nat),
        (visitProgram p { os := os, depth := d }).depth = d ∧
          (visitProgram p { os := os, depth := d }).os =
            os ++ p.classes.flatMap
              (fun c => (visit (AstNode.cls c.obj) { os := [], depth := d }).os) := by
  constructor
  · intro n os d
    have h := visit_eq n { os := os, depth := d }
    refine ⟨by rw [h], by rw [h], indentation_line d n, fun c hc => ⟨?_, indentation_line (d + 1) c⟩⟩
    rw [h]
    simp only [List.mem_append, List.mem_cons, List.mem_flatMap]
    right; right
    refine ⟨c, hc, ?_⟩
    rw [visit_eq c]
    simp
  · intro p os d
    simp [visitProgram, visitClasses_eq, visit]

/-- The records written for `displayExample`, from a new displayer. -/
theorem display_example :
    (visit displayExample AstNodeDisplayer.new).os =
        ["-class (Main)\n", " -method (run)\n", "  -formal (x)\n", "  -if\n",
          "   -bool_const (1)\n", "   -int_const (1)\n", "   -plus\n",
          "    -int_const (2)\n", "    -object\n"] ∧
      (visit displayExample AstNodeDisplayer.new).depth = 0 := by
  decide

end Cool
